import Mathlib

/-!
# BetaDB: a shallow embedding of the bitcask-style storage engine

Definitions translate, function by function, the Go sources of the engine:
the varint codec (`encoding/binary`), the CRC-32 checksum (`hash/crc32`,
IEEE polynomial, reflected), the log-record codec (`data/log_record.go`),
the data-file read path (`data/data_file.go`), the in-memory key directory
(`index/btree.go`), the engine itself (`db.go`), the write batch
(`batch.go`), merge (`merge.go`) and the engine iterator (`iterator.go`).

Machine integers are modelled as `Nat`/`Int` with explicit `% 2^w` at the
points where the Go code converts (`uint32(...)`, `uint64(...)`).  Byte
strings are `List Nat` together with a `bytes` predicate (every element
`< 256`).  File I/O is modelled by keeping every file's content as a
`List Nat`; a short read (Go's `ReadAt` filling fewer bytes than asked)
is an error, as in Go.
-/

set_option maxRecDepth 1000000

namespace BetaDB

/-- All elements of the list are bytes. -/
def bytes (l : List Nat) : Prop := ∀ b ∈ l, b < 256

instance (l : List Nat) : Decidable (bytes l) := by
  unfold bytes; infer_instance

/-! ## Go `encoding/binary` varints -/

/-- Fuel-driven body of Go's `binary.PutUvarint` loop
(`for x >= 0x80 { buf[i] = byte(x) | 0x80; x >>= 7; i++ }; buf[i] = byte(x)`).
The fuel only bounds the recursion; `putUvarint` supplies enough for any input. -/
def putUvarintF : Nat → Nat → List Nat
  | 0, x => [x % 128]
  | fuel + 1, x => if x < 128 then [x] else (x % 128 + 128) :: putUvarintF fuel (x / 128)

/-- Go `binary.PutUvarint`, returning the bytes written. -/
def putUvarint (x : Nat) : List Nat := putUvarintF x x

/-- Go `binary.PutVarint`: zig-zag encode into `PutUvarint`
(`ux := uint64(x) << 1; if x < 0 { ux = ^ux }`). -/
def putVarint (x : Int) : List Nat :=
  putUvarint (if x < 0 then (-2 * x - 1).toNat else (2 * x % (2 ^ 64 : Int)).toNat)

/-- Loop body of Go's `binary.Uvarint`.  Arguments: remaining buffer, loop
index `i`, accumulator `x`, shift `s`.  Returns `(value, bytesRead)`;
`bytesRead = 0` means the buffer was exhausted, `< 0` means overflow. -/
def uvarintLoop : List Nat → Nat → Nat → Nat → Nat × Int
  | [], _, _, _ => (0, 0)
  | b :: rest, i, x, s =>
    if i = 10 then (0, -11)
    else if b < 128 then
      if i = 9 ∧ 1 < b then (0, -10)
      else ((x ||| (b <<< s)) % 2 ^ 64, (i : Int) + 1)
    else uvarintLoop rest (i + 1) ((x ||| ((b &&& 0x7f) <<< s)) % 2 ^ 64) (s + 7)

/-- Go `binary.Uvarint`. -/
def uvarint (buf : List Nat) : Nat × Int := uvarintLoop buf 0 0 0

/-- Go `binary.Varint`: un-zig-zag the `Uvarint` value
(`x := int64(ux >> 1); if ux&1 != 0 { x = ^x }`). -/
def varint (buf : List Nat) : Int × Int :=
  let p := uvarint buf
  (if p.1 % 2 ≠ 0 then -((p.1 >>> 1 : Nat) : Int) - 1 else ((p.1 >>> 1 : Nat) : Int), p.2)

/-! ## Go `hash/crc32` (IEEE polynomial, reflected) -/

/-- One step of the reflected CRC-32 (IEEE) bit loop. -/
def crcRound (c : Nat) : Nat :=
  if c % 2 = 1 then (c / 2) ^^^ 0xEDB88320 else c / 2

/-- Feed one byte into the CRC state (xor, then 8 rounds of the bit loop). -/
def crcByte (c b : Nat) : Nat :=
  crcRound (crcRound (crcRound (crcRound (crcRound (crcRound (crcRound (crcRound (c ^^^ b))))))))

/-- Go `crc32.Update(crc, crc32.IEEETable, p)`. -/
def crc32Update (crc : Nat) (p : List Nat) : Nat :=
  0xFFFFFFFF ^^^ (p.foldl crcByte (crc ^^^ 0xFFFFFFFF))

/-- Go `crc32.ChecksumIEEE`. -/
def checksumIEEE (p : List Nat) : Nat := crc32Update 0 p

/-! ## Log records (`data/log_record.go`) -/

/-- `LogRecordNormal` (Go `iota` value 0). -/
def LogRecordNormal : Nat := 0

/-- `LogRecordDeleted`: the tombstone type (Go `iota` value 1). -/
def LogRecordDeleted : Nat := 1

/-- `LogRecordTxnFinished`: the batch-terminator type (Go `iota` value 2). -/
def LogRecordTxnFinished : Nat := 2

/-- `maxLogRecordHeaderSize = binary.MaxVarintLen32*2 + 5 = 15`. -/
def maxLogRecordHeaderSize : Nat := 15

/-- The Go `LogRecord` struct: key, value, and record type (a byte). -/
structure LogRecord where
  key : List Nat
  value : List Nat
  typ : Nat
deriving DecidableEq, Repr

/-- The Go `logRecordHeader` struct. -/
structure logRecordHeader where
  crc : Nat
  recordType : Nat
  keySize : Nat
  valueSize : Nat
deriving DecidableEq, Repr

/-- The Go `LogRecordPos` positional entry: file id, byte offset, record size. -/
structure LogRecordPos where
  fid : Nat
  offset : Nat
  size : Nat
deriving DecidableEq, Repr

instance : Inhabited LogRecordPos := ⟨{ fid := 0, offset := 0, size := 0 }⟩

/-- Store a `uint32` in little-endian order (Go `binary.LittleEndian.PutUint32`). -/
def putUint32LE (c : Nat) : List Nat :=
  [c % 256, c / 256 % 256, c / 65536 % 256, c / 16777216 % 256]

/-- Load a little-endian `uint32` (Go `binary.LittleEndian.Uint32`). -/
def leUint32 (l : List Nat) : Nat :=
  l.getD 0 0 % 256 + 256 * (l.getD 1 0 % 256) + 65536 * (l.getD 2 0 % 256) +
    16777216 * (l.getD 3 0 % 256)

/-- The variable tail of an encoded record: type byte, varint key size,
varint value size, key bytes, value bytes.  The CRC is computed over
exactly these bytes. -/
def encTail (r : LogRecord) : List Nat :=
  r.typ :: (putVarint r.key.length ++ putVarint r.value.length ++ r.key ++ r.value)

/-- Go `EncodeLogRecord`: CRC (4 bytes, little-endian) followed by the tail.
Returns the byte array and its length, as the Go function does. -/
def EncodeLogRecord (r : LogRecord) : List Nat × Nat :=
  (putUint32LE (checksumIEEE (encTail r)) ++ encTail r, 4 + (encTail r).length)

/-- The bytes of an encoded record. -/
def encBytes (r : LogRecord) : List Nat := (EncodeLogRecord r).1

/-- The total encoded length of a record. -/
def encLen (r : LogRecord) : Nat := (EncodeLogRecord r).2

/-- Go `EncodeLogRecordPos`: three varints (fid, offset, size). -/
def EncodeLogRecordPos (pos : LogRecordPos) : List Nat :=
  putVarint pos.fid ++ putVarint pos.offset ++ putVarint pos.size

/-- Interpret an `Int` as Go `uint32(x)` does. -/
def uint32Of (x : Int) : Nat := (x % (2 ^ 32 : Int)).toNat

/-- Interpret an `Int` as Go `int64(uint64(x))`/array indexing does; Go would
panic on a negative index, which the engine never produces, so the model
truncates at 0. -/
def natOf (x : Int) : Nat := x.toNat

/-- Go `DecodeLogRecordPos`: three varints in fixed order. -/
def DecodeLogRecordPos (buffer : List Nat) : LogRecordPos :=
  let p1 := varint buffer
  let p2 := varint (buffer.drop (natOf p1.2))
  let p3 := varint ((buffer.drop (natOf p1.2)).drop (natOf p2.2))
  { fid := uint32Of p1.1, offset := natOf p2.1, size := uint32Of p3.1 }

/-- Go `decodeLogRecordHeader`: `nil` when 4 or fewer bytes are available,
else the parsed header and the number of header bytes consumed. -/
def decodeLogRecordHeader (buffer : List Nat) : Option (logRecordHeader × Int) :=
  if buffer.length ≤ 4 then none
  else
    let p1 := varint (buffer.drop 5)
    let p2 := varint ((buffer.drop 5).drop (natOf p1.2))
    some ({ crc := leUint32 (buffer.take 4), recordType := buffer.getD 4 0,
            keySize := uint32Of p1.1, valueSize := uint32Of p2.1 },
          5 + p1.2 + p2.2)

/-- Go `getLogRecordCRC`: CRC over the header tail, then the key, then the
value (`crc32.Update` chains). -/
def getLogRecordCRC (lr : LogRecord) (header : List Nat) : Nat :=
  crc32Update (crc32Update (checksumIEEE header) lr.key) lr.value

/-! ## Errors (`errors.go`, `data/data_file.go`, and I/O) -/

/-- The engine's error taxonomy: the named errors of `errors.go`, plus
`ErrInvalidCRC` from `data/data_file.go`, `io.EOF`, and a short-read I/O
error (Go `ReadAt` filling fewer bytes than requested). -/
inductive Err where
  | eof
  | invalidCRC
  | shortRead
  | keyIsEmpty
  | keyNotFound
  | dataFileNotFound
  | indexUpdateFailed
  | dataDirectoryCorrupted
  | exceedMaxBatchNum
  | mergeInProgress
  | mergeRatioUnreached
  | noEnoughSpaceForMerge
  | invalidOptions
  | parseError
deriving DecidableEq, Repr

instance {ε α : Type} [DecidableEq ε] [DecidableEq α] : DecidableEq (Except ε α) := fun x y =>
  match x, y with
  | .ok a, .ok b => if h : a = b then .isTrue (by rw [h]) else .isFalse (by simp [h])
  | .error a, .error b => if h : a = b then .isTrue (by rw [h]) else .isFalse (by simp [h])
  | .ok _, .error _ => .isFalse (by simp)
  | .error _, .ok _ => .isFalse (by simp)

/-! ## Data files (`data/data_file.go`) -/

/-- The Go `DataFile` struct.  The I/O manager is modelled by carrying the
file's on-disk content; `IoManager.Size()` is `content.length`. -/
structure DataFile where
  fileID : Nat
  writeOffset : Nat
  content : List Nat
deriving DecidableEq, Repr

/-- `readNBytes`: read exactly `n` bytes at `offset`; Go's `ReadAt` errors
when fewer than `n` bytes are available. -/
def readNBytes (content : List Nat) (numBytes offset : Nat) : Except Err (List Nat) :=
  if offset + numBytes ≤ content.length then .ok ((content.drop offset).take numBytes)
  else .error .shortRead

/-- Go `DataFile.ReadLogRecord`: fetch up to `maxLogRecordHeaderSize` bytes
(truncated near the end of the file), decode the header, detect the two EOF
conditions, read the key/value bytes, and verify the CRC. -/
def ReadLogRecord (content : List Nat) (offset : Nat) : Except Err (LogRecord × Nat) := do
  let fileSize := content.length
  let headerBytes :=
    if offset + maxLogRecordHeaderSize > fileSize then fileSize - offset
    else maxLogRecordHeaderSize
  let headerBuffer ← readNBytes content headerBytes offset
  match decodeLogRecordHeader headerBuffer with
  | none => .error .eof
  | some (header, headerSize) =>
    if header.crc = 0 ∧ header.keySize = 0 ∧ header.valueSize = 0 then .error .eof
    else do
      let keySize := header.keySize
      let valueSize := header.valueSize
      let recordSize := natOf headerSize + keySize + valueSize
      let base : LogRecord := { key := [], value := [], typ := header.recordType }
      let logRecord ←
        if 0 < keySize ∨ 0 < valueSize then do
          let kvBuffer ← readNBytes content (keySize + valueSize) (offset + natOf headerSize)
          pure { base with key := kvBuffer.take keySize, value := kvBuffer.drop keySize }
        else pure base
      let crc := getLogRecordCRC logRecord ((headerBuffer.drop 4).take (natOf headerSize - 4))
      if crc ≠ header.crc then .error .invalidCRC
      else .ok (logRecord, recordSize)

/-- Go `DataFile.Write`: append the bytes and advance the write offset. -/
def DataFile.write (df : DataFile) (buffer : List Nat) : DataFile :=
  { df with content := df.content ++ buffer, writeOffset := df.writeOffset + buffer.length }

/-- Go `DataFile.WriteHintRecord`: append a record whose key is the user key
and whose value is the encoded positional entry. -/
def writeHintRecord (hint : List Nat) (key : List Nat) (pos : LogRecordPos) : List Nat :=
  hint ++ encBytes { key := key, value := EncodeLogRecordPos pos, typ := LogRecordNormal }

/-! ## The key directory (`index/btree.go`)

Google's btree keyed by `bytes.Compare` realises a mapping from byte-string
keys to positional entries whose iteration order is the byte-wise
lexicographic order.  The model is a strictly sorted association list; the
sortedness is an invariant of reachable states, proved below. -/

/-- Go `bytes.Compare`: byte-wise lexicographic comparison, a shorter
proper prefix compares less. -/
def bytesCompare : List Nat → List Nat → Ordering
  | [], [] => .eq
  | [], _ :: _ => .lt
  | _ :: _, [] => .gt
  | a :: as, b :: bs => if a < b then .lt else if b < a then .gt else bytesCompare as bs

/-- Strict key order of the btree (`Item.Less`, `bytes.Compare == -1`). -/
def keyLt (a b : List Nat) : Prop := bytesCompare a b = .lt

instance (a b : List Nat) : Decidable (keyLt a b) := by
  unfold keyLt; infer_instance

/-- The key directory content: an association list from keys to positional
entries, kept sorted by `keyLt` (the order Google's btree maintains). -/
abbrev Index := List (List Nat × LogRecordPos)

/-- `BTree.Put` (`ReplaceOrInsert`): insert or replace, returning the new
directory and the prior entry if any. -/
def idxPut : Index → List Nat → LogRecordPos → Index × Option LogRecordPos
  | [], key, pos => ([(key, pos)], none)
  | (k, p) :: rest, key, pos =>
    if keyLt key k then ((key, pos) :: (k, p) :: rest, none)
    else if key = k then ((key, pos) :: rest, some p)
    else
      let r := idxPut rest key pos
      ((k, p) :: r.1, r.2)

/-- `BTree.Get`. -/
def idxGet : Index → List Nat → Option LogRecordPos
  | [], _ => none
  | (k, p) :: rest, key => if key = k then some p else idxGet rest key

/-- `BTree.Delete`: returns the new directory, the prior entry, and whether
the key existed. -/
def idxDelete : Index → List Nat → Index × Option LogRecordPos × Bool
  | [], _ => ([], none, false)
  | (k, p) :: rest, key =>
    if key = k then (rest, some p, true)
    else
      let r := idxDelete rest key
      ((k, p) :: r.1, r.2)

/-- `BTree.Size`. -/
def idxSize (idx : Index) : Nat := idx.length

/-- `newBTreeIterator`: snapshot the tree into an array in ascending
(`Ascend`) or descending (`Descend`) key order. -/
def idxSnapshot (idx : Index) (reverse : Bool) : List (List Nat × LogRecordPos) :=
  if reverse then idx.reverse else idx

/-! ## Engine state (`db.go`, `options.go`, `merge.go`)

The file system is carried inside the state: every file's content is a byte
list.  The advisory lock, `MMapAtStartUp` (a startup I/O mode that `Open`
resets before returning) and the directory path are not modelled.  The
`float32` merge ratio is modelled as an exact rational `num/den`, and the
environment's available disk space as the parameter `availableDiskSize`. -/

/-- The recognised options (default index type `BTree` is the one modelled;
see `index/btree.go`). -/
structure Options where
  dataFileSize : Nat
  syncWrites : Bool
  bytesPerSync : Nat
  mergeRatioNum : Nat
  mergeRatioDen : Nat
deriving DecidableEq, Repr

/-- Modelled from the spec: the available disk space consulted by merge
(`utils.AvailableDiskSize`), assumed to be a large constant. -/
def availableDiskSize : Nat := 2 ^ 62

/-- `nonTransactionSeqNo`: sequence number 0 marks non-batch records. -/
def nonTransactionSeqNo : Nat := 0

/-- `txnFinKey`: the ASCII bytes of `"txn-fin"`. -/
def txnFinKey : List Nat := [116, 120, 110, 45, 102, 105, 110]

/-- `mergeFinishedKey`: the ASCII bytes of `"merge.finished"`. -/
def mergeFinishedKey : List Nat := [109, 101, 114, 103, 101, 46, 102, 105, 110, 105, 115, 104, 101, 100]

/-- `seqNoKey`: the ASCII bytes of `"seq.no"`. -/
def seqNoKey : List Nat := [115, 101, 113, 46, 110, 111]

/-- `logRecordKeyWithSeq`: prefix the user key with the uvarint-encoded
sequence number. -/
def logRecordKeyWithSeq (key : List Nat) (seqNo : Nat) : List Nat :=
  putUvarint seqNo ++ key

/-- `parseLogRecordKey`: split the stored key into the user key and the
sequence number. -/
def parseLogRecordKey (key : List Nat) : List Nat × Nat :=
  let p := uvarint key
  (key.drop (natOf p.2), p.1)

/-- The sibling `-merge` scratch directory left behind by a completed merge:
the merge engine's data files, the hint file, and the `merge-finished`
marker.  (`seq-no` and the lock file are skipped by `loadMergeFiles`.) -/
structure MergeDir where
  files : List (Nat × List Nat)
  hint : List Nat
  mergeFin : Option (List Nat)
deriving DecidableEq, Repr

/-- The Go `Database` struct together with the on-disk state it owns: the
non-`.data` files of the live directory (`hint-index`, `merge-finished`,
`seq-no`) and the sibling merge directory. -/
structure Database where
  options : Options
  activeFile : Option DataFile
  olderFiles : List (Nat × DataFile)
  index : Index
  seqNo : Nat
  isMerging : Bool
  bytesWrite : Nat
  reclaimSize : Nat
  dirHint : Option (List Nat)
  dirMergeFin : Option (List Nat)
  dirSeqNo : Option (List Nat)
  mergeDir : Option MergeDir
deriving DecidableEq, Repr

/-- A freshly opened database over an empty directory (no data files yet:
`loadDataFiles` leaves `activeFile` nil). -/
def mkDatabase (options : Options) : Database :=
  { options := options, activeFile := none, olderFiles := [], index := [], seqNo := 0,
    isMerging := false, bytesWrite := 0, reclaimSize := 0,
    dirHint := none, dirMergeFin := none, dirSeqNo := none, mergeDir := none }

/-- `setActiveDataFile`: open a data file with id 0, or previous id + 1,
and make it the active file. -/
def setActiveDataFile (db : Database) : Database :=
  let initialFileID := match db.activeFile with
    | none => 0
    | some af => af.fileID + 1
  { db with activeFile := some { fileID := initialFileID, writeOffset := 0, content := [] } }

/-- `appendLogRecord` (the `WithLock` wrapper adds only locking): encode,
rotate the active file when the size threshold would be exceeded, append,
and apply the sync policy.  Total in the model (file I/O does not fail);
returns the positional entry. -/
def appendLogRecord (db : Database) (logRecord : LogRecord) : Database × LogRecordPos :=
  let db := if db.activeFile = none then setActiveDataFile db else db
  match db.activeFile with
  | none => (db, { fid := 0, offset := 0, size := 0 })
  | some active =>
    let enc := EncodeLogRecord logRecord
    let size := enc.2
    let (db, active) :=
      if db.options.dataFileSize < active.writeOffset + size then
        let db := { db with olderFiles := db.olderFiles ++ [(active.fileID, active)] }
        let newActive : DataFile := { fileID := active.fileID + 1, writeOffset := 0, content := [] }
        ({ db with activeFile := some newActive }, newActive)
      else (db, active)
    let writeOffset := active.writeOffset
    let active := active.write enc.1
    let bytesWrite := db.bytesWrite + size
    let needSync := db.options.syncWrites ∨
      (0 < db.options.bytesPerSync ∧ db.options.bytesPerSync ≤ bytesWrite)
    let bytesWrite := if needSync then 0 else bytesWrite
    ({ db with activeFile := some active, bytesWrite := bytesWrite },
     { fid := active.fileID, offset := writeOffset, size := size % 2 ^ 32 })

/-- Lookup in the `olderFiles` map (`db.olderFiles[fid]`). -/
def olderLookup : List (Nat × DataFile) → Nat → Option DataFile
  | [], _ => none
  | (id, df) :: rest, fid => if fid = id then some df else olderLookup rest fid

/-- `getValueByPosition`: resolve the file by id (active first, then the
immutable table), read at the offset, reject tombstones.  A nil active file
would be a nil dereference in Go; the engine never reaches it with an entry
in the directory, and the model returns `DataFileNotFound` there. -/
def getValueByPosition (db : Database) (pos : LogRecordPos) : Except Err (List Nat) := do
  let dataFile? := match db.activeFile with
    | none => none
    | some active =>
      if active.fileID = pos.fid then some active
      else olderLookup db.olderFiles pos.fid
  match dataFile? with
  | none => .error .dataFileNotFound
  | some dataFile => do
    let r ← ReadLogRecord dataFile.content pos.offset
    if r.1.typ = LogRecordDeleted then .error .keyNotFound
    else .ok r.1.value

/-- `Database.Put`: reject empty keys, append a Normal record with the
non-transaction sequence prefix, update the key directory, account the
displaced entry's size into the reclaim counter. -/
def Database.put (db : Database) (key value : List Nat) : Database × Except Err Unit :=
  if key = [] then (db, .error .keyIsEmpty)
  else
    let logRecord : LogRecord :=
      { key := logRecordKeyWithSeq key nonTransactionSeqNo, value := value, typ := LogRecordNormal }
    let (db, pos) := appendLogRecord db logRecord
    let r := idxPut db.index key pos
    let reclaim := match r.2 with
      | some oldPos => db.reclaimSize + oldPos.size
      | none => db.reclaimSize
    ({ db with index := r.1, reclaimSize := reclaim }, .ok ())

/-- `Database.Delete`: no-op for missing keys; append a tombstone (its own
size is immediately reclaimable), then remove the key from the directory. -/
def Database.delete (db : Database) (key : List Nat) : Database × Except Err Unit :=
  if key = [] then (db, .error .keyIsEmpty)
  else if idxGet db.index key = none then (db, .ok ())
  else
    let logRecord : LogRecord :=
      { key := logRecordKeyWithSeq key nonTransactionSeqNo, value := [], typ := LogRecordDeleted }
    let (db, pos) := appendLogRecord db logRecord
    let db := { db with reclaimSize := db.reclaimSize + pos.size }
    let r := idxDelete db.index key
    if r.2.2 = false then (db, .error .indexUpdateFailed)
    else
      let reclaim := match r.2.1 with
        | some oldPos => db.reclaimSize + oldPos.size
        | none => db.reclaimSize
      ({ db with index := r.1, reclaimSize := reclaim }, .ok ())

/-- `Database.Get`: empty-key and missing-key checks, then the positional
read. -/
def Database.get (db : Database) (key : List Nat) : Except Err (List Nat) :=
  if key = [] then .error .keyIsEmpty
  else match idxGet db.index key with
    | none => .error .keyNotFound
    | some pos => getValueByPosition db pos

/-- `Database.ListKeys`: the keys in forward iteration order. -/
def Database.listKeys (db : Database) : List (List Nat) :=
  (idxSnapshot db.index false).map (fun e => e.1)

/-! ## Write batches (`batch.go`)

`pendingWrites` is a Go map keyed by `string(key)`; the model is an
association list with in-place replacement, iterated in staging order
(Go's map iteration order is unspecified; the staged keys are distinct, so
the commit result does not depend on it). -/

/-- Batch options (`WriteBatchOptions`). -/
structure WriteBatchOptions where
  maxBatchNum : Nat
  syncWrites : Bool
deriving DecidableEq, Repr

/-- The staged writes of a batch. -/
abbrev PendingWrites := List (List Nat × LogRecord)

/-- Map assignment `pendingWrites[string(key)] = record`. -/
def pwAssign : PendingWrites → List Nat → LogRecord → PendingWrites
  | [], key, r => [(key, r)]
  | (k, r0) :: rest, key, r =>
    if key = k then (key, r) :: rest else (k, r0) :: pwAssign rest key r

/-- Map lookup `pendingWrites[string(key)]`. -/
def pwGet : PendingWrites → List Nat → Option LogRecord
  | [], _ => none
  | (k, r) :: rest, key => if key = k then some r else pwGet rest key

/-- Map removal `delete(pendingWrites, string(key))`. -/
def pwRemove : PendingWrites → List Nat → PendingWrites
  | [], _ => []
  | (k, r) :: rest, key => if key = k then rest else (k, r) :: pwRemove rest key

/-- `WriteBatch.Put`: stage a Normal record. -/
def wbPut (pw : PendingWrites) (key value : List Nat) : PendingWrites × Except Err Unit :=
  if key = [] then (pw, .error .keyIsEmpty)
  else (pwAssign pw key { key := key, value := value, typ := LogRecordNormal }, .ok ())

/-- `WriteBatch.Delete`: if the live directory has no entry either, drop any
staged record for the key; otherwise stage a tombstone. -/
def wbDelete (db : Database) (pw : PendingWrites) (key : List Nat) :
    PendingWrites × Except Err Unit :=
  if key = [] then (pw, .error .keyIsEmpty)
  else if idxGet db.index key = none then (pwRemove pw key, .ok ())
  else (pwAssign pw key { key := key, value := [], typ := LogRecordDeleted }, .ok ())

/-- The appending loop of `WriteBatch.Commit`: append every staged record
with the batch's sequence prefix, recording the positional entries. -/
def commitAppend (db : Database) (pw : PendingWrites) (seqNo : Nat) :
    Database × List (List Nat × LogRecordPos) :=
  match pw with
  | [] => (db, [])
  | (_, record) :: rest =>
    let (db, pos) := appendLogRecord db
      { key := logRecordKeyWithSeq record.key seqNo, value := record.value, typ := record.typ }
    let (db, positions) := commitAppend db rest seqNo
    (db, (record.key, pos) :: positions)

/-- Lookup in the temporary `positions` map of `WriteBatch.Commit`. -/
def posLookup : List (List Nat × LogRecordPos) → List Nat → Option LogRecordPos
  | [], _ => none
  | (k, p) :: rest, key => if key = k then some p else posLookup rest key

/-- The index-update loop of `WriteBatch.Commit`: Normal staged records are
put, tombstones deleted; displaced entries feed the reclaim counter. -/
def commitApply (db : Database) (pw : PendingWrites)
    (positions : List (List Nat × LogRecordPos)) : Database :=
  match pw with
  | [] => db
  | (_, record) :: rest =>
    let pos := posLookup positions record.key
    let (index, oldPos) :=
      if record.typ = LogRecordNormal then
        let r := idxPut db.index record.key (pos.getD { fid := 0, offset := 0, size := 0 })
        (r.1, r.2)
      else if record.typ = LogRecordDeleted then
        let r := idxDelete db.index record.key
        (r.1, r.2.1)
      else (db.index, none)
    let reclaim := match oldPos with
      | some old => db.reclaimSize + old.size
      | none => db.reclaimSize
    commitApply { db with index := index, reclaimSize := reclaim } rest positions

/-- `WriteBatch.Commit`: early return for an empty batch, the
`MaxBatchNum` check, sequence allocation (`atomic.AddUint64`, wrapping at
`2^64`), the append loop, the `txn-fin` terminator, the optional sync, and
the index-update loop. -/
def commit (db : Database) (pw : PendingWrites) (options : WriteBatchOptions) :
    Database × Except Err Unit :=
  if pw = [] then (db, .ok ())
  else if options.maxBatchNum < pw.length then (db, .error .exceedMaxBatchNum)
  else
    let seqNo := (db.seqNo + 1) % 2 ^ 64
    let db := { db with seqNo := seqNo }
    let (db, positions) := commitAppend db pw seqNo
    let (db, _) := appendLogRecord db
      { key := logRecordKeyWithSeq txnFinKey seqNo, value := [], typ := LogRecordTxnFinished }
    (commitApply db pw positions, .ok ())

/-! ## Decimal ASCII (Go `strconv.Itoa` / `strconv.Atoi`) -/

/-- Fuel-driven decimal formatter; `natToDec` supplies enough fuel. -/
def natToDecF : Nat → Nat → List Nat
  | 0, n => [48 + n % 10]
  | fuel + 1, n => if n < 10 then [48 + n] else natToDecF fuel (n / 10) ++ [48 + n % 10]

/-- `strconv.Itoa`/`strconv.FormatUint` for non-negative values: the ASCII
decimal digits. -/
def natToDec (n : Nat) : List Nat := natToDecF n n

/-- Digit-accumulating loop of `strconv.Atoi`. -/
def parseDecLoop : List Nat → Nat → Option Nat
  | [], acc => some acc
  | c :: rest, acc =>
    if 48 ≤ c ∧ c ≤ 57 then parseDecLoop rest (acc * 10 + (c - 48)) else none

/-- `strconv.Atoi` restricted to the unsigned numerals the engine writes
(sign handling and overflow are never exercised by it). -/
def parseDec (l : List Nat) : Option Nat :=
  if l = [] then none else parseDecLoop l 0

/-! ## Recovery (`db.go`: `loadDataFiles`, `loadIndexFromHintFile`,
`loadIndexFromDataFiles`; `merge.go`: `loadMergeFiles`,
`getNonMergeFileID`; `Close`) -/

/-- The mutable state threaded through `loadIndexFromDataFiles`: the key
directory being rebuilt, the reclaim counter, the buffered transaction
records by sequence number, and the running maximum sequence number. -/
structure ReplayState where
  index : Index
  reclaimSize : Nat
  transactionRecords : Nat → List (LogRecord × LogRecordPos)
  currentSeqNo : Nat

/-- The `updateIndex` closure of `loadIndexFromDataFiles`: tombstones delete
(and their own size is reclaimable), everything else is put; a displaced
entry's size is reclaimable. -/
def updateIndex (st : ReplayState) (key : List Nat) (tp : Nat) (pos : LogRecordPos) :
    ReplayState :=
  let r :=
    if tp = LogRecordDeleted then
      let d := idxDelete st.index key
      ({ st with index := d.1, reclaimSize := st.reclaimSize + pos.size }, d.2.1)
    else
      let p := idxPut st.index key pos
      ({ st with index := p.1 }, p.2)
  match r.2 with
  | some oldPos => { r.1 with reclaimSize := r.1.reclaimSize + oldPos.size }
  | none => r.1

/-- Processing of one scanned record during replay: non-batch records apply
immediately; a batch terminator flushes the buffer for its sequence number;
other batch records are buffered; the maximum sequence number is tracked. -/
def replayRecord (fileID offset size : Nat) (logRecord : LogRecord) (st : ReplayState) :
    ReplayState :=
  let logRecordPos : LogRecordPos := { fid := fileID, offset := offset, size := size % 2 ^ 32 }
  let p := parseLogRecordKey logRecord.key
  let realKey := p.1
  let seqNo := p.2
  let st :=
    if seqNo = nonTransactionSeqNo then updateIndex st realKey logRecord.typ logRecordPos
    else if logRecord.typ = LogRecordTxnFinished then
      let st' := (st.transactionRecords seqNo).foldl
        (fun s tr => updateIndex s tr.1.key tr.1.typ tr.2) st
      { st' with transactionRecords := fun s =>
          if s = seqNo then [] else st'.transactionRecords s }
    else
      { st with transactionRecords := fun s =>
          if s = seqNo then
            st.transactionRecords s ++ [({ logRecord with key := realKey }, logRecordPos)]
          else st.transactionRecords s }
  if st.currentSeqNo < seqNo then { st with currentSeqNo := seqNo } else st

/-- The per-file scan loop of `loadIndexFromDataFiles`: read records from
offset 0 until EOF, feeding each into `replayRecord`; other read errors
abort `Open`.  The fuel only bounds the recursion (every decoded record
advances the offset on the well-formed files the engine writes); callers
supply `content.length + 1`. -/
def replayFileLoop : Nat → Nat → List Nat → Nat → ReplayState → Except Err (ReplayState × Nat)
  | 0, _, _, offset, st => .ok (st, offset)
  | fuel + 1, fileID, content, offset, st =>
    match ReadLogRecord content offset with
    | .error .eof => .ok (st, offset)
    | .error e => .error e
    | .ok (logRecord, size) =>
      replayFileLoop fuel fileID content (offset + size)
        (replayRecord fileID offset size logRecord st)

/-- The file loop of `loadIndexFromDataFiles`: files in ascending id order;
ids below the merge frontier are skipped (the hint file covered them); the
post-scan offset of the last file (when scanned) becomes the active file's
write offset. -/
def replayFiles : List (Nat × List Nat) → Bool → Nat → ReplayState →
    Except Err (ReplayState × Option Nat)
  | [], _, _, st => .ok (st, none)
  | (fid, content) :: rest, hasMerge, nonMergeFileID, st =>
    if hasMerge ∧ fid < nonMergeFileID then replayFiles rest hasMerge nonMergeFileID st
    else do
      let r ← replayFileLoop (content.length + 1) fid content 0 st
      match rest with
      | [] => .ok (r.1, some r.2)
      | _ :: _ => replayFiles rest hasMerge nonMergeFileID r.1

/-- `getNonMergeFileID`: read the single record of the `merge-finished`
file and parse its ASCII decimal value (`strconv.Atoi`, then `uint32`). -/
def getNonMergeFileID (content : List Nat) : Except Err Nat := do
  let r ← ReadLogRecord content 0
  match parseDec r.1.value with
  | none => .error .parseError
  | some n => .ok (n % 2 ^ 32)

/-- The data files the replay iterates over, in the `fileIDs` order:
immutable files ascending, active file last. -/
def Database.replayInput (db : Database) : List (Nat × List Nat) :=
  db.olderFiles.map (fun e => (e.1, e.2.content)) ++
    (match db.activeFile with
     | none => []
     | some af => [(af.fileID, af.content)])

/-- `loadIndexFromDataFiles`: early return when there are no data files;
detect a `merge-finished` file and its frontier; replay; record the active
file's write offset and the recovered sequence number. -/
def loadIndexFromDataFiles (db : Database) : Except Err Database := do
  if db.replayInput = [] then .ok db
  else do
    let fr ← match db.dirMergeFin with
      | none => .ok (false, 0)
      | some finContent => do
        let fid ← getNonMergeFileID finContent
        .ok (true, fid)
    let st0 : ReplayState :=
      { index := db.index, reclaimSize := db.reclaimSize,
        transactionRecords := fun _ => [], currentSeqNo := nonTransactionSeqNo }
    let r ← replayFiles db.replayInput fr.1 fr.2 st0
    let db := { db with index := r.1.index, reclaimSize := r.1.reclaimSize,
                        seqNo := r.1.currentSeqNo }
    match r.2, db.activeFile with
    | some offset, some af => .ok { db with activeFile := some { af with writeOffset := offset } }
    | _, _ => .ok db

/-- The scan loop of `loadIndexFromHintFile`: every hint record's key is a
user key and its value decodes to the positional entry, put directly. -/
def hintLoop : Nat → List Nat → Nat → Index → Except Err Index
  | 0, _, _, idx => .ok idx
  | fuel + 1, content, offset, idx =>
    match ReadLogRecord content offset with
    | .error .eof => .ok idx
    | .error e => .error e
    | .ok (logRecord, size) =>
      hintLoop fuel content (offset + size)
        (idxPut idx logRecord.key (DecodeLogRecordPos logRecord.value)).1

/-- `loadIndexFromHintFile`: nothing to do without a hint file. -/
def loadIndexFromHintFile (db : Database) : Except Err Database :=
  match db.dirHint with
  | none => .ok db
  | some content => do
    let idx ← hintLoop (content.length + 1) content 0 db.index
    .ok { db with index := idx }

/-- The on-disk directory a closed engine leaves behind: data files by id,
the optional `hint-index`, `merge-finished` and `seq-no` files, and the
sibling merge directory. -/
structure Dir where
  dataFiles : List (Nat × List Nat)
  hintFile : Option (List Nat)
  mergeFinFile : Option (List Nat)
  seqNoFile : Option (List Nat)
  mergeDir : Option MergeDir
deriving DecidableEq, Repr

/-- `Database.Close`: append the sequence-number checkpoint record to the
`seq-no` file (created with append semantics) when an active file exists,
and leave every file's bytes on disk.  (Syncs are no-ops on content; the
lock release and index close carry no state.) -/
def Database.close (db : Database) : Dir :=
  let dataFiles := db.olderFiles.map (fun e => (e.1, e.2.content)) ++
    (match db.activeFile with
     | none => []
     | some af => [(af.fileID, af.content)])
  match db.activeFile with
  | none =>
    { dataFiles := dataFiles, hintFile := db.dirHint, mergeFinFile := db.dirMergeFin,
      seqNoFile := db.dirSeqNo, mergeDir := db.mergeDir }
  | some _ =>
    let record : LogRecord :=
      { key := seqNoKey, value := natToDec db.seqNo, typ := LogRecordNormal }
    { dataFiles := dataFiles, hintFile := db.dirHint, mergeFinFile := db.dirMergeFin,
      seqNoFile := some (db.dirSeqNo.getD [] ++ encBytes record), mergeDir := db.mergeDir }

/-- `loadMergeFiles`: without a `merge-finished` marker the scratch
directory is discarded; with one, data files below the frontier are
deleted, and the merged files (data files, `hint-index`, `merge-finished`)
are renamed into the data directory, overwriting name collisions. -/
def loadMergeFiles (d : Dir) : Except Err Dir :=
  match d.mergeDir with
  | none => .ok d
  | some md =>
    match md.mergeFin with
    | none => .ok { d with mergeDir := none }
    | some finContent => do
      let nonMergeFileID ← getNonMergeFileID finContent
      let kept := d.dataFiles.filter (fun e => decide (nonMergeFileID ≤ e.1))
      let survivors := kept.filter (fun e => md.files.all (fun m => m.1 ≠ e.1))
      .ok { dataFiles := md.files ++ survivors, hintFile := some md.hint,
            mergeFinFile := some finContent, seqNoFile := d.seqNoFile, mergeDir := none }

/-- `checkOptions`: positive data file size and a merge ratio in `[0, 1]`
(the directory-path check has no counterpart in the model). -/
def checkOptions (options : Options) : Except Err Unit :=
  if options.dataFileSize = 0 then .error .invalidOptions
  else if options.mergeRatioDen = 0 ∨ options.mergeRatioDen < options.mergeRatioNum then
    .error .invalidOptions
  else .ok ()

/-- `loadDataFiles`: sort the data files by id ascending; the largest id is
the active file, the rest are immutable.  (File-name parsing, and the
memory-map startup mode that `Open` resets afterwards, are not modelled.) -/
def loadDataFiles (d : Dir) (db : Database) : Database :=
  let sorted := List.insertionSort (fun a b : Nat × List Nat => a.1 ≤ b.1) d.dataFiles
  let mk : Nat × List Nat → DataFile := fun e =>
    { fileID := e.1, writeOffset := 0, content := e.2 }
  { db with
    activeFile := sorted.getLast?.map (fun e => mk e),
    olderFiles := sorted.dropLast.map (fun e => (e.1, mk e)) }

/-- `Open` for the default (btree) index type, minus the directory lock and
the memory-map reset: validate options, load merge artifacts, load data
files, load the hint index, replay the data files. -/
def openPipe (d : Dir) (options : Options) : Except Err Database := do
  checkOptions options
  let d ← loadMergeFiles d
  let db := loadDataFiles d
    { mkDatabase options with dirHint := d.hintFile, dirMergeFin := d.mergeFinFile,
                              dirSeqNo := d.seqNoFile }
  let db ← loadIndexFromHintFile db
  loadIndexFromDataFiles db

/-! ## Merge (`merge.go`) -/

/-- An empty directory (the freshly created `-merge` scratch directory). -/
def emptyDir : Dir :=
  { dataFiles := [], hintFile := none, mergeFinFile := none, seqNoFile := none, mergeDir := none }

/-- `utils.DirectorySize` over the live data directory: the sizes of every
file in it (the lock file is empty). -/
def dirSize (db : Database) : Nat :=
  ((db.replayInput.map (fun e => e.2.length)).sum) +
    (db.dirHint.getD []).length + (db.dirMergeFin.getD []).length + (db.dirSeqNo.getD []).length

/-- Interpret an `Int` as Go `uint64(x)` does. -/
def uint64Of (x : Int) : Nat := (x % (2 ^ 64 : Int)).toNat

/-- The record scan of one data file during merge: a record is live exactly
when the key directory's entry for its user key has this file id and
offset; live records are rewritten into the merge engine with the
non-transaction sequence prefix and a hint record is appended.  Fuel as in
`replayFileLoop`. -/
def mergeFileLoop : Nat → Nat → List Nat → Nat → Index → Database → List Nat →
    Except Err (Database × List Nat)
  | 0, _, _, _, _, mergeDB, hint => .ok (mergeDB, hint)
  | fuel + 1, fid, content, offset, index, mergeDB, hint =>
    match ReadLogRecord content offset with
    | .error .eof => .ok (mergeDB, hint)
    | .error e => .error e
    | .ok (logRecord, size) =>
      let readKey := (parseLogRecordKey logRecord.key).1
      let live : Bool := match idxGet index readKey with
        | some pos => decide (pos.fid = fid ∧ pos.offset = offset)
        | none => false
      if live then
        let r := appendLogRecord mergeDB
          { logRecord with key := logRecordKeyWithSeq readKey nonTransactionSeqNo }
        mergeFileLoop fuel fid content (offset + size) index r.1
          (writeHintRecord hint readKey r.2)
      else mergeFileLoop fuel fid content (offset + size) index mergeDB hint

/-- The outer merge loop: data files in ascending id order. -/
def mergeFilesLoop : List (Nat × List Nat) → Index → Database → List Nat →
    Except Err (Database × List Nat)
  | [], _, mergeDB, hint => .ok (mergeDB, hint)
  | (fid, content) :: rest, index, mergeDB, hint => do
    let r ← mergeFileLoop (content.length + 1) fid content 0 index mergeDB hint
    mergeFilesLoop rest index r.1 r.2

/-- `Database.Merge`: nil active file is a no-op; reject a running merge;
check the reclaim ratio (`float32` division modelled as the exact rational
comparison) and the free disk space; rotate the active file and record the
frontier id; merge every immutable file into a scratch engine; write the
hint file and the `merge-finished` marker into the scratch directory.
The live directory's files and key directory are never touched. -/
def Database.merge (db : Database) : Database × Except Err Unit :=
  match db.activeFile with
  | none => (db, .ok ())
  | some active =>
    if db.isMerging then (db, .error .mergeInProgress)
    else
      let totalSize := dirSize db
      if db.reclaimSize * db.options.mergeRatioDen < db.options.mergeRatioNum * totalSize then
        (db, .error .mergeRatioUnreached)
      else if availableDiskSize ≤ uint64Of ((totalSize : Int) - (db.reclaimSize : Int)) then
        (db, .error .noEnoughSpaceForMerge)
      else
        let db := { db with olderFiles := db.olderFiles ++ [(active.fileID, active)] }
        let db := setActiveDataFile db
        let nonMergeFileID := active.fileID + 1
        let filesToBeMerged := List.insertionSort
          (fun a b : Nat × DataFile => a.1 ≤ b.1) db.olderFiles
        match openPipe emptyDir { db.options with syncWrites := false } with
        | .error e => (db, .error e)
        | .ok mergeDB0 =>
          match mergeFilesLoop (filesToBeMerged.map (fun e => (e.1, e.2.content)))
              db.index mergeDB0 [] with
          | .error e => (db, .error e)
          | .ok (mergeDB, hint) =>
            let finRecord : LogRecord :=
              { key := mergeFinishedKey, value := natToDec nonMergeFileID,
                typ := LogRecordNormal }
            let md : MergeDir :=
              { files := mergeDB.replayInput, hint := hint,
                mergeFin := some (encBytes finRecord) }
            ({ db with mergeDir := some md }, .ok ())

/-! ## The engine iterator (`iterator.go`) -/

/-- Iterator options; `pfx` is the Go `Prefix` field. -/
structure IteratorOptions where
  pfx : List Nat
  reverse : Bool
deriving DecidableEq, Repr

/-- The prefix test of `skipToNext`:
`prefixLen <= len(key) && bytes.Compare(prefix, key[:prefixLen]) == 0`. -/
def matchesPfx (pfxv key : List Nat) : Prop :=
  pfxv.length ≤ key.length ∧ bytesCompare pfxv (key.take pfxv.length) = .eq

instance (pfxv key : List Nat) : Decidable (matchesPfx pfxv key) := by
  unfold matchesPfx; infer_instance

/-- The advancing loop of `skipToNext`, on the iterator's snapshot and
current index; fuel as elsewhere. -/
def skipIdxF : Nat → List (List Nat × LogRecordPos) → List Nat → Nat → Nat
  | 0, _, _, i => i
  | fuel + 1, values, pfxv, i =>
    if i < values.length ∧ ¬ matchesPfx pfxv (values.getD i ([], default)).1 then
      skipIdxF fuel values pfxv (i + 1)
    else i

/-- `Iterator.skipToNext`: immediately returns for an empty prefix. -/
def skipToNextIdx (values : List (List Nat × LogRecordPos)) (pfxv : List Nat) (i : Nat) : Nat :=
  if pfxv.length = 0 then i else skipIdxF (values.length + 1) values pfxv i

/-- The keys produced by `for it.Rewind(); it.Valid(); it.Next()`: after
each positioning call the iterator has skipped to the next matching key. -/
def iterLoop : Nat → List (List Nat × LogRecordPos) → List Nat → Nat → List (List Nat)
  | 0, _, _, _ => []
  | fuel + 1, values, pfxv, i =>
    let j := skipToNextIdx values pfxv i
    if j < values.length then (values.getD j ([], default)).1 :: iterLoop fuel values pfxv (j + 1)
    else []

/-- The full key sequence yielded by an engine iterator constructed with
the given options (`NewIterator` wraps the direction-aware index snapshot). -/
def iterateKeys (db : Database) (options : IteratorOptions) : List (List Nat) :=
  let values := idxSnapshot db.index options.reverse
  iterLoop (values.length + 1) values options.pfx 0

/-- The well-formedness a record needs for its encoding to read back. -/
def recOK (r : LogRecord) : Prop :=
  bytes r.key ∧ bytes r.value ∧ r.typ < 256 ∧
    r.key.length < 2 ^ 32 ∧ r.value.length < 2 ^ 32

instance (r : LogRecord) : Decidable (recOK r) := by
  unfold recOK; infer_instance

/-! ## Operation traces and reachable states

A reachable engine state is the result of running a sequence of public
operations from a freshly opened empty directory.  The side conditions on
the inputs are the ones the public API enforces (non-empty keys) together
with machine-width bounds on key and value lengths (Go slices are indexed
by `int`; the varint size fields hold values below `2^32`). -/

instance : Inhabited LogRecord := ⟨{ key := [], value := [], typ := 0 }⟩

/-- A public mutating operation. -/
inductive Op where
  | putOp (key value : List Nat)
  | delOp (key : List Nat)
  | commitOp (pw : PendingWrites) (options : WriteBatchOptions)
  | mergeOp
deriving DecidableEq, Repr

/-- Run one operation (discarding the status result, as a caller that
checks errors would retain the same state). -/
def applyOp (db : Database) : Op → Database
  | .putOp k v => (db.put k v).1
  | .delOp k => (db.delete k).1
  | .commitOp pw o => (commit db pw o).1
  | .mergeOp => db.merge.1

/-- Run a trace of operations. -/
def applyOps (db : Database) (ops : List Op) : Database := ops.foldl applyOp db

/-- A key the API accepts, within machine bounds. -/
def keyOK (k : List Nat) : Prop := k ≠ [] ∧ bytes k ∧ k.length < 2 ^ 30

/-- A value within machine bounds. -/
def valOK (v : List Nat) : Prop := bytes v ∧ v.length < 2 ^ 30

/-- The shape `WriteBatch.Put`/`WriteBatch.Delete` give the staged map:
well-formed distinct keys, records keyed by their stage key, Normal or
Deleted types. -/
def stagedOK (pw : PendingWrites) : Prop :=
  (∀ e ∈ pw, keyOK e.1 ∧ valOK e.2.value ∧ e.2.key = e.1 ∧
    (e.2.typ = LogRecordNormal ∨ e.2.typ = LogRecordDeleted)) ∧
  pw.Pairwise (fun a b => a.1 ≠ b.1)

/-- The side conditions of one operation. -/
def opOK : Op → Prop
  | .putOp k v => keyOK k ∧ valOK v
  | .delOp k => keyOK k
  | .commitOp pw _ => stagedOK pw
  | .mergeOp => True

/-- Options that `checkOptions` accepts. -/
def optionsOK (o : Options) : Prop :=
  o.dataFileSize ≠ 0 ∧ o.mergeRatioDen ≠ 0 ∧ ¬ (o.mergeRatioDen < o.mergeRatioNum)

instance (k : List Nat) : Decidable (keyOK k) := by
  unfold keyOK; infer_instance

instance (v : List Nat) : Decidable (valOK v) := by
  unfold valOK; infer_instance

instance (pw : PendingWrites) : Decidable (stagedOK pw) := by
  unfold stagedOK; infer_instance

instance : (op : Op) → Decidable (opOK op) := fun op => by
  cases op <;> (unfold opOK; infer_instance)

instance (o : Options) : Decidable (optionsOK o) := by
  unfold optionsOK; infer_instance

/-- A state reachable by a trace of well-formed successful operations from
a freshly opened empty directory. -/
def Reach (db : Database) : Prop :=
  ∃ opts ops, optionsOK opts ∧ (∀ op ∈ ops, opOK op) ∧
    db = applyOps (mkDatabase opts) ops

/-! ## Structural well-formedness

Ghost data: the list of records each data file is the encoding of. -/

/-- The byte image of a list of records. -/
def encConcat (rs : List LogRecord) : List Nat := (rs.map encBytes).join

/-- Every record is well-formed with a non-empty stored key. -/
def recsOK (rs : List LogRecord) : Prop := ∀ r ∈ rs, recOK r ∧ r.key ≠ []

/-- The byte offset of the `i`-th record in a record stream. -/
def offAt (rs : List LogRecord) (i : Nat) : Nat := ((rs.take i).map encLen).sum

/-- The ghost view of a database: the record streams of the active file and
of each immutable file (aligned with the dense file ids). -/
structure DBghost where
  activeRecs : List LogRecord
  olderRecs : List (List LogRecord)

/-- Placeholder entry for `getD` on the immutable file table. -/
def dfltFile : Nat × DataFile := (0, { fileID := 0, writeOffset := 0, content := [] })

/-- The record stream of the file with the given id, if any. -/
def fileRecs (db : Database) (g : DBghost) (fid : Nat) : Option (List LogRecord) :=
  match db.activeFile with
  | none => none
  | some af =>
    if fid = af.fileID then some g.activeRecs
    else if fid < g.olderRecs.length then some (g.olderRecs.getD fid []) else none

/-- A positional entry points at the whole record `r`: it names a file, a
record boundary in that file's stream, and the record's encoded size. -/
def PosAt (db : Database) (g : DBghost) (pos : LogRecordPos) (r : LogRecord) : Prop :=
  ∃ rs i, fileRecs db g pos.fid = some rs ∧ i < rs.length ∧ pos.offset = offAt rs i ∧
    rs.getD i default = r ∧ pos.size = encLen r % 2 ^ 32

/-- A key directory entry is backed by a stored Normal record whose stored
key carries this user key. -/
def EntryPoints (db : Database) (g : DBghost) (k : List Nat) (pos : LogRecordPos) : Prop :=
  ∃ r, PosAt db g pos r ∧ (parseLogRecordKey r.key).1 = k ∧ r.typ = LogRecordNormal

/-- A data file whose bytes are exactly a record stream, with the write
offset at the end. -/
def fileOK (df : DataFile) (rs : List LogRecord) : Prop :=
  df.writeOffset = df.content.length ∧ df.content = encConcat rs ∧ recsOK rs

/-- The structural invariant of reachable states, stated over a ghost
assignment of record streams. -/
def WFg (db : Database) (g : DBghost) : Prop :=
  optionsOK db.options ∧
  db.dirHint = none ∧ db.dirMergeFin = none ∧ db.dirSeqNo = none ∧
  db.index.Pairwise (fun a b => keyLt a.1 b.1) ∧
  (∀ e ∈ db.index, keyOK e.1 ∧ EntryPoints db g e.1 e.2) ∧
  match db.activeFile with
  | none => db.olderFiles = [] ∧ db.index = [] ∧ db.mergeDir = none
  | some af =>
    af.fileID = db.olderFiles.length ∧
    fileOK af g.activeRecs ∧
    g.olderRecs.length = db.olderFiles.length ∧
    (∀ i, i < db.olderFiles.length →
      (db.olderFiles.getD i dfltFile).1 = i ∧
      (db.olderFiles.getD i dfltFile).2.fileID = i ∧
      fileOK (db.olderFiles.getD i dfltFile).2 (g.olderRecs.getD i []))

/-- Structural well-formedness. -/
def WF (db : Database) : Prop := ∃ g, WFg db g

/-- The file an entry's id resolves to, mirroring `getValueByPosition`. -/
def lookupFile (db : Database) (fid : Nat) : Option DataFile :=
  match db.activeFile with
  | none => none
  | some af => if af.fileID = fid then some af else olderLookup db.olderFiles fid

/-- Every key directory entry reads back whole with a verified CRC and a
non-tombstone type (the property of C4). -/
def EntriesValid (db : Database) : Prop :=
  ∀ k pos, idxGet db.index k = some pos →
    ∃ df rec, lookupFile db pos.fid = some df ∧
      ReadLogRecord df.content pos.offset = .ok (rec, encLen rec) ∧
      rec.typ ≠ LogRecordDeleted

/-!
# Proof development

The theorems below are stated over the definitions above; the lemma layers
are: varint codec, CRC, record codec round trip, file scanning, replay
semantics, engine invariants, and the open/close pipeline.
-/

theorem ok_bind {ε α β : Type} (a : α) (f : α → Except ε β) :
    (Except.ok a : Except ε α) >>= f = f a := rfl

theorem error_bind {ε α β : Type} (e : ε) (f : α → Except ε β) :
    (Except.error e : Except ε α) >>= f = Except.error e := rfl

/-! ### Varint codec lemmas -/

theorem putUvarint_of_lt (x : Nat) (h : x < 128) : putUvarint x = [x] := by
  unfold putUvarint
  cases x with
  | zero => rfl
  | succ y => unfold putUvarintF; simp [h]

theorem putUvarintF_canon (x : Nat) : ∀ fuel, x ≤ fuel → putUvarintF fuel x = putUvarint x := by
  induction x using Nat.strong_induction_on with
  | _ x ih =>
    intro fuel h
    by_cases hlt : x < 128
    · rw [putUvarint_of_lt x hlt]
      cases fuel with
      | zero =>
        have hx : x = 0 := by omega
        subst hx; rfl
      | succ f => unfold putUvarintF; simp [hlt]
    · have hsmall : x / 128 < x := Nat.div_lt_self (by omega) (by omega)
      cases fuel with
      | zero => omega
      | succ f =>
        have hy : ∃ y, x = y + 1 := ⟨x - 1, by omega⟩
        obtain ⟨y, rfl⟩ := hy
        conv_rhs => unfold putUvarint
        show putUvarintF (f + 1) (y + 1) = putUvarintF (y + 1) (y + 1)
        unfold putUvarintF
        simp only [if_neg hlt]
        rw [ih _ hsmall f (by omega), ih _ hsmall y (by omega)]

theorem putUvarint_of_ge (x : Nat) (h : 128 ≤ x) :
    putUvarint x = (x % 128 + 128) :: putUvarint (x / 128) := by
  conv_lhs => unfold putUvarint
  have hy : ∃ y, x = y + 1 := ⟨x - 1, by omega⟩
  obtain ⟨y, hxy⟩ := hy
  rw [hxy]
  show putUvarintF (y + 1) (y + 1) = _
  unfold putUvarintF
  simp only [if_neg (by omega : ¬ y + 1 < 128)]
  rw [← hxy, putUvarintF_canon (x / 128) y (by
    have : x / 128 < x := Nat.div_lt_self (by omega) (by omega)
    omega)]

theorem putUvarint_bytes (x : Nat) : bytes (putUvarint x) := by
  induction x using Nat.strong_induction_on with
  | _ x ih =>
    by_cases h : x < 128
    · rw [putUvarint_of_lt x h]
      intro b hb
      simp at hb
      omega
    · rw [putUvarint_of_ge x (by omega)]
      intro b hb
      simp at hb
      rcases hb with hb | hb
      · omega
      · exact ih (x / 128) (Nat.div_lt_self (by omega) (by omega)) b hb

theorem putUvarint_ne_nil (x : Nat) : putUvarint x ≠ [] := by
  by_cases h : x < 128
  · rw [putUvarint_of_lt x h]; simp
  · rw [putUvarint_of_ge x (by omega)]; simp

theorem putUvarint_length_pos (x : Nat) : 0 < (putUvarint x).length := by
  cases h : putUvarint x with
  | nil => exact absurd h (putUvarint_ne_nil x)
  | cons a l => simp

/-- Shifting into the high bits of a small accumulator is addition. -/
theorem lor_shiftLeft_eq_add (a x s : Nat) (ha : a < 2 ^ s) :
    a ||| (x <<< s) = a + x * 2 ^ s := by
  rw [Nat.shiftLeft_eq, Nat.lor_comm, Nat.mul_comm x (2 ^ s), ← Nat.mul_add_lt_is_or ha x]
  omega

theorem putUvarint_length_le (x digits : Nat) (hx : x < 2 ^ (7 * digits))
    (hd : 0 < digits) : (putUvarint x).length ≤ digits := by
  induction digits generalizing x with
  | zero => omega
  | succ d ih =>
    by_cases h : x < 128
    · rw [putUvarint_of_lt x h]; simp
    · rw [putUvarint_of_ge x (by omega)]
      simp only [List.length_cons]
      have hd' : 0 < d := by
        by_contra hc
        have hd0 : d = 0 := by omega
        subst hd0
        simp at hx
        omega
      have hxd : x / 128 < 2 ^ (7 * d) := by
        have h7 : 7 * (d + 1) = 7 * d + 7 := by ring
        rw [h7, pow_add] at hx
        have h1 : x < 2 ^ (7 * d) * 128 := by norm_num at hx ⊢; omega
        omega
      have := ih (x / 128) hxd hd'
      omega

theorem uvarintLoop_spec (x : Nat) (i acc : Nat) (rest : List Nat)
    (hx : x < 2 ^ (64 - 7 * i)) (hi : i ≤ 9) (hacc : acc < 2 ^ (7 * i)) :
    uvarintLoop (putUvarint x ++ rest) i acc (7 * i) =
      (acc + x * 2 ^ (7 * i), (i : Int) + (putUvarint x).length) := by
  induction x using Nat.strong_induction_on generalizing i acc rest with
  | _ x ih =>
    have hpow64 : 2 ^ (64 - 7 * i) * 2 ^ (7 * i) = 2 ^ 64 := by
      rw [← pow_add]
      congr 1
      omega
    by_cases h : x < 128
    · rw [putUvarint_of_lt x h]
      simp only [List.cons_append, uvarintLoop]
      rw [if_neg (by omega : ¬ i = 10), if_pos h]
      have hnotovf : ¬ (i = 9 ∧ 1 < x) := by
        rintro ⟨h9, hb⟩
        subst h9
        have h2 : (2 : Nat) ^ (64 - 7 * 9) = 2 := by norm_num
        rw [h2] at hx
        omega
      rw [if_neg hnotovf]
      have hsum : acc + x * 2 ^ (7 * i) < 2 ^ 64 := by
        calc acc + x * 2 ^ (7 * i) < 2 ^ (7 * i) + x * 2 ^ (7 * i) := by omega
          _ = (x + 1) * 2 ^ (7 * i) := by ring
          _ ≤ 2 ^ (64 - 7 * i) * 2 ^ (7 * i) := Nat.mul_le_mul_right _ (by omega)
          _ = 2 ^ 64 := hpow64
      rw [lor_shiftLeft_eq_add acc x (7 * i) hacc, Nat.mod_eq_of_lt hsum]
      simp
    · rw [putUvarint_of_ge x (by omega)]
      simp only [List.cons_append, uvarintLoop]
      rw [if_neg (by omega : ¬ i = 10), if_neg (by omega : ¬ x % 128 + 128 < 128)]
      have hile : i ≤ 8 := by
        by_contra hc
        have h9 : i = 9 := by omega
        subst h9
        have h2 : (2 : Nat) ^ (64 - 7 * 9) = 2 := by norm_num
        rw [h2] at hx
        omega
      have hand : (x % 128 + 128) &&& 0x7f = x % 128 := by
        have h127 : (0x7f : Nat) = 2 ^ 7 - 1 := rfl
        rw [h127, Nat.and_pow_two_sub_one_eq_mod]
        omega
      rw [hand]
      have hpowmul : 2 ^ (7 * (i + 1)) = 2 ^ (7 * i) * 2 ^ 7 := by
        have h7 : 7 * (i + 1) = 7 * i + 7 := by ring
        rw [h7, pow_add]
      have h4 : (2 : Nat) ^ 7 = 128 := by norm_num
      have haccnew : acc + x % 128 * 2 ^ (7 * i) < 2 ^ (7 * (i + 1)) := by
        calc acc + x % 128 * 2 ^ (7 * i) < 2 ^ (7 * i) + 127 * 2 ^ (7 * i) := by
              have h1 : x % 128 * 2 ^ (7 * i) ≤ 127 * 2 ^ (7 * i) :=
                Nat.mul_le_mul_right _ (by omega)
              omega
          _ = 2 ^ (7 * i) * 2 ^ 7 := by rw [h4]; ring
          _ = 2 ^ (7 * (i + 1)) := hpowmul.symm
      have hlt64 : acc + x % 128 * 2 ^ (7 * i) < 2 ^ 64 := by
        have hle : (2 : Nat) ^ (7 * (i + 1)) ≤ 2 ^ 64 :=
          Nat.pow_le_pow_right (by omega) (by omega)
        omega
      rw [lor_shiftLeft_eq_add acc (x % 128) (7 * i) hacc, Nat.mod_eq_of_lt hlt64]
      have hseven : 7 * i + 7 = 7 * (i + 1) := by ring
      rw [hseven]
      have hxdiv : x / 128 < 2 ^ (64 - 7 * (i + 1)) := by
        have h1 : x < 2 ^ (64 - 7 * i) := hx
        have h2 : (64 - 7 * i) = (64 - 7 * (i + 1)) + 7 := by omega
        rw [h2, pow_add, h4] at h1
        omega
      have hrec := ih (x / 128) (Nat.div_lt_self (by omega) (by omega)) (i + 1)
        (acc + x % 128 * 2 ^ (7 * i)) rest hxdiv (by omega) haccnew
      rw [show (putUvarint (x / 128)).append rest = putUvarint (x / 128) ++ rest from rfl, hrec]
      simp only [Prod.mk.injEq]
      refine ⟨?_, ?_⟩
      · rw [hpowmul, h4]
        have hxsplit : x % 128 + 128 * (x / 128) = x := Nat.mod_add_div x 128
        nlinarith
      · simp only [List.length_cons]
        push_cast
        ring

theorem uvarint_putUvarint (x : Nat) (rest : List Nat) (hx : x < 2 ^ 64) :
    uvarint (putUvarint x ++ rest) = (x, ((putUvarint x).length : Int)) := by
  unfold uvarint
  have := uvarintLoop_spec x 0 0 rest (by simpa using hx) (by omega) (by norm_num)
  simpa using this

/-- `putVarint` of a natural length is `putUvarint` of its double. -/
theorem putVarint_eq (x : Nat) (hx : x < 2 ^ 63) :
    putVarint (x : Int) = putUvarint (2 * x) := by
  unfold putVarint
  rw [if_neg (by omega : ¬ (x : Int) < 0)]
  congr 1
  have hb : 2 * (x : Int) < 2 ^ 64 := by
    have hx' : (x : Int) < 2 ^ 63 := by exact_mod_cast hx
    norm_num at hx' ⊢
    omega
  have h2x : (2 * (x : Int)) % (2 ^ 64 : Int) = 2 * (x : Int) :=
    Int.emod_eq_of_lt (by omega) hb
  rw [h2x]
  omega

theorem varint_putVarint (x : Nat) (rest : List Nat) (hx : x < 2 ^ 63) :
    varint (putVarint (x : Int) ++ rest) = ((x : Int), ((putUvarint (2 * x)).length : Int)) := by
  rw [putVarint_eq x hx]
  have h2x : 2 * x < 2 ^ 64 := by
    have : (2 : Nat) ^ 64 = 2 * 2 ^ 63 := by norm_num
    omega
  unfold varint
  rw [uvarint_putUvarint (2 * x) rest h2x]
  have hshr : (2 * x) >>> 1 = x := by
    rw [Nat.shiftRight_succ, Nat.shiftRight_zero]
    omega
  simp [hshr, Nat.mul_mod_right]

theorem putVarint_length (x : Nat) (hx : x < 2 ^ 63) :
    (putVarint (x : Int)).length = (putUvarint (2 * x)).length := by
  rw [putVarint_eq x hx]

theorem putVarint_bytes (x : Int) : bytes (putVarint x) := by
  unfold putVarint
  exact putUvarint_bytes _

theorem putVarint_length_pos (x : Int) : 0 < (putVarint x).length := by
  unfold putVarint
  exact putUvarint_length_pos _

theorem putVarint_length_le_five (x : Nat) (hx : x < 2 ^ 32) :
    (putVarint (x : Int)).length ≤ 5 := by
  rw [putVarint_eq x (by omega)]
  apply putUvarint_length_le (2 * x) 5 _ (by omega)
  norm_num
  omega

/-! ### CRC-32 lemmas -/

theorem crcRound_lt (c : Nat) (h : c < 2 ^ 32) : crcRound c < 2 ^ 32 := by
  unfold crcRound
  split
  · exact Nat.xor_lt_two_pow (by omega) (by norm_num)
  · omega

theorem crcByte_lt (c b : Nat) (hc : c < 2 ^ 32) (hb : b < 256) : crcByte c b < 2 ^ 32 := by
  unfold crcByte
  have h0 : c ^^^ b < 2 ^ 32 := Nat.xor_lt_two_pow hc (by omega)
  exact crcRound_lt _ (crcRound_lt _ (crcRound_lt _ (crcRound_lt _ (crcRound_lt _
    (crcRound_lt _ (crcRound_lt _ (crcRound_lt _ h0)))))))

theorem foldl_crcByte_lt (p : List Nat) (c : Nat) (hc : c < 2 ^ 32) (hp : bytes p) :
    p.foldl crcByte c < 2 ^ 32 := by
  induction p generalizing c with
  | nil => exact hc
  | cons b rest ih =>
    simp only [List.foldl_cons]
    exact ih (crcByte c b) (crcByte_lt c b hc (hp b (List.mem_cons_self b rest)))
      (fun x hx => hp x (List.mem_cons_of_mem b hx))

theorem crc32Update_lt (crc : Nat) (p : List Nat) (hc : crc < 2 ^ 32) (hp : bytes p) :
    crc32Update crc p < 2 ^ 32 := by
  unfold crc32Update
  exact Nat.xor_lt_two_pow (by norm_num)
    (foldl_crcByte_lt p _ (Nat.xor_lt_two_pow hc (by norm_num)) hp)

theorem checksumIEEE_lt (p : List Nat) (hp : bytes p) : checksumIEEE p < 2 ^ 32 :=
  crc32Update_lt 0 p (by norm_num) hp

theorem xor_xor_self (m z : Nat) : (m ^^^ z) ^^^ m = z := by
  rw [Nat.xor_comm m z, Nat.xor_assoc, Nat.xor_self, Nat.xor_zero]

theorem crc32Update_append (c : Nat) (a b : List Nat) :
    crc32Update (crc32Update c a) b = crc32Update c (a ++ b) := by
  unfold crc32Update
  rw [List.foldl_append]
  congr 2
  exact xor_xor_self 0xFFFFFFFF _

theorem getLogRecordCRC_eq (r : LogRecord) (header : List Nat) :
    getLogRecordCRC r header = checksumIEEE (header ++ r.key ++ r.value) := by
  unfold getLogRecordCRC checksumIEEE
  rw [crc32Update_append, crc32Update_append, List.append_assoc]

/-! ### Record codec lemmas -/

theorem encBytes_def (r : LogRecord) :
    encBytes r = putUint32LE (checksumIEEE (encTail r)) ++ encTail r := rfl

theorem encLen_def (r : LogRecord) : encLen r = 4 + (encTail r).length := rfl

theorem encBytes_length (r : LogRecord) : (encBytes r).length = encLen r := by
  rw [encBytes_def, encLen_def]
  simp [putUint32LE]
  omega

theorem encTail_length (r : LogRecord) :
    (encTail r).length = 1 + (putVarint (r.key.length : Int)).length +
      (putVarint (r.value.length : Int)).length + r.key.length + r.value.length := by
  unfold encTail
  simp
  ring

theorem encLen_ge (r : LogRecord) : 7 ≤ encLen r := by
  rw [encLen_def, encTail_length]
  have h1 := putVarint_length_pos (r.key.length : Int)
  have h2 := putVarint_length_pos (r.value.length : Int)
  omega

theorem putUint32LE_bytes (c : Nat) : bytes (putUint32LE c) := by
  unfold putUint32LE
  intro b hb
  simp at hb
  rcases hb with h | h | h | h <;> omega

theorem encTail_bytes (r : LogRecord) (hk : bytes r.key) (hv : bytes r.value)
    (ht : r.typ < 256) : bytes (encTail r) := by
  unfold encTail
  intro b hb
  simp at hb
  rcases hb with h | h | h | h | h
  · omega
  · exact putVarint_bytes _ b h
  · exact putVarint_bytes _ b h
  · exact hk b h
  · exact hv b h

theorem encBytes_bytes (r : LogRecord) (hk : bytes r.key) (hv : bytes r.value)
    (ht : r.typ < 256) : bytes (encBytes r) := by
  rw [encBytes_def]
  intro b hb
  rcases List.mem_append.mp hb with h | h
  · exact putUint32LE_bytes _ b h
  · exact encTail_bytes r hk hv ht b h

theorem leUint32_putUint32LE (c : Nat) (hc : c < 2 ^ 32) :
    leUint32 (putUint32LE c) = c := by
  unfold leUint32 putUint32LE
  simp [List.getD]
  omega

theorem uint32Of_coe (x : Nat) (hx : x < 2 ^ 32) : uint32Of (x : Int) = x := by
  unfold uint32Of
  rw [Int.emod_eq_of_lt (by omega) (by exact_mod_cast hx)]
  simp

theorem natOf_coe (x : Nat) : natOf (x : Int) = x := by
  unfold natOf
  simp

theorem putUint32LE_length (c : Nat) : (putUint32LE c).length = 4 := by
  simp [putUint32LE]

theorem decodeLogRecordHeader_parts (C t lk lv : Nat) (tail2 : List Nat)
    (hC : C < 2 ^ 32) (hlk : lk < 2 ^ 32) (hlv : lv < 2 ^ 32) :
    decodeLogRecordHeader
        (putUint32LE C ++ t :: (putVarint (lk : Int) ++ (putVarint (lv : Int) ++ tail2))) =
      some ({ crc := C, recordType := t, keySize := lk, valueSize := lv },
            5 + ((putVarint (lk : Int)).length : Int) + ((putVarint (lv : Int)).length : Int)) := by
  have h1 := varint_putVarint lk (putVarint (lv : Int) ++ tail2) (by omega)
  have h2 := varint_putVarint lv tail2 (by omega)
  rw [← putVarint_length lk (by omega)] at h1
  rw [← putVarint_length lv (by omega)] at h2
  have hdrop5 :
      (putUint32LE C ++ t :: (putVarint (lk : Int) ++ (putVarint (lv : Int) ++ tail2))).drop 5 =
        putVarint (lk : Int) ++ (putVarint (lv : Int) ++ tail2) := by
    simp [putUint32LE]
  have htake4 :
      (putUint32LE C ++ t :: (putVarint (lk : Int) ++ (putVarint (lv : Int) ++ tail2))).take 4 =
        putUint32LE C := by
    simp [putUint32LE]
  have hgetD :
      (putUint32LE C ++ t :: (putVarint (lk : Int) ++ (putVarint (lv : Int) ++ tail2))).getD 4 0 =
        t := by
    simp [putUint32LE, List.getD]
  have hlen :
      ¬ (putUint32LE C ++ t :: (putVarint (lk : Int) ++ (putVarint (lv : Int) ++ tail2))).length ≤ 4 := by
    simp [putUint32LE]
  unfold decodeLogRecordHeader
  rw [if_neg hlen]
  simp only [hdrop5, h1, natOf_coe, List.drop_left, h2, htake4, hgetD,
    leUint32_putUint32LE C hC, uint32Of_coe lk hlk, uint32Of_coe lv hlv]

theorem checksumIEEE_encTail_lt (r : LogRecord) (h : recOK r) :
    checksumIEEE (encTail r) < 2 ^ 32 :=
  checksumIEEE_lt _ (encTail_bytes r h.1 h.2.1 h.2.2.1)

/-- Splitting an encoded record: the four CRC bytes, the header tail
(type and sizes), and the key/value payload. -/
theorem encBytes_split (r : LogRecord) :
    encBytes r = putUint32LE (checksumIEEE (encTail r)) ++ r.typ ::
      (putVarint (r.key.length : Int) ++ (putVarint (r.value.length : Int) ++
        (r.key ++ r.value))) := by
  rw [encBytes_def]
  unfold encTail
  simp

/-- The number of header bytes of an encoded record. -/
def hdrLen (r : LogRecord) : Nat :=
  5 + (putVarint (r.key.length : Int)).length + (putVarint (r.value.length : Int)).length

theorem encLen_eq_hdrLen (r : LogRecord) :
    encLen r = hdrLen r + r.key.length + r.value.length := by
  rw [encLen_def, encTail_length]
  unfold hdrLen
  omega

theorem hdrLen_le (r : LogRecord) (hk : r.key.length < 2 ^ 32) (hv : r.value.length < 2 ^ 32) :
    hdrLen r ≤ 15 := by
  unfold hdrLen
  have h1 := putVarint_length_le_five r.key.length hk
  have h2 := putVarint_length_le_five r.value.length hv
  omega

/-- The master round-trip: wherever the bytes of an encoded well-formed
record sit whole inside a file, `ReadLogRecord` at its offset returns the
record and its encoded length (the CRC verifies). -/
theorem ReadLogRecord_spec (content : List Nat) (off : Nat) (r : LogRecord)
    (hok : recOK r)
    (hz : ¬(checksumIEEE (encTail r) = 0 ∧ r.key.length = 0 ∧ r.value.length = 0))
    (hcont : (content.drop off).take (encLen r) = encBytes r)
    (hfits : off + encLen r ≤ content.length) :
    ReadLogRecord content off = .ok (r, encLen r) := by
  obtain ⟨hbk, hbv, ht, hklt, hvlt⟩ := hok
  set C := checksumIEEE (encTail r) with hCdef
  have hClt : C < 2 ^ 32 := checksumIEEE_encTail_lt r ⟨hbk, hbv, ht, hklt, hvlt⟩
  have hsplit : content.drop off = encBytes r ++ content.drop (off + encLen r) := by
    conv_lhs => rw [← List.take_append_drop (encLen r) (content.drop off)]
    rw [hcont, List.drop_drop]
  have hdropoff_len : (content.drop off).length = content.length - off := by
    simp
  have hHL := hdrLen_le r hklt hvlt
  have hEL := encLen_eq_hdrLen r
  have hELge := encLen_ge r
  have hHLge : 5 ≤ hdrLen r := by unfold hdrLen; omega
  -- the number of header bytes actually fetched
  set hb := if off + maxLogRecordHeaderSize > content.length then content.length - off
    else maxLogRecordHeaderSize with hbdef
  have hbge : hdrLen r ≤ hb := by
    rw [hbdef]
    unfold maxLogRecordHeaderSize
    split
    · omega
    · omega
  have hble : off + hb ≤ content.length := by
    rw [hbdef]
    unfold maxLogRecordHeaderSize
    split
    · omega
    · omega
  -- the fetched header buffer
  have hbuf : readNBytes content hb off = .ok ((content.drop off).take hb) := by
    unfold readNBytes
    rw [if_pos hble]
  have hbufsplit : (content.drop off).take hb =
      putUint32LE C ++ r.typ :: (putVarint (r.key.length : Int) ++
        (putVarint (r.value.length : Int) ++
          ((r.key ++ r.value ++ content.drop (off + encLen r)).take (hb - hdrLen r)))) := by
    rw [hsplit, encBytes_split]
    rw [List.append_assoc (putUint32LE C)]
    rw [List.take_append_eq_append_take]
    rw [List.take_all_of_le (by simp [putUint32LE_length]; omega)]
    congr 1
    rw [putUint32LE_length]
    rw [show r.typ :: (putVarint (r.key.length : Int) ++ (putVarint (r.value.length : Int) ++
      (r.key ++ r.value))) ++ content.drop (off + encLen r) =
      r.typ :: (putVarint (r.key.length : Int) ++ (putVarint (r.value.length : Int) ++
      (r.key ++ r.value ++ content.drop (off + encLen r)))) by simp]
    rw [List.take_cons (by omega : 0 < hb - 4)]
    congr 1
    rw [List.take_append_eq_append_take]
    rw [List.take_all_of_le (by unfold hdrLen at hbge; omega)]
    congr 1
    rw [List.take_append_eq_append_take]
    rw [List.take_all_of_le (by unfold hdrLen at hbge; omega)]
    congr 1
    congr 1
    unfold hdrLen
    omega
  have hdec := decodeLogRecordHeader_parts C r.typ r.key.length r.value.length
    ((r.key ++ r.value ++ content.drop (off + encLen r)).take (hb - hdrLen r))
    hClt hklt hvlt
  have hhsInt : natOf (5 + ((putVarint (r.key.length : Int)).length : Int) +
      ((putVarint (r.value.length : Int)).length : Int)) = hdrLen r := by
    unfold natOf hdrLen
    omega
  have hkvdrop : content.drop (off + hdrLen r) =
      (r.key ++ r.value) ++ content.drop (off + encLen r) := by
    have h1 : content.drop (off + hdrLen r) = (content.drop off).drop (hdrLen r) := by
      rw [List.drop_drop, Nat.add_comm]
    rw [h1, hsplit, List.drop_append_eq_append_drop]
    rw [show hdrLen r - (encBytes r).length = 0 by rw [encBytes_length]; omega, List.drop_zero]
    congr 1
    have h2 : encBytes r =
        (putUint32LE C ++ r.typ :: (putVarint (r.key.length : Int) ++
          putVarint (r.value.length : Int))) ++ (r.key ++ r.value) := by
      rw [encBytes_split]
      simp
    have hl : (putUint32LE C ++ r.typ :: (putVarint (r.key.length : Int) ++
        putVarint (r.value.length : Int))).length = hdrLen r := by
      simp [putUint32LE_length, hdrLen]
      omega
    rw [h2, List.drop_append_eq_append_drop, hl, Nat.sub_self, List.drop_zero,
      List.drop_eq_nil_of_le (le_of_eq hl), List.nil_append]
  have hkvread : readNBytes content (r.key.length + r.value.length) (off + hdrLen r) =
      .ok (r.key ++ r.value) := by
    unfold readNBytes
    rw [if_pos (by omega)]
    rw [hkvdrop, List.take_append_eq_append_take,
      List.take_of_length_le (by simp)]
    rw [show r.key.length + r.value.length - (r.key ++ r.value).length = 0 by simp]
    simp
  have hhdrtail : ((putUint32LE C ++ r.typ :: (putVarint (r.key.length : Int) ++
      (putVarint (r.value.length : Int) ++
        ((r.key ++ r.value ++ content.drop (off + encLen r)).take (hb - hdrLen r))))).drop 4).take
          (hdrLen r - 4) =
      r.typ :: (putVarint (r.key.length : Int) ++ putVarint (r.value.length : Int)) := by
    rw [List.drop_append_eq_append_drop, List.drop_of_length_le (by simp [putUint32LE_length]),
      putUint32LE_length]
    simp only [Nat.sub_self, List.drop_zero, List.nil_append]
    rw [List.take_cons (by omega : 0 < hdrLen r - 4)]
    congr 1
    rw [List.take_append_eq_append_take,
      List.take_of_length_le (by unfold hdrLen; omega)]
    congr 1
    rw [List.take_append_eq_append_take,
      List.take_of_length_le (by unfold hdrLen; omega)]
    rw [show hdrLen r - 4 - 1 - (putVarint (r.key.length : Int)).length -
      (putVarint (r.value.length : Int)).length = 0 by unfold hdrLen; omega, List.take_zero,
      List.append_nil]
  have hcrcfinal : getLogRecordCRC r (r.typ :: (putVarint (r.key.length : Int) ++
      putVarint (r.value.length : Int))) = C := by
    rw [getLogRecordCRC_eq, hCdef]
    unfold encTail
    simp
  -- now drive the read function
  have heta : ({ key := r.key, value := r.value, typ := r.typ } : LogRecord) = r := by
    cases r
    rfl
  unfold ReadLogRecord
  simp only []
  rw [← hbdef, hbuf, ok_bind, hbufsplit, hdec]
  simp only [hhsInt]
  rw [if_neg hz]
  by_cases hkv : 0 < r.key.length ∨ 0 < r.value.length
  · rw [if_pos hkv]
    rw [hkvread]
    simp only [ok_bind, pure, Except.pure, List.take_left, List.drop_left, heta, hhdrtail]
    rw [if_neg (by rw [hcrcfinal]; simp)]
    rw [hEL]
  · rw [if_neg hkv]
    push_neg at hkv
    have hk0 : r.key = [] := List.eq_nil_of_length_eq_zero (by omega)
    have hv0 : r.value = [] := List.eq_nil_of_length_eq_zero (by omega)
    have heta2 : ({ key := [], value := [], typ := r.typ } : LogRecord) = r := by
      rcases r with ⟨k, v, t⟩
      simp only [LogRecord.mk.injEq]
      simp_all
    simp only [ok_bind, pure, Except.pure, heta2, hhdrtail]
    rw [if_neg (by rw [hcrcfinal]; simp)]
    rw [hEL]

/-- A record with a non-empty key never trips the all-zero EOF sentinel. -/
theorem ReadLogRecord_spec' (content : List Nat) (off : Nat) (r : LogRecord)
    (hok : recOK r) (hk0 : r.key ≠ [])
    (hcont : (content.drop off).take (encLen r) = encBytes r)
    (hfits : off + encLen r ≤ content.length) :
    ReadLogRecord content off = .ok (r, encLen r) := by
  apply ReadLogRecord_spec content off r hok _ hcont hfits
  rintro ⟨-, hk, -⟩
  exact hk0 (List.eq_nil_of_length_eq_zero hk)

/-- Reading at the end of the file returns `io.EOF` (empty header fetch). -/
theorem ReadLogRecord_at_end (content : List Nat) :
    ReadLogRecord content content.length = .error .eof := by
  unfold ReadLogRecord
  simp only []
  rw [if_pos (by unfold maxLogRecordHeaderSize; omega), Nat.sub_self]
  have h0 : readNBytes content 0 content.length = .ok [] := by
    unfold readNBytes
    rw [if_pos (by omega)]
    simp
  rw [h0, ok_bind]
  rfl

/-- CRC of the three-byte tail of a record with empty key and value is
never zero (checked for every type byte). -/
theorem crc3_ne_zero :
    ((List.range 256).all (fun t => checksumIEEE [t, 0, 0] != 0)) = true := by decide

/-! ### Corruption detection (C5)

The CRC state update is injective, so two byte strings that differ in a
single byte can never share a checksum; any single-byte corruption outside
the varint size fields is therefore caught by the CRC comparison. -/

theorem crcRound_inj (a b : Nat) (ha : a < 2 ^ 32) (hb : b < 2 ^ 32)
    (h : crcRound a = crcRound b) : a = b := by
  unfold crcRound at h
  by_cases h1 : a % 2 = 1 <;> by_cases h2 : b % 2 = 1
  · rw [if_pos h1, if_pos h2] at h
    have h3 := congrArg (· ^^^ 0xEDB88320) h
    simp only [Nat.xor_assoc, Nat.xor_self, Nat.xor_zero] at h3
    omega
  · rw [if_pos h1, if_neg h2] at h
    have h31 := congrArg (fun z => Nat.testBit z 31) h
    simp only [Nat.testBit_xor,
      Nat.testBit_lt_two_pow (show a / 2 < 2 ^ 31 by omega),
      Nat.testBit_lt_two_pow (show b / 2 < 2 ^ 31 by omega)] at h31
    exact absurd h31 (by decide)
  · rw [if_neg h1, if_pos h2] at h
    have h31 := congrArg (fun z => Nat.testBit z 31) h
    simp only [Nat.testBit_xor,
      Nat.testBit_lt_two_pow (show a / 2 < 2 ^ 31 by omega),
      Nat.testBit_lt_two_pow (show b / 2 < 2 ^ 31 by omega)] at h31
    exact absurd h31 (by decide)
  · rw [if_neg h1, if_neg h2] at h
    omega

theorem crcRound8_inj (x y : Nat) (hx : x < 2 ^ 32) (hy : y < 2 ^ 32)
    (h : crcRound (crcRound (crcRound (crcRound (crcRound (crcRound (crcRound (crcRound x))))))) =
      crcRound (crcRound (crcRound (crcRound (crcRound (crcRound (crcRound (crcRound y)))))))) :
    x = y := by
  have b1 := crcRound_lt _ hx
  have c1 := crcRound_lt _ hy
  have b2 := crcRound_lt _ b1
  have c2 := crcRound_lt _ c1
  have b3 := crcRound_lt _ b2
  have c3 := crcRound_lt _ c2
  have b4 := crcRound_lt _ b3
  have c4 := crcRound_lt _ c3
  have b5 := crcRound_lt _ b4
  have c5 := crcRound_lt _ c4
  have b6 := crcRound_lt _ b5
  have c6 := crcRound_lt _ c5
  have b7 := crcRound_lt _ b6
  have c7 := crcRound_lt _ c6
  exact crcRound_inj x y hx hy (crcRound_inj _ _ b1 c1 (crcRound_inj _ _ b2 c2
    (crcRound_inj _ _ b3 c3 (crcRound_inj _ _ b4 c4 (crcRound_inj _ _ b5 c5
      (crcRound_inj _ _ b6 c6 (crcRound_inj _ _ b7 c7 h)))))))

theorem crcByte_inj_state (c1 c2 b : Nat) (h1 : c1 < 2 ^ 32) (h2 : c2 < 2 ^ 32)
    (hb : b < 256) (h : crcByte c1 b = crcByte c2 b) : c1 = c2 := by
  unfold crcByte at h
  have hx := crcRound8_inj _ _ (Nat.xor_lt_two_pow h1 (by omega))
    (Nat.xor_lt_two_pow h2 (by omega)) h
  have h3 := congrArg (· ^^^ b) hx
  simpa [Nat.xor_assoc] using h3

theorem crcByte_inj_byte (c b1 b2 : Nat) (hc : c < 2 ^ 32) (h1 : b1 < 256) (h2 : b2 < 256)
    (h : crcByte c b1 = crcByte c b2) : b1 = b2 := by
  unfold crcByte at h
  have hx := crcRound8_inj _ _ (Nat.xor_lt_two_pow hc (by omega))
    (Nat.xor_lt_two_pow hc (by omega)) h
  have h3 := congrArg (fun z => c ^^^ z) hx
  simpa [← Nat.xor_assoc, Nat.xor_self, Nat.zero_xor] using h3

theorem foldl_crcByte_inj (l : List Nat) (hl : bytes l) :
    ∀ c1 c2, c1 < 2 ^ 32 → c2 < 2 ^ 32 →
      l.foldl crcByte c1 = l.foldl crcByte c2 → c1 = c2 := by
  induction l with
  | nil => intro c1 c2 _ _ h; simpa using h
  | cons x xs ih =>
    intro c1 c2 h1 h2 h
    simp only [List.foldl_cons] at h
    have hx : x < 256 := hl x (List.mem_cons_self x xs)
    have hxs : bytes xs := fun y hy => hl y (List.mem_cons_of_mem x hy)
    have h3 := ih hxs (crcByte c1 x) (crcByte c2 x) (crcByte_lt _ _ h1 hx)
      (crcByte_lt _ _ h2 hx) h
    exact crcByte_inj_state c1 c2 x h1 h2 hx h3

/-- Replacing one byte of a string by a different byte value changes the
CRC fold state. -/
theorem foldl_crcByte_set_ne (l : List Nat) (hl : bytes l) :
    ∀ q b s, s < 2 ^ 32 → q < l.length → b < 256 → b ≠ l.getD q 0 →
      (l.set q b).foldl crcByte s ≠ l.foldl crcByte s := by
  induction l with
  | nil => intro q b s _ hq; simp at hq
  | cons x xs ih =>
    intro q b s hs hq hb hne
    have hx : x < 256 := hl x (List.mem_cons_self x xs)
    have hxs : bytes xs := fun y hy => hl y (List.mem_cons_of_mem x hy)
    match q with
    | 0 =>
      simp only [List.set, List.foldl_cons]
      intro h
      have h2 := foldl_crcByte_inj xs hxs _ _ (crcByte_lt _ _ hs hb) (crcByte_lt _ _ hs hx) h
      exact hne (by simpa using crcByte_inj_byte s b x hs hb hx h2)
    | q + 1 =>
      simp only [List.set, List.foldl_cons]
      exact ih hxs q b (crcByte s x) (crcByte_lt _ _ hs hx) (by simpa using hq) hb
        (by simpa using hne)

/-- Replacing one byte by a different value always changes the checksum. -/
theorem checksumIEEE_set_ne (l : List Nat) (q b : Nat) (hl : bytes l)
    (hq : q < l.length) (hb : b < 256) (hne : b ≠ l.getD q 0) :
    checksumIEEE (l.set q b) ≠ checksumIEEE l := by
  unfold checksumIEEE crc32Update
  intro h
  have h2 : (l.set q b).foldl crcByte (0 ^^^ 0xFFFFFFFF) = l.foldl crcByte (0 ^^^ 0xFFFFFFFF) := by
    have h3 := congrArg (fun z => 0xFFFFFFFF ^^^ z) h
    simpa [← Nat.xor_assoc, Nat.xor_self, Nat.zero_xor] using h3
  exact foldl_crcByte_set_ne l hl q b _ (by decide) hq hb hne h2

/-- Replacing one of four little-endian digit bytes by a different byte
value changes the decoded 32-bit quantity. -/
theorem leUint32_set_ne (l : List Nat) (p b : Nat) (hlen : l.length = 4) (hl : bytes l)
    (hp : p < 4) (hb : b < 256) (hne : b ≠ l.getD p 0) :
    leUint32 (l.set p b) ≠ leUint32 l := by
  rcases l with _ | ⟨a0, l⟩
  · simp at hlen
  rcases l with _ | ⟨a1, l⟩
  · simp at hlen
  rcases l with _ | ⟨a2, l⟩
  · simp at hlen
  rcases l with _ | ⟨a3, l⟩
  · simp at hlen
  rcases l with _ | ⟨a4, l⟩
  swap
  · simp at hlen
  have h0 : a0 < 256 := hl _ (by simp)
  have h1 : a1 < 256 := hl _ (by simp)
  have h2 : a2 < 256 := hl _ (by simp)
  have h3 : a3 < 256 := hl _ (by simp)
  interval_cases p <;>
    (simp only [List.set, List.getD, List.get?, leUint32, Option.getD] at hne ⊢; omega)

/-- `bytes` is preserved by replacing one position with a byte value. -/
theorem bytes_set (l : List Nat) (p b : Nat) (hl : bytes l) (hb : b < 256) :
    bytes (l.set p b) := by
  intro y hy
  rcases List.mem_or_eq_of_mem_set hy with h | rfl
  · exact hl y h
  · exact hb

/-- `decodeLogRecordHeader` on an arbitrary 4-byte CRC field followed by a
type byte, the two size varints and any tail. -/
theorem decodeLogRecordHeader_general (c4 : List Nat) (t lk lv : Nat) (tail2 : List Nat)
    (hc4 : c4.length = 4) (hlk : lk < 2 ^ 32) (hlv : lv < 2 ^ 32) :
    decodeLogRecordHeader
        (c4 ++ t :: (putVarint (lk : Int) ++ (putVarint (lv : Int) ++ tail2))) =
      some ({ crc := leUint32 c4, recordType := t, keySize := lk, valueSize := lv },
            5 + ((putVarint (lk : Int)).length : Int) + ((putVarint (lv : Int)).length : Int)) := by
  rcases c4 with _ | ⟨a0, c4⟩
  · simp at hc4
  rcases c4 with _ | ⟨a1, c4⟩
  · simp at hc4
  rcases c4 with _ | ⟨a2, c4⟩
  · simp at hc4
  rcases c4 with _ | ⟨a3, c4⟩
  · simp at hc4
  rcases c4 with _ | ⟨a4, c4⟩
  swap
  · simp at hc4
  have h1 := varint_putVarint lk (putVarint (lv : Int) ++ tail2) (by omega)
  have h2 := varint_putVarint lv tail2 (by omega)
  rw [← putVarint_length lk (by omega)] at h1
  rw [← putVarint_length lv (by omega)] at h2
  have hdrop5 :
      ([a0, a1, a2, a3] ++ t :: (putVarint (lk : Int) ++ (putVarint (lv : Int) ++ tail2))).drop 5 =
        putVarint (lk : Int) ++ (putVarint (lv : Int) ++ tail2) := by
    simp
  have htake4 :
      ([a0, a1, a2, a3] ++ t :: (putVarint (lk : Int) ++ (putVarint (lv : Int) ++ tail2))).take 4 =
        [a0, a1, a2, a3] := by
    simp
  have hgetD :
      ([a0, a1, a2, a3] ++ t :: (putVarint (lk : Int) ++ (putVarint (lv : Int) ++ tail2))).getD 4 0 =
        t := by
    simp [List.getD]
  have hlen :
      ¬ ([a0, a1, a2, a3] ++ t ::
          (putVarint (lk : Int) ++ (putVarint (lv : Int) ++ tail2))).length ≤ 4 := by
    simp
  unfold decodeLogRecordHeader
  rw [if_neg hlen]
  simp only [hdrop5, h1, natOf_coe, List.drop_left, h2, htake4, hgetD,
    uint32Of_coe lk hlk, uint32Of_coe lv hlv]

/-- An encoded-record-shaped chunk with an arbitrary CRC field `c4` and an
arbitrary type byte. -/
def chunkOf (c4 : List Nat) (t : Nat) (key value : List Nat) : List Nat :=
  c4 ++ t :: (putVarint (key.length : Int) ++ (putVarint (value.length : Int) ++ (key ++ value)))

/-- Header length of such a chunk. -/
def chunkHdrLen (key value : List Nat) : Nat :=
  5 + (putVarint (key.length : Int)).length + (putVarint (value.length : Int)).length

theorem chunkOf_length (c4 : List Nat) (t : Nat) (key value : List Nat) (hc4 : c4.length = 4) :
    (chunkOf c4 t key value).length = chunkHdrLen key value + key.length + value.length := by
  simp [chunkOf, chunkHdrLen, hc4]
  omega

/-- The general shape of a read: wherever a record-shaped chunk with a
non-empty key sits whole in the file, the read parses it and the outcome is
decided exactly by the CRC comparison. -/
theorem ReadLogRecord_parse (content : List Nat) (off : Nat) (c4 : List Nat) (t : Nat)
    (key value : List Nat) (hc4 : c4.length = 4)
    (hklt : key.length < 2 ^ 32) (hvlt : value.length < 2 ^ 32) (hkpos : 0 < key.length)
    (hcont : (content.drop off).take (chunkHdrLen key value + key.length + value.length) =
      chunkOf c4 t key value)
    (hfits : off + (chunkHdrLen key value + key.length + value.length) ≤ content.length) :
    ReadLogRecord content off =
      if getLogRecordCRC { key := key, value := value, typ := t }
          (t :: (putVarint (key.length : Int) ++ putVarint (value.length : Int))) = leUint32 c4
      then .ok (({ key := key, value := value, typ := t } : LogRecord),
        chunkHdrLen key value + key.length + value.length)
      else .error .invalidCRC := by
  have hchl := chunkOf_length c4 t key value hc4
  have hsplit : content.drop off = chunkOf c4 t key value ++
      content.drop (off + (chunkHdrLen key value + key.length + value.length)) := by
    conv_lhs => rw [← List.take_append_drop
      (chunkHdrLen key value + key.length + value.length) (content.drop off)]
    rw [hcont, List.drop_drop]
  have hHL : chunkHdrLen key value ≤ 15 := by
    unfold chunkHdrLen
    have h1 := putVarint_length_le_five key.length hklt
    have h2 := putVarint_length_le_five value.length hvlt
    omega
  have hHLge : 5 ≤ chunkHdrLen key value := by unfold chunkHdrLen; omega
  set hb := if off + maxLogRecordHeaderSize > content.length then content.length - off
    else maxLogRecordHeaderSize with hbdef
  have hbge : chunkHdrLen key value ≤ hb := by
    rw [hbdef]
    unfold maxLogRecordHeaderSize
    split
    · omega
    · omega
  have hble : off + hb ≤ content.length := by
    rw [hbdef]
    unfold maxLogRecordHeaderSize
    split
    · omega
    · omega
  have hbuf : readNBytes content hb off = .ok ((content.drop off).take hb) := by
    unfold readNBytes
    rw [if_pos hble]
  have hbufsplit : (content.drop off).take hb =
      c4 ++ t :: (putVarint (key.length : Int) ++ (putVarint (value.length : Int) ++
        ((key ++ value ++
            content.drop (off + (chunkHdrLen key value + key.length + value.length))).take
          (hb - chunkHdrLen key value)))) := by
    rw [hsplit]
    unfold chunkOf
    rw [List.append_assoc c4]
    rw [List.take_append_eq_append_take]
    rw [List.take_all_of_le (by rw [hc4]; omega)]
    congr 1
    rw [hc4]
    rw [show t :: (putVarint (key.length : Int) ++ (putVarint (value.length : Int) ++
      (key ++ value))) ++
        content.drop (off + (chunkHdrLen key value + key.length + value.length)) =
      t :: (putVarint (key.length : Int) ++ (putVarint (value.length : Int) ++
      (key ++ value ++
        content.drop (off + (chunkHdrLen key value + key.length + value.length))))) by simp]
    rw [List.take_cons (by omega : 0 < hb - 4)]
    congr 1
    rw [List.take_append_eq_append_take]
    rw [List.take_all_of_le (by unfold chunkHdrLen at hbge; omega)]
    congr 1
    rw [List.take_append_eq_append_take]
    rw [List.take_all_of_le (by unfold chunkHdrLen at hbge; omega)]
    congr 1
    congr 1
    unfold chunkHdrLen
    omega
  have hdec := decodeLogRecordHeader_general c4 t key.length value.length
    ((key ++ value ++
        content.drop (off + (chunkHdrLen key value + key.length + value.length))).take
      (hb - chunkHdrLen key value)) hc4 hklt hvlt
  have hhsInt : natOf (5 + ((putVarint (key.length : Int)).length : Int) +
      ((putVarint (value.length : Int)).length : Int)) = chunkHdrLen key value := by
    unfold natOf chunkHdrLen
    omega
  have hkvdrop : content.drop (off + chunkHdrLen key value) =
      (key ++ value) ++
        content.drop (off + (chunkHdrLen key value + key.length + value.length)) := by
    have h1 : content.drop (off + chunkHdrLen key value) =
        (content.drop off).drop (chunkHdrLen key value) := by
      rw [List.drop_drop, Nat.add_comm]
    rw [h1, hsplit, List.drop_append_eq_append_drop]
    rw [show chunkHdrLen key value - (chunkOf c4 t key value).length = 0 by
      rw [hchl]; omega, List.drop_zero]
    congr 1
    have h2 : chunkOf c4 t key value =
        (c4 ++ t :: (putVarint (key.length : Int) ++ putVarint (value.length : Int))) ++
          (key ++ value) := by
      unfold chunkOf
      simp
    have hl : (c4 ++ t :: (putVarint (key.length : Int) ++
        putVarint (value.length : Int))).length = chunkHdrLen key value := by
      simp [hc4, chunkHdrLen]
      omega
    rw [h2, List.drop_append_eq_append_drop, hl, Nat.sub_self, List.drop_zero,
      List.drop_eq_nil_of_le (le_of_eq hl), List.nil_append]
  have hkvread : readNBytes content (key.length + value.length) (off + chunkHdrLen key value) =
      .ok (key ++ value) := by
    unfold readNBytes
    rw [if_pos (by omega)]
    rw [hkvdrop, List.take_append_eq_append_take, List.take_of_length_le (by simp)]
    rw [show key.length + value.length - (key ++ value).length = 0 by simp]
    simp
  have hhdrtail : ((c4 ++ t :: (putVarint (key.length : Int) ++ (putVarint (value.length : Int) ++
      ((key ++ value ++
          content.drop (off + (chunkHdrLen key value + key.length + value.length))).take
        (hb - chunkHdrLen key value))))).drop 4).take (chunkHdrLen key value - 4) =
      t :: (putVarint (key.length : Int) ++ putVarint (value.length : Int)) := by
    rw [List.drop_append_eq_append_drop, List.drop_of_length_le (by omega), hc4]
    simp only [Nat.sub_self, List.drop_zero, List.nil_append]
    rw [List.take_cons (by omega : 0 < chunkHdrLen key value - 4)]
    congr 1
    rw [List.take_append_eq_append_take, List.take_of_length_le (by unfold chunkHdrLen; omega)]
    congr 1
    rw [List.take_append_eq_append_take, List.take_of_length_le (by unfold chunkHdrLen; omega)]
    rw [show chunkHdrLen key value - 4 - 1 - (putVarint (key.length : Int)).length -
      (putVarint (value.length : Int)).length = 0 by unfold chunkHdrLen; omega, List.take_zero,
      List.append_nil]
  have hz : ¬ (leUint32 c4 = 0 ∧ key.length = 0 ∧ value.length = 0) := by
    rintro ⟨-, hk, -⟩
    omega
  unfold ReadLogRecord
  simp only []
  rw [← hbdef, hbuf, ok_bind, hbufsplit, hdec]
  simp only [hhsInt]
  rw [if_neg hz]
  rw [if_pos (Or.inl hkpos)]
  rw [hkvread]
  simp only [ok_bind, pure, Except.pure, List.take_left, List.drop_left, hhdrtail]
  by_cases hcrc : getLogRecordCRC { key := key, value := value, typ := t }
      (t :: (putVarint (key.length : Int) ++ putVarint (value.length : Int))) = leUint32 c4
  · rw [if_pos hcrc, if_neg (not_not_intro hcrc)]
  · rw [if_neg hcrc, if_pos hcrc]

/-- A chunk whose tail checksum disagrees with its CRC field reads back as
`ErrInvalidCRC`. -/
theorem ReadLogRecord_chunk_bad (content : List Nat) (off : Nat) (C t : Nat)
    (key value : List Nat) (hC : C < 2 ^ 32)
    (hklt : key.length < 2 ^ 32) (hvlt : value.length < 2 ^ 32) (hkpos : 0 < key.length)
    (hcrcne : checksumIEEE (t :: (putVarint (key.length : Int) ++
      (putVarint (value.length : Int) ++ (key ++ value)))) ≠ C)
    (hcont : (content.drop off).take (chunkHdrLen key value + key.length + value.length) =
      chunkOf (putUint32LE C) t key value)
    (hfits : off + (chunkHdrLen key value + key.length + value.length) ≤ content.length) :
    ReadLogRecord content off = .error .invalidCRC := by
  rw [ReadLogRecord_parse content off (putUint32LE C) t key value (putUint32LE_length C)
    hklt hvlt hkpos hcont hfits]
  rw [if_neg ?_]
  rw [getLogRecordCRC_eq, leUint32_putUint32LE C hC]
  intro h
  apply hcrcne
  rw [← h]
  congr 1
  simp

/-- C5 (amended).  For a stored well-formed record with a non-empty key,
replacing any single byte of its on-disk encoding by a different byte value
— anywhere in the CRC field, in the type byte, or in the key/value payload
(every byte except the two varint size fields) — makes `ReadLogRecord` at
its offset return `ErrInvalidCRC`. -/
theorem C5_bit_flip_detected (content : List Nat) (off : Nat) (r : LogRecord) (p b : Nat)
    (hok : recOK r) (hk : r.key ≠ [])
    (hp : p < 4 ∨ p = 4 ∨ (hdrLen r ≤ p ∧ p < encLen r))
    (hb : b < 256) (hne : b ≠ (encBytes r).getD p 0)
    (hcont : (content.drop off).take (encLen r) = (encBytes r).set p b)
    (hfits : off + encLen r ≤ content.length) :
    ReadLogRecord content off = .error .invalidCRC := by
  obtain ⟨hbk, hbv, ht, hklt, hvlt⟩ := hok
  have hkpos : 0 < r.key.length := List.length_pos.mpr hk
  have hC : checksumIEEE (encTail r) < 2 ^ 32 :=
    checksumIEEE_encTail_lt r ⟨hbk, hbv, ht, hklt, hvlt⟩
  have htail : encTail r = r.typ :: (putVarint (r.key.length : Int) ++
      (putVarint (r.value.length : Int) ++ (r.key ++ r.value))) := by
    unfold encTail
    simp
  have htb : bytes (encTail r) := encTail_bytes r hbk hbv ht
  have htlen : (encTail r).length = 1 + (putVarint (r.key.length : Int)).length +
      (putVarint (r.value.length : Int)).length + r.key.length + r.value.length :=
    encTail_length r
  have hEL : encLen r = hdrLen r + r.key.length + r.value.length := encLen_eq_hdrLen r
  have hchk : chunkHdrLen r.key r.value = hdrLen r := rfl
  have hELchunk : encLen r = chunkHdrLen r.key r.value + r.key.length + r.value.length := by
    rw [hchk]
    exact hEL
  have hHd : hdrLen r = 5 + (putVarint (r.key.length : Int)).length +
      (putVarint (r.value.length : Int)).length := rfl
  rcases hp with hp4 | hp4 | ⟨hpl, hpu⟩
  · -- corruption inside the CRC field
    have hset : (encBytes r).set p b = ((putUint32LE (checksumIEEE (encTail r))).set p b) ++
        encTail r := by
      rw [encBytes_def]
      exact List.set_append_left p b (by rw [putUint32LE_length]; omega)
    have hc4 : ((putUint32LE (checksumIEEE (encTail r))).set p b).length = 4 := by
      rw [List.length_set, putUint32LE_length]
    have hcont' : (content.drop off).take
        (chunkHdrLen r.key r.value + r.key.length + r.value.length) =
        chunkOf ((putUint32LE (checksumIEEE (encTail r))).set p b) r.typ r.key r.value := by
      rw [← hELchunk, hcont, hset]
      unfold chunkOf
      rw [htail]
    rw [ReadLogRecord_parse content off _ r.typ r.key r.value hc4 hklt hvlt hkpos hcont'
      (by rw [← hELchunk]; exact hfits)]
    rw [if_neg ?_]
    rw [getLogRecordCRC_eq]
    have hcomp : (r.typ :: (putVarint (r.key.length : Int) ++
        putVarint (r.value.length : Int))) ++ r.key ++ r.value = encTail r := by
      rw [htail]
      simp
    rw [hcomp]
    have hne' : b ≠ (putUint32LE (checksumIEEE (encTail r))).getD p 0 := by
      rw [← List.getD_append _ (encTail r) 0 p (by rw [putUint32LE_length]; omega)]
      exact hne
    have hlune := leUint32_set_ne (putUint32LE (checksumIEEE (encTail r))) p b
      (putUint32LE_length _) (putUint32LE_bytes _) hp4 hb hne'
    rw [leUint32_putUint32LE _ hC] at hlune
    exact fun h => hlune (h ▸ rfl)
  · -- corruption of the type byte
    subst hp4
    have hset : (encBytes r).set 4 b = putUint32LE (checksumIEEE (encTail r)) ++
        (encTail r).set 0 b := by
      rw [encBytes_def]
      rw [List.set_append_right 4 b (by rw [putUint32LE_length]), putUint32LE_length]
    have hsetTail : (encTail r).set 0 b = b :: (putVarint (r.key.length : Int) ++
        (putVarint (r.value.length : Int) ++ (r.key ++ r.value))) := by
      rw [htail]
      rfl
    have hne' : b ≠ (encTail r).getD 0 0 := by
      rw [encBytes_def] at hne
      rw [List.getD_append_right (putUint32LE (checksumIEEE (encTail r))) (encTail r) 0 4
        (putUint32LE_length _).le, putUint32LE_length] at hne
      simpa using hne
    have hcrcne : checksumIEEE (b :: (putVarint (r.key.length : Int) ++
        (putVarint (r.value.length : Int) ++ (r.key ++ r.value)))) ≠
        checksumIEEE (encTail r) := by
      rw [← hsetTail]
      exact checksumIEEE_set_ne (encTail r) 0 b htb (by rw [htlen]; omega) hb hne'
    apply ReadLogRecord_chunk_bad content off (checksumIEEE (encTail r)) b r.key r.value hC
      hklt hvlt hkpos hcrcne _ (by rw [← hELchunk]; exact hfits)
    rw [← hELchunk, hcont, hset, hsetTail]
    rfl
  · -- corruption inside the key/value payload
    have hq : hdrLen r - 4 ≤ p - 4 := by omega
    have hset : (encBytes r).set p b = putUint32LE (checksumIEEE (encTail r)) ++
        (encTail r).set (p - 4) b := by
      rw [encBytes_def]
      rw [List.set_append_right p b (by rw [putUint32LE_length]; omega), putUint32LE_length]
    have hne' : b ≠ (encTail r).getD (p - 4) 0 := by
      rw [encBytes_def] at hne
      rw [List.getD_append_right (putUint32LE (checksumIEEE (encTail r))) (encTail r) 0 p
        (by rw [putUint32LE_length]; omega), putUint32LE_length] at hne
      exact hne
    have hqlt : p - 4 < (encTail r).length := by
      rw [htlen]
      rw [hEL, hHd] at hpu
      omega
    have hcrcne0 : checksumIEEE ((encTail r).set (p - 4) b) ≠ checksumIEEE (encTail r) :=
      checksumIEEE_set_ne (encTail r) (p - 4) b htb hqlt hb hne'
    obtain ⟨q, hqe⟩ : ∃ q, p - 4 = q + 1 := ⟨p - 5, by omega⟩
    obtain ⟨s, hse⟩ : ∃ s, q = (putVarint (r.key.length : Int)).length +
        (putVarint (r.value.length : Int)).length + s := by
      refine ⟨q - (putVarint (r.key.length : Int)).length -
        (putVarint (r.value.length : Int)).length, ?_⟩
      rw [hHd] at hpl
      omega
    have hslt : s < r.key.length + r.value.length := by
      rw [hEL, hHd] at hpu
      omega
    have hsetTail : (encTail r).set (p - 4) b = r.typ :: (putVarint (r.key.length : Int) ++
        (putVarint (r.value.length : Int) ++ ((r.key ++ r.value).set s b))) := by
      rw [htail, hqe, hse]
      rw [show ((r.typ :: (putVarint (r.key.length : Int) ++ (putVarint (r.value.length : Int) ++
        (r.key ++ r.value)))).set ((putVarint (r.key.length : Int)).length +
          (putVarint (r.value.length : Int)).length + s + 1) b) =
        r.typ :: ((putVarint (r.key.length : Int) ++ (putVarint (r.value.length : Int) ++
          (r.key ++ r.value))).set ((putVarint (r.key.length : Int)).length +
            (putVarint (r.value.length : Int)).length + s) b) from rfl]
      rw [List.set_append_right _ b (by omega)]
      congr 1
      rw [show (putVarint (r.key.length : Int)).length +
          (putVarint (r.value.length : Int)).length + s -
          (putVarint (r.key.length : Int)).length =
        (putVarint (r.value.length : Int)).length + s by omega]
      rw [List.set_append_right _ b (by omega),
        show (putVarint (r.value.length : Int)).length + s -
          (putVarint (r.value.length : Int)).length = s by omega]
    have hcrcne : checksumIEEE (r.typ :: (putVarint (r.key.length : Int) ++
        (putVarint (r.value.length : Int) ++ ((r.key ++ r.value).set s b)))) ≠
        checksumIEEE (encTail r) := by
      rw [← hsetTail]
      exact hcrcne0
    by_cases hsk : s < r.key.length
    · -- the corrupted byte is in the key
      have hkv : (r.key ++ r.value).set s b = (r.key.set s b) ++ r.value :=
        List.set_append_left s b hsk
      have hcrcne2 : checksumIEEE (r.typ :: (putVarint ((r.key.set s b).length : Int) ++
          (putVarint (r.value.length : Int) ++ ((r.key.set s b) ++ r.value)))) ≠
          checksumIEEE (encTail r) := by
        rw [List.length_set, ← hkv]
        exact hcrcne
      apply ReadLogRecord_chunk_bad content off (checksumIEEE (encTail r)) r.typ
        (r.key.set s b) r.value hC (by rw [List.length_set]; exact hklt) hvlt
        (by rw [List.length_set]; exact hkpos) hcrcne2 _ ?_
      · rw [show chunkHdrLen (r.key.set s b) r.value + (r.key.set s b).length +
            r.value.length = encLen r by
          unfold chunkHdrLen
          rw [List.length_set, hEL, hHd]]
        rw [hcont, hset, hsetTail, hkv]
        unfold chunkOf
        rw [List.length_set]
      · rw [show chunkHdrLen (r.key.set s b) r.value + (r.key.set s b).length +
            r.value.length = encLen r by
          unfold chunkHdrLen
          rw [List.length_set, hEL, hHd]]
        exact hfits
    · -- the corrupted byte is in the value
      have hkv : (r.key ++ r.value).set s b = r.key ++ (r.value.set (s - r.key.length) b) :=
        List.set_append_right s b (by omega)
      have hcrcne2 : checksumIEEE (r.typ :: (putVarint (r.key.length : Int) ++
          (putVarint ((r.value.set (s - r.key.length) b).length : Int) ++
            (r.key ++ (r.value.set (s - r.key.length) b))))) ≠
          checksumIEEE (encTail r) := by
        rw [List.length_set, ← hkv]
        exact hcrcne
      apply ReadLogRecord_chunk_bad content off (checksumIEEE (encTail r)) r.typ
        r.key (r.value.set (s - r.key.length) b) hC hklt
        (by rw [List.length_set]; exact hvlt) hkpos hcrcne2 _ ?_
      · rw [show chunkHdrLen r.key (r.value.set (s - r.key.length) b) + r.key.length +
            (r.value.set (s - r.key.length) b).length = encLen r by
          unfold chunkHdrLen
          rw [List.length_set, hEL, hHd]]
        rw [hcont, hset, hsetTail, hkv]
        unfold chunkOf
        rw [List.length_set]
      · rw [show chunkHdrLen r.key (r.value.set (s - r.key.length) b) + r.key.length +
            (r.value.set (s - r.key.length) b).length = encLen r by
          unfold chunkHdrLen
          rw [List.length_set, hEL, hHd]]
        exact hfits

/-- A concrete stored record used to exercise the corruption claim. -/
def c5rec : LogRecord := { key := [107], value := [118], typ := LogRecordNormal }

/-- Witness for C5 (amended): flipping bit 0 of the type byte (position 4)
of the concrete record's encoding is detected as `ErrInvalidCRC`. -/
theorem C5_witness :
    (1 : Nat) = (encBytes c5rec).getD 4 0 ^^^ 1 ∧
    (1 : Nat) ≠ (encBytes c5rec).getD 4 0 ∧
    ReadLogRecord ((encBytes c5rec).set 4 1) 0 = .error .invalidCRC :=
  ⟨by decide, by decide,
    C5_bit_flip_detected ((encBytes c5rec).set 4 1) 0 c5rec 4 1 (by decide) (by decide)
      (Or.inr (Or.inl rfl)) (by decide) (by decide) (by decide) (by decide)⟩

/-- A second concrete stored record whose trailing value bytes are chosen
so that the CRC-32 over its full tail coincides with the CRC-32 over the
span a size-corrupted header delimits. -/
def c5rec2 : LogRecord := { key := [107], value := [118, 170, 49, 186, 250], typ := LogRecordNormal }

/-- Counterexample to C5 as stated: single-bit flips in the varint size
fields need not surface as `ErrInvalidCRC` — and need not surface as any
error at all.  (a) Flipping the continuation bit (bit 7) of `c5rec`'s
value-size byte (position 6) makes the header claim a huge value size, so
the read fails with a short-read I/O error instead of `ErrInvalidCRC`.
(b) `c5rec2` is a well-formed stored record that reads back cleanly, yet
flipping bit 3 of its value-size byte (10 to 2) shrinks the decoded value
size from 5 to 1 and the recomputed CRC over the truncated span collides
with the stored one, so the read SUCCEEDS and returns a wrong record with
no error of any kind. -/
theorem C5_counterexample :
    ((encBytes c5rec).getD 6 0 = 2 ∧
      (130 : Nat) = (encBytes c5rec).getD 6 0 ^^^ 2 ^ 7 ∧
      ReadLogRecord ((encBytes c5rec).set 6 130) 0 = .error .shortRead ∧
      Err.shortRead ≠ Err.invalidCRC) ∧
    (ReadLogRecord (encBytes c5rec2) 0 = .ok (c5rec2, 13) ∧
      (encBytes c5rec2).getD 6 0 = 10 ∧
      (2 : Nat) = (encBytes c5rec2).getD 6 0 ^^^ 2 ^ 3 ∧
      ReadLogRecord ((encBytes c5rec2).set 6 2) 0 =
        .ok ({ key := [107], value := [118], typ := LogRecordNormal }, 9) ∧
      ({ key := [107], value := [118], typ := LogRecordNormal } : LogRecord) ≠ c5rec2) := by
  refine ⟨⟨by decide, by decide, by decide, by decide⟩,
    by decide, by decide, by decide, by decide, by decide⟩

/-- C6.  `EncodeLogRecord` lays out the 4-byte little-endian CRC over the
tail bytes (type, varint key size, varint value size, key, value), and
`ReadLogRecord` at the encoding's offset returns the record and the total
length. -/
theorem C6_encode_layout_and_roundtrip (r : LogRecord) (hok : recOK r) :
    (EncodeLogRecord r).1 =
      putUint32LE (checksumIEEE (r.typ :: (putVarint (r.key.length : Int) ++
        putVarint (r.value.length : Int) ++ r.key ++ r.value))) ++
      (r.typ :: (putVarint (r.key.length : Int) ++
        putVarint (r.value.length : Int) ++ r.key ++ r.value)) ∧
    (putUint32LE (checksumIEEE (encTail r))).length = 4 ∧
    leUint32 (putUint32LE (checksumIEEE (encTail r))) = checksumIEEE (encTail r) ∧
    (EncodeLogRecord r).2 = (EncodeLogRecord r).1.length ∧
    ReadLogRecord (EncodeLogRecord r).1 0 = .ok (r, (EncodeLogRecord r).2) := by
  have htail : encTail r = r.typ :: (putVarint (r.key.length : Int) ++
      putVarint (r.value.length : Int) ++ r.key ++ r.value) := by
    unfold encTail
    simp
  refine ⟨?_, putUint32LE_length _, leUint32_putUint32LE _ (checksumIEEE_encTail_lt r hok), ?_, ?_⟩
  · rw [← htail]
    rfl
  · rw [show (EncodeLogRecord r).2 = encLen r from rfl,
      show (EncodeLogRecord r).1 = encBytes r from rfl, encBytes_length]
  · have hz : ¬(checksumIEEE (encTail r) = 0 ∧ r.key.length = 0 ∧ r.value.length = 0) := by
      rintro ⟨hc, hk, hv⟩
      have hk0 : r.key = [] := List.eq_nil_of_length_eq_zero hk
      have hv0 : r.value = [] := List.eq_nil_of_length_eq_zero hv
      have h3 : encTail r = [r.typ, 0, 0] := by
        rw [htail, hk0, hv0]
        simp
        rfl
      rw [h3] at hc
      have := crc3_ne_zero
      rw [List.all_eq_true] at this
      have ht256 := hok.2.2.1
      have := this r.typ (by simp; omega)
      simp at this
      exact this hc
    exact ReadLogRecord_spec (EncodeLogRecord r).1 0 r hok hz
      (by rw [show (EncodeLogRecord r).1 = encBytes r from rfl]; simp [encBytes_length])
      (by rw [show (EncodeLogRecord r).1 = encBytes r from rfl, encBytes_length]; omega)

/-- Witness for C6 at a concrete record. -/
theorem C6_witness :
    recOK { key := [107], value := [118], typ := 1 } ∧
    ReadLogRecord (EncodeLogRecord { key := [107], value := [118], typ := 1 }).1 0 =
      .ok ({ key := [107], value := [118], typ := 1 },
           (EncodeLogRecord { key := [107], value := [118], typ := 1 }).2) :=
  ⟨by decide,
   (C6_encode_layout_and_roundtrip { key := [107], value := [118], typ := 1 }
     (by decide)).2.2.2.2⟩

/-- C10.  Committing a batch with zero staged writes returns success and
leaves the whole engine state unchanged: no sequence number is allocated,
nothing is appended to any data file, and the key directory and the
reclaim counter are untouched. -/
theorem C10_empty_commit (db : Database) (options : WriteBatchOptions) :
    commit db [] options = (db, .ok ()) ∧
    (commit db [] options).1.seqNo = db.seqNo ∧
    (commit db [] options).1.replayInput = db.replayInput ∧
    (commit db [] options).1.index = db.index ∧
    (commit db [] options).1.reclaimSize = db.reclaimSize := by
  refine ⟨rfl, ?_, ?_, ?_, ?_⟩ <;> rfl

/-! ### Replay atomicity (C3)

The per-record replay logic is studied on parsed entries, the shape the
scan loop feeds into `replayRecord`. -/

/-- A parsed log entry as the replay loop sees it: file id, offset, total
size, record. -/
abbrev Entry := Nat × Nat × Nat × LogRecord

/-- The record of an entry. -/
def entryRec (e : Entry) : LogRecord := e.2.2.2

/-- Apply a list of scanned entries to the replay state, in log order. -/
def replayEntries (es : List Entry) (st : ReplayState) : ReplayState :=
  es.foldl (fun s e => replayRecord e.1 e.2.1 e.2.2.1 e.2.2.2 s) st

/-- The sequence number an entry's stored key carries. -/
def entrySeq (e : Entry) : Nat := (parseLogRecordKey (entryRec e).key).2

/-- Is the entry a batch-terminator record? -/
def entryIsTerm (e : Entry) : Bool := decide ((entryRec e).typ = LogRecordTxnFinished)

/-- A terminator for this sequence number exists in the given entries. -/
def hasTermFor (es : List Entry) (s : Nat) : Bool :=
  es.any (fun t => entrySeq t = s ∧ entryIsTerm t = true)

/-- An entry whose effect reaches the key directory: non-batch records,
batch terminators, and batch records followed by their terminator. -/
def entryCommitted (e : Entry) (rest : List Entry) : Bool :=
  decide (entrySeq e = nonTransactionSeqNo) || entryIsTerm e || hasTermFor rest (entrySeq e)

/-- Drop every batch record that is not followed by its terminator. -/
def censor : List Entry → List Entry
  | [] => []
  | e :: rest => if entryCommitted e rest then e :: censor rest else censor rest

theorem updateIndex_buffers (st : ReplayState) (k : List Nat) (tp : Nat)
    (pos : LogRecordPos) :
    (updateIndex st k tp pos).transactionRecords = st.transactionRecords ∧
    (updateIndex st k tp pos).currentSeqNo = st.currentSeqNo := by
  unfold updateIndex
  split <;> simp_all <;> split <;> simp_all

theorem updateIndex_congr (st st' : ReplayState) (k : List Nat) (tp : Nat)
    (pos : LogRecordPos) (hidx : st.index = st'.index)
    (hrec : st.reclaimSize = st'.reclaimSize) :
    (updateIndex st k tp pos).index = (updateIndex st' k tp pos).index ∧
    (updateIndex st k tp pos).reclaimSize = (updateIndex st' k tp pos).reclaimSize := by
  unfold updateIndex
  rw [hidx, hrec]
  split <;> simp_all <;> split <;> simp_all

/-- The buffer-flush fold only touches the index and the reclaim counter,
and respects equality of those two components. -/
theorem flushFold_spec (l : List (LogRecord × LogRecordPos)) (st st' : ReplayState)
    (hidx : st.index = st'.index) (hrec : st.reclaimSize = st'.reclaimSize) :
    (l.foldl (fun s tr => updateIndex s tr.1.key tr.1.typ tr.2) st).index =
      (l.foldl (fun s tr => updateIndex s tr.1.key tr.1.typ tr.2) st').index ∧
    (l.foldl (fun s tr => updateIndex s tr.1.key tr.1.typ tr.2) st).reclaimSize =
      (l.foldl (fun s tr => updateIndex s tr.1.key tr.1.typ tr.2) st').reclaimSize ∧
    (l.foldl (fun s tr => updateIndex s tr.1.key tr.1.typ tr.2) st).transactionRecords =
      st.transactionRecords := by
  induction l generalizing st st' with
  | nil => exact ⟨hidx, hrec, rfl⟩
  | cons tr rest ih =>
    simp only [List.foldl_cons]
    have h1 := updateIndex_congr st st' tr.1.key tr.1.typ tr.2 hidx hrec
    have h2 := updateIndex_buffers st tr.1.key tr.1.typ tr.2
    have := ih (updateIndex st tr.1.key tr.1.typ tr.2) (updateIndex st' tr.1.key tr.1.typ tr.2)
      h1.1 h1.2
    exact ⟨this.1, this.2.1, this.2.2.trans h2.1⟩

theorem hasTermFor_cons (e : Entry) (rest : List Entry) (s : Nat)
    (h : hasTermFor rest s = true) : hasTermFor (e :: rest) s = true := by
  unfold hasTermFor at *
  simp only [List.any_cons]
  rw [h]
  simp

theorem censor_cons (e : Entry) (rest : List Entry) :
    censor (e :: rest) = if entryCommitted e rest then e :: censor rest else censor rest := rfl

theorem replayEntries_cons (e : Entry) (rest : List Entry) (st : ReplayState) :
    replayEntries (e :: rest) st =
      replayEntries rest (replayRecord e.1 e.2.1 e.2.2.1 e.2.2.2 st) := rfl

/-- A non-batch record applies immediately (the sequence tracker cannot
move below zero). -/
theorem replayRecord_seq0 (fid off sz : Nat) (r : LogRecord) (st : ReplayState)
    (h : (parseLogRecordKey r.key).2 = nonTransactionSeqNo) :
    replayRecord fid off sz r st =
      updateIndex st (parseLogRecordKey r.key).1 r.typ
        { fid := fid, offset := off, size := sz % 2 ^ 32 } := by
  unfold replayRecord
  simp only [h, if_pos rfl]
  rw [if_neg (by unfold nonTransactionSeqNo; omega)]
  simp

/-- A batch terminator flushes the buffer for its sequence number. -/
theorem replayRecord_term (fid off sz : Nat) (r : LogRecord) (st : ReplayState)
    (h0 : ¬ (parseLogRecordKey r.key).2 = nonTransactionSeqNo)
    (ht : r.typ = LogRecordTxnFinished) :
    (replayRecord fid off sz r st).index =
      ((st.transactionRecords (parseLogRecordKey r.key).2).foldl
        (fun s tr => updateIndex s tr.1.key tr.1.typ tr.2) st).index ∧
    (replayRecord fid off sz r st).reclaimSize =
      ((st.transactionRecords (parseLogRecordKey r.key).2).foldl
        (fun s tr => updateIndex s tr.1.key tr.1.typ tr.2) st).reclaimSize ∧
    (replayRecord fid off sz r st).transactionRecords = (fun s =>
      if s = (parseLogRecordKey r.key).2 then [] else st.transactionRecords s) := by
  have hbufs := (flushFold_spec (st.transactionRecords (parseLogRecordKey r.key).2)
    st st rfl rfl).2.2
  unfold replayRecord
  simp only [if_neg h0, if_pos ht]
  refine ⟨?_, ?_, ?_⟩
  · split <;> rfl
  · split <;> rfl
  · split <;> (funext s; split <;> simp_all)

/-- A batch record that is not a terminator is buffered. -/
theorem replayRecord_buffer (fid off sz : Nat) (r : LogRecord) (st : ReplayState)
    (h0 : ¬ (parseLogRecordKey r.key).2 = nonTransactionSeqNo)
    (ht : ¬ r.typ = LogRecordTxnFinished) :
    (replayRecord fid off sz r st).index = st.index ∧
    (replayRecord fid off sz r st).reclaimSize = st.reclaimSize ∧
    (replayRecord fid off sz r st).transactionRecords = (fun s =>
      if s = (parseLogRecordKey r.key).2 then
        st.transactionRecords s ++
          [({ key := (parseLogRecordKey r.key).1, value := r.value, typ := r.typ },
            { fid := fid, offset := off, size := sz % 2 ^ 32 })]
      else st.transactionRecords s) := by
  unfold replayRecord
  simp only [if_neg h0, if_neg ht]
  refine ⟨?_, ?_, ?_⟩
  · split <;> rfl
  · split <;> rfl
  · split <;> rfl

/-- Replay is insensitive to buffered records of sequence numbers whose
terminator never appears, and to dropping exactly those records from the
log: the final key directory and reclaim counter agree. -/
theorem replay_censor_go (es : List Entry) (st st' : ReplayState)
    (hidx : st.index = st'.index) (hrec : st.reclaimSize = st'.reclaimSize)
    (hbuf : ∀ s, hasTermFor es s = true →
      st.transactionRecords s = st'.transactionRecords s) :
    (replayEntries es st).index = (replayEntries (censor es) st').index ∧
    (replayEntries es st).reclaimSize = (replayEntries (censor es) st').reclaimSize := by
  induction es generalizing st st' with
  | nil => exact ⟨hidx, hrec⟩
  | cons e rest ih =>
    by_cases hc : entryCommitted e rest = true
    · rw [censor_cons, if_pos hc, replayEntries_cons, replayEntries_cons]
      by_cases h0 : (parseLogRecordKey e.2.2.2.key).2 = nonTransactionSeqNo
      · rw [replayRecord_seq0 e.1 e.2.1 e.2.2.1 e.2.2.2 st h0,
          replayRecord_seq0 e.1 e.2.1 e.2.2.1 e.2.2.2 st' h0]
        have hU := updateIndex_congr st st' (parseLogRecordKey e.2.2.2.key).1 e.2.2.2.typ
          { fid := e.1, offset := e.2.1, size := e.2.2.1 % 2 ^ 32 } hidx hrec
        have hB := updateIndex_buffers st (parseLogRecordKey e.2.2.2.key).1 e.2.2.2.typ
          { fid := e.1, offset := e.2.1, size := e.2.2.1 % 2 ^ 32 }
        have hB' := updateIndex_buffers st' (parseLogRecordKey e.2.2.2.key).1 e.2.2.2.typ
          { fid := e.1, offset := e.2.1, size := e.2.2.1 % 2 ^ 32 }
        refine ih _ _ hU.1 hU.2 ?_
        intro s hs
        rw [hB.1, hB'.1]
        exact hbuf s (hasTermFor_cons e rest s hs)
      · by_cases hterm : e.2.2.2.typ = LogRecordTxnFinished
        · have hsame : st.transactionRecords (parseLogRecordKey e.2.2.2.key).2 =
              st'.transactionRecords (parseLogRecordKey e.2.2.2.key).2 := by
            apply hbuf
            unfold hasTermFor
            simp only [List.any_cons]
            have hx : entrySeq e = (parseLogRecordKey e.2.2.2.key).2 ∧
                entryIsTerm e = true := by
              constructor
              · rfl
              · unfold entryIsTerm entryRec
                simp [hterm]
            simp only [hx.1, hx.2]
            simp
          have hL := replayRecord_term e.1 e.2.1 e.2.2.1 e.2.2.2 st h0 hterm
          have hR := replayRecord_term e.1 e.2.1 e.2.2.1 e.2.2.2 st' h0 hterm
          have hF := flushFold_spec (st.transactionRecords (parseLogRecordKey e.2.2.2.key).2)
            st st' hidx hrec
          refine ih _ _ ?_ ?_ ?_
          · rw [hL.1, hR.1, ← hsame]
            exact hF.1
          · rw [hL.2.1, hR.2.1, ← hsame]
            exact hF.2.1
          · intro s hs
            rw [hL.2.2, hR.2.2]
            by_cases hse : s = (parseLogRecordKey e.2.2.2.key).2
            · simp [hse]
            · simp only [if_neg hse]
              exact hbuf s (hasTermFor_cons e rest s hs)
        · have hL := replayRecord_buffer e.1 e.2.1 e.2.2.1 e.2.2.2 st h0 hterm
          have hR := replayRecord_buffer e.1 e.2.1 e.2.2.1 e.2.2.2 st' h0 hterm
          refine ih _ _ ?_ ?_ ?_
          · rw [hL.1, hR.1]
            exact hidx
          · rw [hL.2.1, hR.2.1]
            exact hrec
          · intro s hs
            rw [hL.2.2, hR.2.2]
            by_cases hse : s = (parseLogRecordKey e.2.2.2.key).2
            · subst hse
              simp only [if_pos rfl]
              rw [hbuf _ (hasTermFor_cons e rest _ hs)]
            · simp only [if_neg hse]
              exact hbuf s (hasTermFor_cons e rest s hs)
    · rw [censor_cons, if_neg (by simp [hc]), replayEntries_cons]
      unfold entryCommitted at hc
      simp only [Bool.or_eq_true, decide_eq_true_eq, not_or] at hc
      obtain ⟨⟨h0, hterm⟩, hnoterm⟩ := hc
      have hterm' : ¬ e.2.2.2.typ = LogRecordTxnFinished := by
        unfold entryIsTerm entryRec at hterm
        simpa using hterm
      have h0' : ¬ (parseLogRecordKey e.2.2.2.key).2 = nonTransactionSeqNo := h0
      have hL := replayRecord_buffer e.1 e.2.1 e.2.2.1 e.2.2.2 st h0' hterm'
      refine ih _ _ ?_ ?_ ?_
      · rw [hL.1]
        exact hidx
      · rw [hL.2.1]
        exact hrec
      · intro s hs
        rw [hL.2.2]
        have hse : ¬ s = (parseLogRecordKey e.2.2.2.key).2 := by
          intro hcontra
          have : hasTermFor rest (entrySeq e) = true := by
            unfold entrySeq entryRec
            rw [← hcontra]
            exact hs
          rw [this] at hnoterm
          simp at hnoterm
        simp only [if_neg hse]
        exact hbuf s (hasTermFor_cons e rest s hs)

theorem hasTermFor_filter (es : List Entry) (s q : Nat) (hqs : q ≠ s) :
    hasTermFor (es.filter (fun e => decide (entrySeq e ≠ s))) q = hasTermFor es q := by
  induction es with
  | nil => rfl
  | cons e rest ih =>
    by_cases he : entrySeq e = s
    · rw [List.filter_cons, if_neg (by simp [he])]
      rw [ih]
      unfold hasTermFor
      simp only [List.any_cons]
      have hne : ¬ (entrySeq e = q ∧ entryIsTerm e = true) := by
        rintro ⟨h1, -⟩
        exact hqs (by omega)
      simp only [hne]
      simp [he, Ne.symm hqs]
    · rw [List.filter_cons, if_pos (by simp [he])]
      unfold hasTermFor
      simp only [List.any_cons]
      unfold hasTermFor at ih
      rw [ih]

theorem censor_filter (es : List Entry) (s : Nat) (hs : 0 < s)
    (hno : hasTermFor es s = false) :
    censor (es.filter (fun e => decide (entrySeq e ≠ s))) = censor es := by
  induction es with
  | nil => rfl
  | cons e rest ih =>
    have hno' : hasTermFor rest s = false := by
      unfold hasTermFor at hno ⊢
      simp only [List.any_cons, Bool.or_eq_false_iff] at hno
      exact hno.2
    by_cases he : entrySeq e = s
    · have hterm : entryIsTerm e = false := by
        unfold hasTermFor at hno
        simp only [List.any_cons, Bool.or_eq_false_iff] at hno
        have := hno.1
        simp only [decide_eq_false_iff_not, not_and] at this
        by_contra hcontra
        exact (this he) (by simpa using hcontra)
      have hcf : entryCommitted e rest = false := by
        unfold entryCommitted nonTransactionSeqNo
        rw [he, hterm, hno']
        simp only [Bool.or_false, decide_eq_false_iff_not]
        omega
      rw [List.filter_cons, if_neg (by simp [he]), ih hno']
      rw [censor_cons, if_neg (by simp [hcf])]
    · rw [List.filter_cons, if_pos (by simp [he]), censor_cons, censor_cons]
      have hcomm : entryCommitted e (rest.filter (fun e => decide (entrySeq e ≠ s))) =
          entryCommitted e rest := by
        unfold entryCommitted
        rw [hasTermFor_filter rest s (entrySeq e) he]
      rw [hcomm, ih hno']

/-- C3 (amended).  Over any initial directory with empty transaction
buffers: (a) replay produces the same key directory and reclaim counter as
replay of the log censored of every batch record that is not followed by a
terminator of its sequence — a record with sequence `s > 0` is reflected
exactly when a BatchTerminator with sequence `s` appears later; (b) if no
BatchTerminator with sequence `s` exists anywhere in the log, the records
of batch `s` contribute nothing: deleting them leaves the replayed key
directory unchanged. -/
theorem C3_batch_atomicity (es : List Entry) (idx : Index) (rc sq : Nat) :
    (replayEntries es
        { index := idx, reclaimSize := rc, transactionRecords := fun _ => [],
          currentSeqNo := sq }).index =
      (replayEntries (censor es)
        { index := idx, reclaimSize := rc, transactionRecords := fun _ => [],
          currentSeqNo := sq }).index ∧
    (∀ s, 0 < s → hasTermFor es s = false →
      (replayEntries es
          { index := idx, reclaimSize := rc, transactionRecords := fun _ => [],
            currentSeqNo := sq }).index =
        (replayEntries (es.filter (fun e => decide (entrySeq e ≠ s)))
          { index := idx, reclaimSize := rc, transactionRecords := fun _ => [],
            currentSeqNo := sq }).index) := by
  constructor
  · exact (replay_censor_go es _ _ rfl rfl (fun _ _ => rfl)).1
  · intro s hs hno
    have h1 := (replay_censor_go es
      { index := idx, reclaimSize := rc, transactionRecords := fun _ => [],
        currentSeqNo := sq }
      { index := idx, reclaimSize := rc, transactionRecords := fun _ => [],
        currentSeqNo := sq } rfl rfl (fun _ _ => rfl)).1
    have h2 := (replay_censor_go (es.filter (fun e => decide (entrySeq e ≠ s)))
      { index := idx, reclaimSize := rc, transactionRecords := fun _ => [],
        currentSeqNo := sq }
      { index := idx, reclaimSize := rc, transactionRecords := fun _ => [],
        currentSeqNo := sq } rfl rfl (fun _ _ => rfl)).1
    rw [h1, h2, censor_filter es s hs hno]

/-- A concrete orphan batch record with sequence 1. -/
def c3rec : LogRecord :=
  { key := logRecordKeyWithSeq [107] 1, value := [118], typ := LogRecordNormal }

/-- A concrete batch terminator record with sequence 1. -/
def c3term : LogRecord :=
  { key := logRecordKeyWithSeq txnFinKey 1, value := [], typ := LogRecordTxnFinished }

/-- The scan entry of `c3rec` at file 0, offset 0. -/
def c3entry : Entry := (0, 0, 9, c3rec)

/-- A log whose terminator of sequence 1 precedes a record of sequence 1. -/
def c3log : List Nat := encBytes c3term ++ encBytes c3rec

/-- A replay state with an empty directory and empty buffers. -/
def emptyReplayState : ReplayState :=
  { index := [], reclaimSize := 0, transactionRecords := fun _ => [], currentSeqNo := 0 }

/-- Witness for C3 (amended) at a one-record orphan batch. -/
theorem C3_witness :
    0 < 1 ∧ hasTermFor [c3entry] 1 = false ∧
    (replayEntries [c3entry] emptyReplayState).index =
      (replayEntries ([c3entry].filter (fun e => decide (entrySeq e ≠ 1)))
        emptyReplayState).index :=
  ⟨by decide, by decide,
   (C3_batch_atomicity [c3entry] [] 0 0).2 1 (by decide) (by decide)⟩

/-- Counterexample to C3 as stated: in the on-disk log `c3log` a record
carrying sequence 1 appears after the BatchTerminator of sequence 1; the
terminator exists in the log, yet after recovery replay the record's key
is absent from the key directory. -/
theorem C3_counterexample :
    parseLogRecordKey c3term.key = (txnFinKey, 1) ∧
    c3term.typ = LogRecordTxnFinished ∧
    parseLogRecordKey c3rec.key = ([107], 1) ∧
    c3rec.typ = LogRecordNormal ∧
    (replayFileLoop (c3log.length + 1) 0 c3log 0 emptyReplayState).map
      (fun r => idxGet r.1.index [107]) = .ok none := by
  refine ⟨by decide, by decide, by decide, by decide, by decide⟩

/-! ### Byte-string ordering -/

theorem bytesCompare_eq_iff (a : List Nat) : ∀ b, bytesCompare a b = .eq ↔ a = b := by
  induction a with
  | nil => intro b; cases b <;> simp [bytesCompare]
  | cons x xs ih =>
    intro b
    cases b with
    | nil => simp [bytesCompare]
    | cons y ys =>
      unfold bytesCompare
      by_cases h1 : x < y
      · have hne : ¬ (x :: xs = y :: ys) := by
          intro h
          injection h with h' _
          omega
        simp [h1, hne]
      · by_cases h2 : y < x
        · have hne : ¬ (x :: xs = y :: ys) := by
            intro h
            injection h with h' _
            omega
          simp [h1, h2, hne]
        · have hxy : x = y := by omega
          subst hxy
          simp [h1, h2, ih ys]

theorem bytesCompare_swap (a : List Nat) : ∀ b, bytesCompare a b = .lt ↔ bytesCompare b a = .gt := by
  induction a with
  | nil => intro b; cases b <;> simp [bytesCompare]
  | cons x xs ih =>
    intro b
    cases b with
    | nil => simp [bytesCompare]
    | cons y ys =>
      unfold bytesCompare
      by_cases h1 : x < y
      · have h2 : ¬ y < x := by omega
        simp [h1, h2]
      · by_cases h2 : y < x
        · simp [h1, h2]
        · simp [h1, h2, ih ys]

theorem keyLt_irrefl (a : List Nat) : ¬ keyLt a a := by
  unfold keyLt
  intro h
  rw [(bytesCompare_eq_iff a a).mpr rfl] at h
  exact absurd h (by decide)

theorem keyLt_asymm (a b : List Nat) (h : keyLt a b) : ¬ keyLt b a := by
  unfold keyLt at *
  intro h2
  rw [bytesCompare_swap b a] at h2
  rw [h] at h2
  exact absurd h2 (by decide)

theorem keyLt_or_eq (a b : List Nat) (h1 : ¬ keyLt a b) (h2 : ¬ keyLt b a) : a = b := by
  unfold keyLt at *
  cases ho : bytesCompare a b with
  | lt => exact absurd ho h1
  | eq => exact (bytesCompare_eq_iff a b).mp ho
  | gt => exact absurd ((bytesCompare_swap b a).mpr ho) h2

theorem keyLt_trans : ∀ (a b c : List Nat), keyLt a b → keyLt b c → keyLt a c := by
  intro a
  induction a with
  | nil =>
    intro b c h1 h2
    unfold keyLt at *
    cases b with
    | nil => exact absurd h1 (by simp [bytesCompare])
    | cons y ys =>
      cases c with
      | nil => exact absurd h2 (by simp [bytesCompare])
      | cons z zs => simp [bytesCompare]
  | cons x xs ih =>
    intro b c h1 h2
    unfold keyLt at *
    cases b with
    | nil => exact absurd h1 (by simp [bytesCompare])
    | cons y ys =>
      cases c with
      | nil => exact absurd h2 (by simp [bytesCompare])
      | cons z zs =>
        unfold bytesCompare at h1 h2 ⊢
        by_cases hxy : x < y
        · by_cases hyz : y < z
          · rw [if_pos (by omega : x < z)]
          · rw [if_neg hyz] at h2
            by_cases hzy : z < y
            · rw [if_pos hzy] at h2
              exact absurd h2 (by decide)
            · rw [if_pos (by omega : x < z)]
        · rw [if_neg hxy] at h1
          by_cases hyx : y < x
          · rw [if_pos hyx] at h1
            exact absurd h1 (by decide)
          · rw [if_neg hyx] at h1
            by_cases hyz : y < z
            · rw [if_pos (by omega : x < z)]
            · rw [if_neg hyz] at h2
              by_cases hzy : z < y
              · rw [if_pos hzy] at h2
                exact absurd h2 (by decide)
              · rw [if_neg hzy] at h2
                rw [if_neg (by omega : ¬ x < z), if_neg (by omega : ¬ z < x)]
                exact ih ys zs h1 h2

/-! ### Key directory algebra -/

theorem idxGet_some_mem (idx : Index) (k : List Nat) (p : LogRecordPos)
    (h : idxGet idx k = some p) : (k, p) ∈ idx := by
  induction idx with
  | nil => simp [idxGet] at h
  | cons e rest ih =>
    rcases e with ⟨k0, p0⟩
    unfold idxGet at h
    by_cases hk : k = k0
    · rw [if_pos hk] at h
      injection h with h'
      subst hk
      subst h'
      exact List.mem_cons_self _ _
    · rw [if_neg hk] at h
      exact List.mem_cons_of_mem _ (ih h)

theorem idxGet_none_of_not_mem (idx : Index) (k : List Nat)
    (h : ∀ e ∈ idx, e.1 ≠ k) : idxGet idx k = none := by
  induction idx with
  | nil => rfl
  | cons e rest ih =>
    rcases e with ⟨k0, p0⟩
    unfold idxGet
    rw [if_neg (fun hk => h (k0, p0) (List.mem_cons_self _ _) hk.symm)]
    exact ih (fun e he => h e (List.mem_cons_of_mem _ he))

theorem idxPut_mem (idx : Index) (k : List Nat) (pos : LogRecordPos) :
    ∀ e ∈ (idxPut idx k pos).1, e = (k, pos) ∨ e ∈ idx := by
  induction idx with
  | nil =>
    intro e he
    simp [idxPut] at he
    exact Or.inl he
  | cons hd rest ih =>
    intro e he
    rcases hd with ⟨k0, p0⟩
    unfold idxPut at he
    simp only [] at he
    by_cases h1 : keyLt k k0
    · rw [if_pos h1] at he
      rcases List.mem_cons.mp he with rfl | he
      · exact Or.inl rfl
      · exact Or.inr he
    · rw [if_neg h1] at he
      by_cases h2 : k = k0
      · rw [if_pos h2] at he
        rcases List.mem_cons.mp he with rfl | he
        · exact Or.inl rfl
        · exact Or.inr (List.mem_cons_of_mem _ he)
      · rw [if_neg h2] at he
        rcases List.mem_cons.mp he with rfl | he
        · exact Or.inr (List.mem_cons_self _ _)
        · rcases ih e he with h | h
          · exact Or.inl h
          · exact Or.inr (List.mem_cons_of_mem _ h)

theorem idxPut_get_self (idx : Index) (k : List Nat) (pos : LogRecordPos) :
    idxGet (idxPut idx k pos).1 k = some pos := by
  induction idx with
  | nil => simp [idxPut, idxGet]
  | cons hd rest ih =>
    rcases hd with ⟨k0, p0⟩
    unfold idxPut
    simp only []
    by_cases h1 : keyLt k k0
    · rw [if_pos h1]
      simp [idxGet]
    · rw [if_neg h1]
      by_cases h2 : k = k0
      · rw [if_pos h2]
        simp [idxGet]
      · rw [if_neg h2]
        unfold idxGet
        rw [if_neg h2]
        exact ih

theorem idxPut_get_other (idx : Index) (k : List Nat) (pos : LogRecordPos) (k' : List Nat)
    (hne : k' ≠ k) : idxGet (idxPut idx k pos).1 k' = idxGet idx k' := by
  induction idx with
  | nil => simp [idxPut, idxGet, hne]
  | cons hd rest ih =>
    rcases hd with ⟨k0, p0⟩
    unfold idxPut
    simp only []
    by_cases h1 : keyLt k k0
    · rw [if_pos h1]
      rw [show idxGet ((k, pos) :: (k0, p0) :: rest) k' =
        (if k' = k then some pos else idxGet ((k0, p0) :: rest) k') from rfl, if_neg hne]
    · rw [if_neg h1]
      by_cases h2 : k = k0
      · rw [if_pos h2]
        subst h2
        unfold idxGet
        rw [if_neg hne, if_neg hne]
      · rw [if_neg h2]
        unfold idxGet
        by_cases h3 : k' = k0
        · rw [if_pos h3, if_pos h3]
        · rw [if_neg h3, if_neg h3]
          exact ih

theorem idxPut_sorted (idx : Index) (k : List Nat) (pos : LogRecordPos)
    (h : idx.Pairwise (fun a b => keyLt a.1 b.1)) :
    (idxPut idx k pos).1.Pairwise (fun a b => keyLt a.1 b.1) := by
  induction idx with
  | nil => simp [idxPut]
  | cons hd rest ih =>
    rcases hd with ⟨k0, p0⟩
    rcases List.pairwise_cons.mp h with ⟨hhd, hrest⟩
    unfold idxPut
    simp only []
    by_cases h1 : keyLt k k0
    · rw [if_pos h1]
      refine List.pairwise_cons.mpr ⟨?_, h⟩
      intro e he
      rcases List.mem_cons.mp he with rfl | he
      · exact h1
      · exact keyLt_trans _ _ _ h1 (hhd e he)
    · rw [if_neg h1]
      by_cases h2 : k = k0
      · rw [if_pos h2]
        refine List.pairwise_cons.mpr ⟨?_, hrest⟩
        intro e he
        have := hhd e he
        rw [h2]
        exact this
      · rw [if_neg h2]
        refine List.pairwise_cons.mpr ⟨?_, ih hrest⟩
        intro e he
        rcases idxPut_mem rest k pos e he with rfl | he
        · by_contra h3
          exact h2 (keyLt_or_eq k k0 h1 h3)
        · exact hhd e he

theorem idxDelete_mem (idx : Index) (k : List Nat) :
    ∀ e ∈ (idxDelete idx k).1, e ∈ idx := by
  induction idx with
  | nil =>
    intro e he
    simp [idxDelete] at he
  | cons hd rest ih =>
    intro e he
    rcases hd with ⟨k0, p0⟩
    unfold idxDelete at he
    simp only [] at he
    by_cases h1 : k = k0
    · rw [if_pos h1] at he
      exact List.mem_cons_of_mem _ he
    · rw [if_neg h1] at he
      rcases List.mem_cons.mp he with rfl | he
      · exact List.mem_cons_self _ _
      · exact List.mem_cons_of_mem _ (ih e he)

theorem idxDelete_sorted (idx : Index) (k : List Nat)
    (h : idx.Pairwise (fun a b => keyLt a.1 b.1)) :
    (idxDelete idx k).1.Pairwise (fun a b => keyLt a.1 b.1) := by
  induction idx with
  | nil => simp [idxDelete]
  | cons hd rest ih =>
    rcases hd with ⟨k0, p0⟩
    rcases List.pairwise_cons.mp h with ⟨hhd, hrest⟩
    unfold idxDelete
    simp only []
    by_cases h1 : k = k0
    · rw [if_pos h1]
      exact hrest
    · rw [if_neg h1]
      refine List.pairwise_cons.mpr ⟨?_, ih hrest⟩
      intro e he
      exact hhd e (idxDelete_mem rest k e he)

theorem idxDelete_get_other (idx : Index) (k k' : List Nat) (hne : k' ≠ k) :
    idxGet (idxDelete idx k).1 k' = idxGet idx k' := by
  induction idx with
  | nil => simp [idxDelete]
  | cons hd rest ih =>
    rcases hd with ⟨k0, p0⟩
    unfold idxDelete
    simp only []
    by_cases h1 : k = k0
    · rw [if_pos h1]
      show idxGet rest k' = idxGet ((k0, p0) :: rest) k'
      rw [show idxGet ((k0, p0) :: rest) k' =
        (if k' = k0 then some p0 else idxGet rest k') from rfl,
        if_neg (by rw [← h1]; exact hne)]
    · rw [if_neg h1]
      unfold idxGet
      by_cases h3 : k' = k0
      · rw [if_pos h3, if_pos h3]
      · rw [if_neg h3, if_neg h3]
        exact ih

theorem idxDelete_get_self (idx : Index) (k : List Nat)
    (h : idx.Pairwise (fun a b => keyLt a.1 b.1)) :
    idxGet (idxDelete idx k).1 k = none := by
  induction idx with
  | nil => simp [idxDelete, idxGet]
  | cons hd rest ih =>
    rcases hd with ⟨k0, p0⟩
    rcases List.pairwise_cons.mp h with ⟨hhd, hrest⟩
    unfold idxDelete
    simp only []
    by_cases h1 : k = k0
    · rw [if_pos h1]
      apply idxGet_none_of_not_mem
      intro e he hek
      have := hhd e he
      rw [hek, ← h1] at this
      exact keyLt_irrefl k this
    · rw [if_neg h1]
      unfold idxGet
      rw [if_neg h1]
      exact ih hrest

/-! ### Record stream lemmas -/

theorem getD_mem {α : Type} (l : List α) (n : Nat) (d : α) (h : n < l.length) :
    l.getD n d ∈ l := by
  induction l generalizing n with
  | nil => simp at h
  | cons x xs ih =>
    cases n with
    | zero => exact List.mem_cons_self _ _
    | succ m => exact List.mem_cons_of_mem _ (ih m (by simpa using h))

theorem encConcat_nil : encConcat [] = [] := rfl

theorem encConcat_cons (r : LogRecord) (rs : List LogRecord) :
    encConcat (r :: rs) = encBytes r ++ encConcat rs := by
  simp [encConcat]

theorem encConcat_append (rs1 rs2 : List LogRecord) :
    encConcat (rs1 ++ rs2) = encConcat rs1 ++ encConcat rs2 := by
  simp [encConcat]

theorem encConcat_length (rs : List LogRecord) :
    (encConcat rs).length = (rs.map encLen).sum := by
  induction rs with
  | nil => rfl
  | cons r rest ih =>
    rw [encConcat_cons]
    simp [ih, encBytes_length]

theorem offAt_append_le (rs1 rs2 : List LogRecord) (i : Nat) (h : i ≤ rs1.length) :
    offAt (rs1 ++ rs2) i = offAt rs1 i := by
  unfold offAt
  rw [List.take_append_eq_append_take, show i - rs1.length = 0 by omega, List.take_zero,
    List.append_nil]

theorem offAt_length (rs : List LogRecord) : offAt rs rs.length = (encConcat rs).length := by
  unfold offAt
  rw [List.take_length, encConcat_length]

theorem offAt_le_length (rs : List LogRecord) (i : Nat) :
    offAt rs i ≤ (encConcat rs).length := by
  unfold offAt
  rw [encConcat_length, List.map_take]
  conv_rhs => rw [← List.take_append_drop i (rs.map encLen)]
  rw [List.sum_append]
  omega

theorem encConcat_drop_offAt (rs : List LogRecord) (i : Nat) (h : i < rs.length) :
    (encConcat rs).drop (offAt rs i) =
      encBytes (rs.getD i default) ++ encConcat (rs.drop (i + 1)) := by
  induction rs generalizing i with
  | nil => simp at h
  | cons r rest ih =>
    cases i with
    | zero => simp [offAt, encConcat_cons, List.getD]
    | succ j =>
      have hj : j < rest.length := by simpa using h
      have heq : offAt (r :: rest) (j + 1) = encLen r + offAt rest j := by
        unfold offAt
        rw [show (r :: rest).take (j + 1) = r :: rest.take j from rfl]
        simp [Nat.add_comm]
      rw [heq, encConcat_cons, List.drop_append_eq_append_drop,
        List.drop_eq_nil_of_le (by rw [encBytes_length]; omega), List.nil_append,
        encBytes_length,
        show encLen r + offAt rest j - encLen r = offAt rest j by omega]
      rw [show (r :: rest).getD (j + 1) default = rest.getD j default from rfl,
        show (r :: rest).drop (j + 1 + 1) = rest.drop (j + 1) from rfl]
      exact ih j hj

/-- Reading at a record boundary of a stream returns that record whole. -/
theorem ReadLogRecord_at_boundary (content : List Nat) (rs : List LogRecord) (i : Nat)
    (hc : content = encConcat rs) (hOK : recsOK rs) (hi : i < rs.length) :
    ReadLogRecord content (offAt rs i) =
      .ok (rs.getD i default, encLen (rs.getD i default)) := by
  subst hc
  obtain ⟨hrOK, hrne⟩ := hOK (rs.getD i default) (getD_mem rs i default hi)
  have hdrop := encConcat_drop_offAt rs i hi
  have hlen := congrArg List.length hdrop
  rw [List.length_drop, List.length_append, encBytes_length] at hlen
  have hle := offAt_le_length rs i
  apply ReadLogRecord_spec' _ _ _ hrOK hrne
  · rw [hdrop, List.take_append_eq_append_take,
      List.take_of_length_le (le_of_eq (encBytes_length _)),
      show encLen (rs.getD i default) - (encBytes (rs.getD i default)).length = 0 by
        rw [encBytes_length, Nat.sub_self], List.take_zero, List.append_nil]
  · omega

/-- Reading at the end of a stream yields EOF. -/
theorem ReadLogRecord_stream_end (content : List Nat) (rs : List LogRecord)
    (hc : content = encConcat rs) :
    ReadLogRecord content (offAt rs rs.length) = .error .eof := by
  subst hc
  rw [offAt_length]
  exact ReadLogRecord_at_end _

/-- The stored key of a sequence-prefixed record parses back. -/
theorem parse_keyWithSeq (k : List Nat) (s : Nat) (hs : s < 2 ^ 64) :
    parseLogRecordKey (logRecordKeyWithSeq k s) = (k, s) := by
  unfold parseLogRecordKey logRecordKeyWithSeq
  simp only []
  rw [uvarint_putUvarint s k hs]
  simp [natOf_coe, List.drop_left]

theorem keyWithSeq_ne_nil (k : List Nat) (s : Nat) : logRecordKeyWithSeq k s ≠ [] := by
  unfold logRecordKeyWithSeq
  intro h
  exact putUvarint_ne_nil s (List.append_eq_nil.mp h).1

/-! ### Characterisation of the append path -/

/-- The bytes-written counter after one append under the sync policy. -/
def bwAfter (db : Database) (size : Nat) : Nat :=
  if db.options.syncWrites ∨
      (0 < db.options.bytesPerSync ∧ db.options.bytesPerSync ≤ db.bytesWrite + size)
  then 0 else db.bytesWrite + size

/-- The result of `appendLogRecord` when an active file exists. -/
def appendResult (db : Database) (af : DataFile) (r : LogRecord) : Database × LogRecordPos :=
  if db.options.dataFileSize < af.writeOffset + encLen r then
    let newActive : DataFile :=
      { fileID := af.fileID + 1, writeOffset := encLen r, content := encBytes r }
    ({ db with
        activeFile := some newActive,
        olderFiles := db.olderFiles ++ [(af.fileID, af)],
        bytesWrite := bwAfter db (encLen r) },
     { fid := af.fileID + 1, offset := 0, size := encLen r % 2 ^ 32 })
  else
    let newActive : DataFile :=
      { af with writeOffset := af.writeOffset + encLen r, content := af.content ++ encBytes r }
    ({ db with
        activeFile := some newActive,
        bytesWrite := bwAfter db (encLen r) },
     { fid := af.fileID, offset := af.writeOffset, size := encLen r % 2 ^ 32 })

theorem appendLogRecord_eq (db : Database) (af : DataFile) (r : LogRecord)
    (ha : db.activeFile = some af) :
    appendLogRecord db r = appendResult db af r := by
  have hlen : (EncodeLogRecord r).1.length = (EncodeLogRecord r).2 := encBytes_length r
  unfold appendLogRecord appendResult bwAfter DataFile.write
  rw [if_neg (by rw [ha]; simp)]
  simp only []
  rw [ha]
  simp only []
  by_cases hrot : db.options.dataFileSize < af.writeOffset + encLen r
  · rw [if_pos (show db.options.dataFileSize < af.writeOffset + (EncodeLogRecord r).2 from hrot),
      if_pos hrot]
    simp only [hlen]
    rw [show (0 : Nat) + (EncodeLogRecord r).2 = (EncodeLogRecord r).2 from Nat.zero_add _]
    rfl
  · rw [if_neg (show ¬ db.options.dataFileSize < af.writeOffset + (EncodeLogRecord r).2 from hrot),
      if_neg hrot]
    simp only [hlen]
    rfl

theorem appendLogRecord_seed (db : Database) (r : LogRecord) (h : db.activeFile = none) :
    appendLogRecord db r =
      appendLogRecord
        { db with activeFile := some { fileID := 0, writeOffset := 0, content := [] } } r := by
  conv_lhs => unfold appendLogRecord
  rw [if_pos h]
  conv_rhs => unfold appendLogRecord
  rw [if_neg (by simp)]
  unfold setActiveDataFile
  rw [h]

/-! ### Transport of positional facts -/

theorem fileRecs_congr (db db' : Database) (g : DBghost) (h : db'.activeFile = db.activeFile) :
    fileRecs db' g = fileRecs db g := by
  unfold fileRecs
  rw [h]

theorem PosAt_congr (db db' : Database) (g : DBghost) (pos : LogRecordPos) (r : LogRecord)
    (h : db'.activeFile = db.activeFile) (hp : PosAt db g pos r) : PosAt db' g pos r := by
  unfold PosAt at *
  rw [fileRecs_congr db db' g h]
  exact hp

theorem EntryPoints_congr (db db' : Database) (g : DBghost) (k : List Nat) (pos : LogRecordPos)
    (h : db'.activeFile = db.activeFile) (hp : EntryPoints db g k pos) :
    EntryPoints db' g k pos := by
  obtain ⟨r, hr, hk, ht⟩ := hp
  exact ⟨r, PosAt_congr db db' g pos r h hr, hk, ht⟩

theorem PosAt_active_extend (db db' : Database) (g : DBghost) (rnew : List LogRecord)
    (af af' : DataFile)
    (ha : db.activeFile = some af) (ha' : db'.activeFile = some af')
    (hid : af'.fileID = af.fileID) :
    ∀ pos r0, PosAt db g pos r0 →
      PosAt db' { activeRecs := g.activeRecs ++ rnew, olderRecs := g.olderRecs } pos r0 := by
  intro pos r0 hp
  obtain ⟨rs, i, hfr, hi, hoff, hget, hsz⟩ := hp
  unfold fileRecs at hfr
  rw [ha] at hfr
  simp only [] at hfr
  by_cases hfid : pos.fid = af.fileID
  · rw [if_pos hfid] at hfr
    injection hfr with hfr
    subst hfr
    refine ⟨g.activeRecs ++ rnew, i, ?_, by simp; omega, ?_, ?_, hsz⟩
    · unfold fileRecs
      rw [ha']
      simp only []
      rw [if_pos (by rw [hid]; exact hfid)]
    · rw [offAt_append_le _ _ i (by omega)]
      exact hoff
    · rw [List.getD_append _ _ _ _ (by omega)]
      exact hget
  · rw [if_neg hfid] at hfr
    refine ⟨rs, i, ?_, hi, hoff, hget, hsz⟩
    unfold fileRecs
    rw [ha']
    simp only []
    rw [if_neg (by rw [hid]; exact hfid)]
    exact hfr

theorem PosAt_rotate (db db' : Database) (g : DBghost) (newRecs : List LogRecord)
    (af af' : DataFile)
    (ha : db.activeFile = some af) (ha' : db'.activeFile = some af')
    (hid : af'.fileID = af.fileID + 1)
    (holdlen : g.olderRecs.length = af.fileID) :
    ∀ pos r0, PosAt db g pos r0 →
      PosAt db' { activeRecs := newRecs, olderRecs := g.olderRecs ++ [g.activeRecs] } pos r0 := by
  intro pos r0 hp
  obtain ⟨rs, i, hfr, hi, hoff, hget, hsz⟩ := hp
  unfold fileRecs at hfr
  rw [ha] at hfr
  simp only [] at hfr
  by_cases hfid : pos.fid = af.fileID
  · rw [if_pos hfid] at hfr
    injection hfr with hfr
    subst hfr
    refine ⟨g.activeRecs, i, ?_, hi, hoff, hget, hsz⟩
    unfold fileRecs
    rw [ha']
    simp only []
    rw [if_neg (by omega), if_pos (by simp; omega)]
    rw [hfid, ← holdlen, List.getD_append_right _ _ _ _ (le_refl _), Nat.sub_self]
    rfl
  · rw [if_neg hfid] at hfr
    by_cases hlt : pos.fid < g.olderRecs.length
    · rw [if_pos hlt] at hfr
      refine ⟨rs, i, ?_, hi, hoff, hget, hsz⟩
      unfold fileRecs
      rw [ha']
      simp only []
      rw [if_neg (by omega), if_pos (by simp; omega)]
      rw [← hfr]
      congr 1
      rw [List.getD_append _ _ _ _ hlt]
    · rw [if_neg hlt] at hfr
      exact absurd hfr (by simp)

/-! ### Preservation of the invariant -/

theorem appendLogRecord_WF (db : Database) (g : DBghost) (r : LogRecord) (af : DataFile)
    (ha : db.activeFile = some af) (h : WFg db g) (hrOK : recOK r) (hrne : r.key ≠ []) :
    ∃ g', WFg (appendLogRecord db r).1 g' ∧
      PosAt (appendLogRecord db r).1 g' (appendLogRecord db r).2 r ∧
      (∀ pos r0, PosAt db g pos r0 → PosAt (appendLogRecord db r).1 g' pos r0) := by
  obtain ⟨hopt, hdh, hdm, hds, hsort, hentries, hact⟩ := h
  rw [ha] at hact
  simp only [] at hact
  obtain ⟨hafid, hafOK, hglen, holders⟩ := hact
  obtain ⟨hwo, hcon, hrecs⟩ := hafOK
  rw [appendLogRecord_eq db af r ha]
  unfold appendResult
  by_cases hrot : db.options.dataFileSize < af.writeOffset + encLen r
  · rw [if_pos hrot]
    simp only []
    refine ⟨⟨[r], g.olderRecs ++ [g.activeRecs]⟩, ?_, ?_, ?_⟩
    · unfold WFg
      refine ⟨hopt, hdh, hdm, hds, hsort, ?_, ?_⟩
      · intro e he
        obtain ⟨hkk, hep⟩ := hentries e he
        obtain ⟨r0, hp0, hk0, ht0⟩ := hep
        refine ⟨hkk, r0, ?_, hk0, ht0⟩
        exact PosAt_rotate db _ g [r] af _ ha rfl rfl (by rw [hglen, hafid]) _ _ hp0
      · simp only []
        refine ⟨?_, ⟨?_, ?_, ?_⟩, ?_, ?_⟩
        · simp [hafid]
        · exact (encBytes_length r).symm
        · rw [encConcat_cons, encConcat_nil, List.append_nil]
        · intro x hx
          rcases List.mem_cons.mp hx with rfl | hx
          · exact ⟨hrOK, hrne⟩
          · simp at hx
        · simp [hglen]
        · intro i hi
          rw [List.length_append, List.length_singleton] at hi
          by_cases hilt : i < db.olderFiles.length
          · rw [List.getD_append _ _ _ _ hilt, List.getD_append _ _ _ _ (by omega)]
            exact holders i hilt
          · have hieq : i = db.olderFiles.length := by omega
            subst hieq
            rw [List.getD_append_right _ _ _ _ (le_refl _), Nat.sub_self,
              List.getD_append_right _ _ _ _ (le_of_eq hglen), hglen, Nat.sub_self]
            exact ⟨hafid, hafid, hwo, hcon, hrecs⟩
    · refine ⟨[r], 0, ?_, by simp, rfl, rfl, rfl⟩
      unfold fileRecs
      simp only []
      simp
    · exact PosAt_rotate db _ g [r] af _ ha rfl rfl (by rw [hglen, hafid])
  · rw [if_neg hrot]
    simp only []
    refine ⟨⟨g.activeRecs ++ [r], g.olderRecs⟩, ?_, ?_, ?_⟩
    · unfold WFg
      refine ⟨hopt, hdh, hdm, hds, hsort, ?_, ?_⟩
      · intro e he
        obtain ⟨hkk, hep⟩ := hentries e he
        obtain ⟨r0, hp0, hk0, ht0⟩ := hep
        refine ⟨hkk, r0, ?_, hk0, ht0⟩
        exact PosAt_active_extend db _ g [r] af
          { af with writeOffset := af.writeOffset + encLen r,
                    content := af.content ++ encBytes r } ha rfl rfl _ _ hp0
      · simp only []
        refine ⟨hafid, ⟨?_, ?_, ?_⟩, hglen, holders⟩
        · rw [hwo]
          simp [encBytes_length]
        · rw [hcon, encConcat_append, encConcat_cons, encConcat_nil, List.append_nil]
        · intro x hx
          rcases List.mem_append.mp hx with hx | hx
          · exact hrecs x hx
          · rcases List.mem_cons.mp hx with rfl | hx
            · exact ⟨hrOK, hrne⟩
            · simp at hx
    · refine ⟨g.activeRecs ++ [r], g.activeRecs.length, ?_, by simp, ?_, ?_, rfl⟩
      · unfold fileRecs
        simp only []
        simp
      · rw [offAt_append_le _ _ _ (le_refl _), offAt_length, ← hcon]
        exact hwo
      · rw [List.getD_append_right _ _ _ _ (le_refl _), Nat.sub_self]
        rfl
    · exact PosAt_active_extend db _ g [r] af
        { af with writeOffset := af.writeOffset + encLen r,
                  content := af.content ++ encBytes r } ha rfl rfl

theorem WFg_seed (db : Database) (g : DBghost) (h : WFg db g) (hn : db.activeFile = none) :
    WFg { db with activeFile := some { fileID := 0, writeOffset := 0, content := [] } }
      ⟨[], []⟩ := by
  obtain ⟨hopt, hdh, hdm, hds, hsort, hentries, hact⟩ := h
  rw [hn] at hact
  simp only [] at hact
  obtain ⟨hof, hidx, hmd⟩ := hact
  unfold WFg
  refine ⟨hopt, hdh, hdm, hds, by rw [hidx]; simp,
    by intro e he; rw [hidx] at he; simp at he, ?_⟩
  simp only []
  refine ⟨by rw [hof]; rfl, ⟨rfl, rfl, by intro x hx; simp at hx⟩, by rw [hof]; rfl, ?_⟩
  intro i hi
  rw [hof] at hi
  simp at hi

theorem PosAt_none (db : Database) (g : DBghost) (pos : LogRecordPos) (r : LogRecord)
    (hn : db.activeFile = none) (hp : PosAt db g pos r) : False := by
  obtain ⟨rs, i, hfr, -, -, -, -⟩ := hp
  unfold fileRecs at hfr
  rw [hn] at hfr
  simp at hfr

theorem appendLogRecord_WF' (db : Database) (g : DBghost) (r : LogRecord)
    (h : WFg db g) (hrOK : recOK r) (hrne : r.key ≠ []) :
    ∃ g', WFg (appendLogRecord db r).1 g' ∧
      PosAt (appendLogRecord db r).1 g' (appendLogRecord db r).2 r ∧
      (∀ pos r0, PosAt db g pos r0 → PosAt (appendLogRecord db r).1 g' pos r0) := by
  cases han : db.activeFile with
  | some af => exact appendLogRecord_WF db g r af han h hrOK hrne
  | none =>
    rw [appendLogRecord_seed db r han]
    have hW' := WFg_seed db g h han
    obtain ⟨g', hg1, hg2, hg3⟩ :=
      appendLogRecord_WF _ ⟨[], []⟩ r { fileID := 0, writeOffset := 0, content := [] } rfl
        hW' hrOK hrne
    refine ⟨g', hg1, hg2, ?_⟩
    intro pos r0 hp
    exact absurd hp (fun hp => PosAt_none db g pos r0 han hp)

theorem recOK_withSeq (k v : List Nat) (t s : Nat) (hk : keyOK k) (hbv : bytes v)
    (hvl : v.length < 2 ^ 30) (ht : t < 256) (hs : s < 2 ^ 64) :
    recOK { key := logRecordKeyWithSeq k s, value := v, typ := t } := by
  obtain ⟨hk1, hk2, hk3⟩ := hk
  refine ⟨?_, hbv, ht, ?_, by show v.length < 2 ^ 32; omega⟩
  · intro b hb
    rcases List.mem_append.mp hb with hb | hb
    · exact putUvarint_bytes _ b hb
    · exact hk2 b hb
  · show (putUvarint s ++ k).length < 2 ^ 32
    rw [List.length_append]
    have := putUvarint_length_le s 10 (by omega) (by norm_num)
    omega

theorem PosAt_active_some (db : Database) (g : DBghost) (pos : LogRecordPos) (r : LogRecord)
    (hp : PosAt db g pos r) : ∃ af, db.activeFile = some af := by
  obtain ⟨rs, i, hfr, -, -, -, -⟩ := hp
  unfold fileRecs at hfr
  cases haf : db.activeFile with
  | none =>
    rw [haf] at hfr
    simp at hfr
  | some af => exact ⟨af, rfl⟩

/-- Re-establishing the invariant for a state that shares files, options and
directory fields with a well-formed one and whose key directory entries are
backed in that state. -/
theorem WFg_surgery (db1 db2 : Database) (g' : DBghost)
    (hWF1 : WFg db1 g')
    (haf : db2.activeFile = db1.activeFile)
    (hof : db2.olderFiles = db1.olderFiles)
    (hop : db2.options = db1.options)
    (hdh : db2.dirHint = db1.dirHint)
    (hdm : db2.dirMergeFin = db1.dirMergeFin)
    (hds : db2.dirSeqNo = db1.dirSeqNo)
    (hsome : ∃ af, db1.activeFile = some af)
    (hsort2 : db2.index.Pairwise (fun a b => keyLt a.1 b.1))
    (hent2 : ∀ e ∈ db2.index, keyOK e.1 ∧ EntryPoints db1 g' e.1 e.2) :
    WFg db2 g' := by
  obtain ⟨o1, d1, d2, d3, hs1, he1, hact1⟩ := hWF1
  obtain ⟨af, ha⟩ := hsome
  rw [ha] at hact1
  simp only [] at hact1
  unfold WFg
  refine ⟨by rw [hop]; exact o1, by rw [hdh]; exact d1, by rw [hdm]; exact d2,
    by rw [hds]; exact d3, hsort2, ?_, ?_⟩
  · intro e he
    obtain ⟨hkk, hep⟩ := hent2 e he
    exact ⟨hkk, EntryPoints_congr db1 db2 g' _ _ haf hep⟩
  · rw [haf, ha]
    simp only []
    rw [hof]
    exact hact1

theorem put_WF (db : Database) (g : DBghost) (k v : List Nat)
    (h : WFg db g) (hk : keyOK k) (hv : valOK v) : WF (db.put k v).1 := by
  unfold Database.put
  rw [if_neg hk.1]
  simp only []
  set lr : LogRecord := { key := logRecordKeyWithSeq k nonTransactionSeqNo, value := v, typ := LogRecordNormal } with hlr
  have hrOK : recOK lr := recOK_withSeq k v _ _ hk hv.1 hv.2 (by decide) (by decide)
  have hrne : lr.key ≠ [] := keyWithSeq_ne_nil k _
  obtain ⟨g', hWF1, hPos, htrans⟩ := appendLogRecord_WF' db g lr h hrOK hrne
  have hs1 := hWF1.2.2.2.2.1
  have he1 := hWF1.2.2.2.2.2.1
  rw [show appendLogRecord db lr =
    ((appendLogRecord db lr).1, (appendLogRecord db lr).2) from rfl]
  simp only []
  refine ⟨g', WFg_surgery (appendLogRecord db lr).1 _ g' hWF1 rfl rfl rfl rfl rfl rfl
    (PosAt_active_some _ g' _ _ hPos) (idxPut_sorted _ _ _ hs1) ?_⟩
  intro e he
  rcases idxPut_mem ((appendLogRecord db lr).1.index) k ((appendLogRecord db lr).2) e he
    with rfl | he
  · refine ⟨hk, lr, hPos, ?_, by rw [hlr]⟩
    rw [hlr]
    show (parseLogRecordKey (logRecordKeyWithSeq k nonTransactionSeqNo)).1 = k
    rw [parse_keyWithSeq k nonTransactionSeqNo (by decide)]
  · exact he1 e he

theorem delete_WF (db : Database) (g : DBghost) (k : List Nat)
    (h : WFg db g) (hk : keyOK k) : WF (db.delete k).1 := by
  unfold Database.delete
  rw [if_neg hk.1]
  by_cases hg0 : idxGet db.index k = none
  · rw [if_pos hg0]
    exact ⟨g, h⟩
  · rw [if_neg hg0]
    simp only []
    set lr : LogRecord := { key := logRecordKeyWithSeq k nonTransactionSeqNo, value := [], typ := LogRecordDeleted } with hlr
    have hrOK : recOK lr :=
      recOK_withSeq k [] _ _ hk (by intro b hb; simp at hb) (by norm_num) (by decide) (by decide)
    have hrne : lr.key ≠ [] := keyWithSeq_ne_nil k _
    obtain ⟨g', hWF1, hPos, htrans⟩ := appendLogRecord_WF' db g lr h hrOK hrne
    have hs1 := hWF1.2.2.2.2.1
    have he1 := hWF1.2.2.2.2.2.1
    rw [show appendLogRecord db lr =
      ((appendLogRecord db lr).1, (appendLogRecord db lr).2) from rfl]
    simp only []
    split
    · exact ⟨g', WFg_surgery (appendLogRecord db lr).1 _ g' hWF1 rfl rfl rfl rfl rfl rfl
        (PosAt_active_some _ g' _ _ hPos) hs1 he1⟩
    · refine ⟨g', WFg_surgery (appendLogRecord db lr).1 _ g' hWF1 rfl rfl rfl rfl rfl rfl
        (PosAt_active_some _ g' _ _ hPos) (idxDelete_sorted _ _ hs1) ?_⟩
      intro e he
      exact he1 e (idxDelete_mem _ _ e he)

theorem WFg_seqNo (db : Database) (g : DBghost) (s : Nat) (h : WFg db g) :
    WFg { db with seqNo := s } g := by
  obtain ⟨hopt, hdh, hdm, hds, hsort, hentries, hact⟩ := h
  unfold WFg
  refine ⟨hopt, hdh, hdm, hds, hsort, ?_, ?_⟩
  · intro e he
    obtain ⟨hkk, hep⟩ := hentries e he
    exact ⟨hkk, EntryPoints_congr db _ g _ _ rfl hep⟩
  · cases ha : db.activeFile with
    | none =>
      rw [ha] at hact
      simp only [] at hact ⊢
      exact hact
    | some af =>
      rw [ha] at hact
      simp only [] at hact ⊢
      exact hact

theorem mkDatabase_WF (opts : Options) (h : optionsOK opts) :
    WFg (mkDatabase opts) ⟨[], []⟩ := by
  unfold WFg mkDatabase
  refine ⟨h, rfl, rfl, rfl, by simp, by intro e he; simp at he, ?_⟩
  simp only []
  exact ⟨by simp, by simp, by simp⟩

/-- The staged-record facts `commitAppend` needs per entry. -/
def pwEntryOK (e : List Nat × LogRecord) : Prop :=
  keyOK e.1 ∧ bytes e.2.value ∧ e.2.value.length < 2 ^ 30 ∧ e.2.key = e.1 ∧ e.2.typ < 256

theorem commitAppend_WF (pw : PendingWrites) :
    ∀ (db : Database) (g : DBghost) (s : Nat),
      WFg db g → (∀ e ∈ pw, pwEntryOK e) → s < 2 ^ 64 →
      ∃ g', WFg (commitAppend db pw s).1 g' ∧
        (∀ pos r0, PosAt db g pos r0 → PosAt (commitAppend db pw s).1 g' pos r0) ∧
        List.Forall₂ (fun (e : List Nat × LogRecord) (kp : List Nat × LogRecordPos) =>
          kp.1 = e.2.key ∧ PosAt (commitAppend db pw s).1 g'
            kp.2 { key := logRecordKeyWithSeq e.2.key s, value := e.2.value, typ := e.2.typ })
          pw (commitAppend db pw s).2 := by
  induction pw with
  | nil =>
    intro db g s h _ _
    exact ⟨g, h, fun pos r0 hp => hp, List.Forall₂.nil⟩
  | cons e rest ih =>
    intro db g s h hpw hs
    rcases e with ⟨k0, record⟩
    have hek := hpw (k0, record) (List.mem_cons_self _ _)
    obtain ⟨hkk, hbv, hvl, hkey, htyp⟩ := hek
    obtain ⟨rec1, hrec1⟩ : ∃ r : LogRecord, { key := logRecordKeyWithSeq record.key s, value := record.value, typ := record.typ } = r := ⟨_, rfl⟩
    have hrOK : recOK rec1 := by
      rw [← hrec1, hkey]
      exact recOK_withSeq k0 record.value record.typ s hkk hbv hvl htyp hs
    have hrne : rec1.key ≠ [] := by
      rw [← hrec1]
      exact keyWithSeq_ne_nil _ _
    obtain ⟨db1, pos1, hres1⟩ : ∃ a b, appendLogRecord db rec1 = (a, b) := ⟨_, _, rfl⟩
    obtain ⟨g1, hWF1, hPos1, htrans1⟩ := appendLogRecord_WF' db g rec1 h hrOK hrne
    rw [hres1] at hWF1 hPos1 htrans1
    simp only [] at hWF1 hPos1 htrans1
    obtain ⟨dbR, posR, hres2⟩ : ∃ a b, commitAppend db1 rest s = (a, b) := ⟨_, _, rfl⟩
    obtain ⟨g', hWF2, htrans2, hfa⟩ :=
      ih db1 g1 s hWF1 (fun e he => hpw e (List.mem_cons_of_mem _ he)) hs
    rw [hres2] at hWF2 htrans2 hfa
    simp only [] at hWF2 htrans2 hfa
    unfold commitAppend
    simp only []
    rw [hrec1, hres1]
    simp only []
    rw [hres2]
    simp only []
    refine ⟨g', hWF2, ?_, ?_⟩
    · intro pos r0 hp
      exact htrans2 pos r0 (htrans1 pos r0 hp)
    · refine List.Forall₂.cons ⟨rfl, ?_⟩ hfa
      have := htrans2 pos1 rec1 hPos1
      rw [← hrec1] at this
      exact this

theorem posLookup_forall₂ {P : List Nat × LogRecord → LogRecordPos → Prop}
    (pw : PendingWrites) (positions : List (List Nat × LogRecordPos))
    (hf : List.Forall₂ (fun e kp => kp.1 = e.2.key ∧ P e kp.2) pw positions)
    (hdist : pw.Pairwise (fun a b => a.1 ≠ b.1))
    (hkeys : ∀ e ∈ pw, e.2.key = e.1) :
    ∀ e ∈ pw, ∃ pos, posLookup positions e.2.key = some pos ∧ P e pos := by
  induction hf with
  | nil =>
    intro e he
    simp at he
  | @cons a b l1 l2 hhd htl ih =>
    rcases List.pairwise_cons.mp hdist with ⟨hd1, hd2⟩
    intro e he
    rcases List.mem_cons.mp he with rfl | he
    · refine ⟨b.2, ?_, hhd.2⟩
      unfold posLookup
      rw [if_pos hhd.1.symm]
    · have hne : e.2.key ≠ b.1 := by
        rw [hhd.1, hkeys a (List.mem_cons_self _ _), hkeys e (List.mem_cons_of_mem _ he)]
        exact fun hcontra => hd1 e he hcontra.symm
      obtain ⟨pos, hlk, hP⟩ :=
        ih hd2 (fun x hx => hkeys x (List.mem_cons_of_mem _ hx)) e he
      refine ⟨pos, ?_, hP⟩
      unfold posLookup
      rw [if_neg hne]
      exact hlk

theorem commitApply_WF (positions : List (List Nat × LogRecordPos)) (pw : PendingWrites) :
    ∀ (db : Database) (g : DBghost),
      WFg db g → (∃ af, db.activeFile = some af) →
      (∀ e ∈ pw, keyOK e.1 ∧ e.2.key = e.1 ∧
        (e.2.typ = LogRecordNormal ∨ e.2.typ = LogRecordDeleted)) →
      (∀ e ∈ pw, e.2.typ = LogRecordNormal →
        ∃ pos, posLookup positions e.2.key = some pos ∧ EntryPoints db g e.2.key pos) →
      WF (commitApply db pw positions) := by
  induction pw with
  | nil =>
    intro db g h _ _ _
    exact ⟨g, h⟩
  | cons e rest ih =>
    intro db g h hsome hpw hpos
    rcases e with ⟨k0, record⟩
    have hs1 := h.2.2.2.2.1
    have he1 := h.2.2.2.2.2.1
    obtain ⟨hkk, hkey, htyp⟩ := hpw (k0, record) (List.mem_cons_self _ _)
    have hpwrest := fun e he => hpw e (List.mem_cons_of_mem _ he)
    unfold commitApply
    simp only []
    by_cases ht1 : record.typ = LogRecordNormal
    · rw [if_pos ht1]
      simp only []
      obtain ⟨p, hlk, hep⟩ := hpos (k0, record) (List.mem_cons_self _ _) ht1
      rw [hlk]
      simp only [Option.getD_some]
      refine ih _ g ?_ ?_ hpwrest ?_
      · refine WFg_surgery db _ g h ?_ ?_ ?_ ?_ ?_ ?_ hsome
          (idxPut_sorted _ _ _ hs1) ?_
        · rfl
        · rfl
        · rfl
        · rfl
        · rfl
        · rfl
        intro e2 he2
        rcases idxPut_mem db.index record.key p e2 he2 with rfl | he2
        · exact ⟨by rw [hkey]; exact hkk, hep⟩
        · exact he1 e2 he2
      · exact hsome
      · intro e2 he2 ht2
        obtain ⟨p2, hlk2, hep2⟩ := hpos e2 (List.mem_cons_of_mem _ he2) ht2
        exact ⟨p2, hlk2, EntryPoints_congr db _ g _ _ rfl hep2⟩
    · rw [if_neg ht1]
      by_cases ht2 : record.typ = LogRecordDeleted
      · rw [if_pos ht2]
        simp only []
        refine ih _ g ?_ ?_ hpwrest ?_
        · refine WFg_surgery db _ g h ?_ ?_ ?_ ?_ ?_ ?_ hsome
            (idxDelete_sorted _ _ hs1) ?_
          · rfl
          · rfl
          · rfl
          · rfl
          · rfl
          · rfl
          intro e2 he2
          exact he1 e2 (idxDelete_mem _ _ e2 he2)
        · exact hsome
        · intro e2 he2 ht3
          obtain ⟨p2, hlk2, hep2⟩ := hpos e2 (List.mem_cons_of_mem _ he2) ht3
          exact ⟨p2, hlk2, EntryPoints_congr db _ g _ _ rfl hep2⟩
      · rw [if_neg ht2]
        simp only []
        refine ih _ g ?_ ?_ hpwrest ?_
        · refine WFg_surgery db _ g h ?_ ?_ ?_ ?_ ?_ ?_ hsome hs1 ?_
          · rfl
          · rfl
          · rfl
          · rfl
          · rfl
          · rfl
          intro e2 he2
          exact he1 e2 he2
        · exact hsome
        · intro e2 he2 ht3
          obtain ⟨p2, hlk2, hep2⟩ := hpos e2 (List.mem_cons_of_mem _ he2) ht3
          exact ⟨p2, hlk2, EntryPoints_congr db _ g _ _ rfl hep2⟩

theorem commit_WF (db : Database) (g : DBghost) (pw : PendingWrites)
    (o : WriteBatchOptions) (h : WFg db g) (hpw : stagedOK pw) :
    WF (commit db pw o).1 := by
  unfold commit
  by_cases h0 : pw = []
  · rw [if_pos h0]
    exact ⟨g, h⟩
  · rw [if_neg h0]
    by_cases h1 : o.maxBatchNum < pw.length
    · rw [if_pos h1]
      exact ⟨g, h⟩
    · rw [if_neg h1]
      simp only []
      have hs : (db.seqNo + 1) % 2 ^ 64 < 2 ^ 64 := Nat.mod_lt _ (by norm_num)
      have hWF0 : WFg { db with seqNo := (db.seqNo + 1) % 2 ^ 64 } g := WFg_seqNo db g _ h
      obtain ⟨hpw1, hpw2⟩ := hpw
      obtain ⟨dbA, posl, hresA⟩ : ∃ a b,
          commitAppend { db with seqNo := (db.seqNo + 1) % 2 ^ 64 } pw
            ((db.seqNo + 1) % 2 ^ 64) = (a, b) := ⟨_, _, rfl⟩
      obtain ⟨gA, hWFA, htransA, hfa⟩ := commitAppend_WF pw _ g _ hWF0
        (fun e he =>
          ⟨(hpw1 e he).1, (hpw1 e he).2.1.1, (hpw1 e he).2.1.2, (hpw1 e he).2.2.1,
           by rcases (hpw1 e he).2.2.2 with ht | ht <;> rw [ht] <;> decide⟩) hs
      rw [hresA] at hWFA htransA hfa
      simp only [] at hWFA htransA hfa
      obtain ⟨rect, hrect⟩ : ∃ r : LogRecord, { key := logRecordKeyWithSeq txnFinKey ((db.seqNo + 1) % 2 ^ 64), value := [], typ := LogRecordTxnFinished } = r := ⟨_, rfl⟩
      have hrOKt : recOK rect := by
        rw [← hrect]
        apply recOK_withSeq txnFinKey [] _ _ ?_ (by intro b hb; simp at hb) (by norm_num)
          (by decide) hs
        exact ⟨by decide, by decide, by decide⟩
      have hrnet : rect.key ≠ [] := by
        rw [← hrect]
        exact keyWithSeq_ne_nil _ _
      obtain ⟨dbT, posT, hresT⟩ : ∃ a b, appendLogRecord dbA rect = (a, b) := ⟨_, _, rfl⟩
      obtain ⟨gT, hWFT, hPosT, htransT⟩ := appendLogRecord_WF' dbA gA rect hWFA hrOKt hrnet
      rw [hresT] at hWFT hPosT htransT
      simp only [] at hWFT hPosT htransT
      rw [hresA]
      simp only []
      rw [hrect, hresT]
      simp only []
      apply commitApply_WF posl pw dbT gT hWFT (PosAt_active_some dbT gT posT rect hPosT)
        (fun e he => ⟨(hpw1 e he).1, (hpw1 e he).2.2.1, (hpw1 e he).2.2.2⟩)
      have hfa' : List.Forall₂ (fun (e : List Nat × LogRecord)
          (kp : List Nat × LogRecordPos) => kp.1 = e.2.key ∧
            PosAt dbT gT kp.2
              { key := logRecordKeyWithSeq e.2.key ((db.seqNo + 1) % 2 ^ 64),
                value := e.2.value, typ := e.2.typ }) pw posl := by
        apply List.Forall₂.imp ?_ hfa
        intro a b hab
        exact ⟨hab.1, htransT _ _ hab.2⟩
      have hlook := @posLookup_forall₂
        (fun (e : List Nat × LogRecord) (p : LogRecordPos) => PosAt dbT gT p
          { key := logRecordKeyWithSeq e.2.key ((db.seqNo + 1) % 2 ^ 64), value := e.2.value, typ := e.2.typ })
        pw posl hfa' hpw2 (fun e he => (hpw1 e he).2.2.1)
      intro e he ht
      obtain ⟨pos, hlk, hP⟩ := hlook e he
      refine ⟨pos, hlk, ?_⟩
      refine ⟨{ key := logRecordKeyWithSeq e.2.key ((db.seqNo + 1) % 2 ^ 64), value := e.2.value, typ := e.2.typ }, hP, ?_, ht⟩
      show (parseLogRecordKey (logRecordKeyWithSeq e.2.key ((db.seqNo + 1) % 2 ^ 64))).1 = e.2.key
      rw [parse_keyWithSeq _ _ hs]

theorem WFg_rotate (db : Database) (g : DBghost) (af : DataFile)
    (ha : db.activeFile = some af) (h : WFg db g) :
    WFg (setActiveDataFile { db with olderFiles := db.olderFiles ++ [(af.fileID, af)] })
      ⟨[], g.olderRecs ++ [g.activeRecs]⟩ := by
  obtain ⟨hopt, hdh, hdm, hds, hsort, hentries, hact⟩ := h
  rw [ha] at hact
  simp only [] at hact
  obtain ⟨hafid, ⟨hwo, hcon, hrecs⟩, hglen, holders⟩ := hact
  unfold setActiveDataFile
  rw [show ({ db with olderFiles := db.olderFiles ++ [(af.fileID, af)] } :
    Database).activeFile = db.activeFile from rfl, ha]
  simp only []
  unfold WFg
  refine ⟨hopt, hdh, hdm, hds, hsort, ?_, ?_⟩
  · intro e he
    obtain ⟨hkk, hep⟩ := hentries e he
    obtain ⟨r0, hp0, hk0, ht0⟩ := hep
    refine ⟨hkk, r0, ?_, hk0, ht0⟩
    exact PosAt_rotate db _ g [] af _ ha rfl rfl (by rw [hglen, hafid]) _ _ hp0
  · simp only []
    refine ⟨by simp [hafid], ⟨rfl, rfl, by intro x hx; simp at hx⟩, by simp [hglen], ?_⟩
    intro i hi
    rw [List.length_append, List.length_singleton] at hi
    by_cases hilt : i < db.olderFiles.length
    · rw [List.getD_append _ _ _ _ hilt, List.getD_append _ _ _ _ (by omega)]
      exact holders i hilt
    · have hieq : i = db.olderFiles.length := by omega
      subst hieq
      rw [List.getD_append_right _ _ _ _ (le_refl _), Nat.sub_self,
        List.getD_append_right _ _ _ _ (le_of_eq hglen), hglen, Nat.sub_self]
      exact ⟨hafid, hafid, hwo, hcon, hrecs⟩

theorem merge_WF (db : Database) (g : DBghost) (h : WFg db g) : WF db.merge.1 := by
  unfold Database.merge
  cases ha : db.activeFile with
  | none => exact ⟨g, h⟩
  | some af =>
    simp only []
    by_cases hm : db.isMerging
    · rw [if_pos hm]
      exact ⟨g, h⟩
    · rw [if_neg hm]
      by_cases hr1 : db.reclaimSize * db.options.mergeRatioDen <
          db.options.mergeRatioNum * dirSize db
      · rw [if_pos hr1]
        exact ⟨g, h⟩
      · rw [if_neg hr1]
        by_cases hr2 : availableDiskSize ≤
            uint64Of ((dirSize db : Int) - (db.reclaimSize : Int))
        · rw [if_pos hr2]
          exact ⟨g, h⟩
        · rw [if_neg hr2]
          have hrot := WFg_rotate db g af ha h
          rw [ha] at hrot
          split
          · exact ⟨_, hrot⟩
          · split
            · exact ⟨_, hrot⟩
            · obtain ⟨o1, d1, d2, d3, hs1, he1, hact1⟩ := hrot
              refine ⟨⟨[], g.olderRecs ++ [g.activeRecs]⟩,
                WFg_surgery _ _ _ ⟨o1, d1, d2, d3, hs1, he1, hact1⟩ ?_ ?_ ?_ ?_ ?_ ?_
                  ⟨_, rfl⟩ hs1 ?_⟩
              · rfl
              · rfl
              · rfl
              · rfl
              · rfl
              · rfl
              intro e he
              exact he1 e he

theorem applyOp_WF (db : Database) (op : Op) (h : WF db) (hop : opOK op) :
    WF (applyOp db op) := by
  obtain ⟨g, hg⟩ := h
  cases op with
  | putOp k v => exact put_WF db g k v hg hop.1 hop.2
  | delOp k => exact delete_WF db g k hg hop
  | commitOp pw o => exact commit_WF db g pw o hg hop
  | mergeOp => exact merge_WF db g hg

theorem applyOps_WF (ops : List Op) :
    ∀ db, WF db → (∀ op ∈ ops, opOK op) → WF (applyOps db ops) := by
  induction ops with
  | nil =>
    intro db h _
    exact h
  | cons op rest ih =>
    intro db h hops
    rw [show applyOps db (op :: rest) = applyOps (applyOp db op) rest from rfl]
    exact ih _ (applyOp_WF db op h (hops op (List.mem_cons_self _ _)))
      (fun o ho => hops o (List.mem_cons_of_mem _ ho))

/-- Every reachable state satisfies the structural invariant. -/
theorem Reach_WF (db : Database) (h : Reach db) : WF db := by
  obtain ⟨opts, ops, hopts, hops, hdb⟩ := h
  rw [hdb]
  exact applyOps_WF ops _ ⟨⟨[], []⟩, mkDatabase_WF opts hopts⟩ hops

theorem olderIds_lt (db : Database) (g : DBghost) (af : DataFile)
    (h : WFg db g) (ha : db.activeFile = some af) :
    ∀ e ∈ db.olderFiles, e.1 < af.fileID := by
  obtain ⟨-, -, -, -, -, -, hact⟩ := h
  rw [ha] at hact
  simp only [] at hact
  obtain ⟨hafid, -, -, holders⟩ := hact
  intro e he
  obtain ⟨i, hi, hei⟩ := List.getElem_of_mem he
  have h1 := (holders i hi).1
  rw [List.getD_eq_getElem _ _ hi, hei] at h1
  rw [hafid]
  omega

/-- C7.  When an append would overflow the configured data file size, the
engine moves the active file into the immutable table under its id and
opens a new active file whose id is the previous id plus one, writing the
record there at offset 0; and in every reachable state the active file's
id is strictly greater than every immutable file's id. -/
theorem C7_rotation_and_ids (db : Database) (r : LogRecord) (af : DataFile)
    (hReach : Reach db) (ha : db.activeFile = some af)
    (hover : db.options.dataFileSize < af.writeOffset + encLen r) :
    ((appendLogRecord db r).1.olderFiles = db.olderFiles ++ [(af.fileID, af)] ∧
     (appendLogRecord db r).1.activeFile =
       some { fileID := af.fileID + 1, writeOffset := encLen r, content := encBytes r } ∧
     (appendLogRecord db r).2 =
       { fid := af.fileID + 1, offset := 0, size := encLen r % 2 ^ 32 }) ∧
    (∀ e ∈ db.olderFiles, e.1 < af.fileID) := by
  constructor
  · rw [appendLogRecord_eq db af r ha]
    unfold appendResult
    rw [if_pos hover]
    exact ⟨rfl, rfl, rfl⟩
  · obtain ⟨g, hg⟩ := Reach_WF db hReach
    exact olderIds_lt db g af hg ha

/-- A configuration that rotates on every append. -/
def c7opts : Options :=
  { dataFileSize := 1, syncWrites := false, bytesPerSync := 0,
    mergeRatioNum := 0, mergeRatioDen := 1 }

/-- A small reachable state with one stored record. -/
def c7db : Database := applyOps (mkDatabase c7opts) [Op.putOp [107] [118]]

/-- Its active file. -/
def c7af : DataFile := (c7db.activeFile).getD { fileID := 0, writeOffset := 0, content := [] }

/-- Witness for C7 at a concrete overflowing append. -/
theorem C7_witness :
    c7db.activeFile = some c7af ∧
    c7db.options.dataFileSize < c7af.writeOffset +
      encLen { key := [1], value := [], typ := 0 } ∧
    (((appendLogRecord c7db { key := [1], value := [], typ := 0 }).1.olderFiles =
        c7db.olderFiles ++ [(c7af.fileID, c7af)] ∧
      (appendLogRecord c7db { key := [1], value := [], typ := 0 }).1.activeFile =
        some { fileID := c7af.fileID + 1,
               writeOffset := encLen { key := [1], value := [], typ := 0 },
               content := encBytes { key := [1], value := [], typ := 0 } } ∧
      (appendLogRecord c7db { key := [1], value := [], typ := 0 }).2 =
        { fid := c7af.fileID + 1, offset := 0,
          size := encLen { key := [1], value := [], typ := 0 } % 2 ^ 32 }) ∧
     (∀ e ∈ c7db.olderFiles, e.1 < c7af.fileID)) :=
  ⟨by decide, by decide,
   C7_rotation_and_ids c7db { key := [1], value := [], typ := 0 } c7af
     ⟨c7opts, [Op.putOp [107] [118]], by decide, by decide, rfl⟩
     (by decide) (by decide)⟩

/-! ### Iterator lemmas (C9) -/

theorem dropWhile_head_false {α : Type} (p : α → Bool) (l : List α) (x : α) (rest : List α)
    (h : l.dropWhile p = x :: rest) : p x = false := by
  induction l with
  | nil => simp at h
  | cons a l ih =>
    rw [List.dropWhile_cons] at h
    by_cases hp : p a = true
    · rw [if_pos hp] at h
      exact ih h
    · rw [if_neg hp] at h
      injection h with h1 h2
      rw [← h1]
      simpa using hp

theorem filter_map_fst {α β : Type} (l : List (α × β)) (p : α → Bool) :
    (l.map (fun e => e.1)).filter p = (l.filter (fun e => p e.1)).map (fun e => e.1) := by
  induction l with
  | nil => rfl
  | cons e rest ih =>
    simp only [List.map_cons, List.filter_cons]
    by_cases hp : p e.1 = true <;> simp [hp, ih]

theorem getD_drop {α : Type} (l : List α) : ∀ (i j : Nat) (d : α),
    (l.drop i).getD j d = l.getD (i + j) d := by
  induction l with
  | nil => intro i j d; simp
  | cons x rest ih =>
    intro i j d
    cases i with
    | zero => simp
    | succ m =>
      rw [show (x :: rest).drop (m + 1) = rest.drop m from rfl, ih m j d,
        show m + 1 + j = (m + j) + 1 by omega]
      rfl

theorem skipIdxF_eq (values : List (List Nat × LogRecordPos)) (pfxv : List Nat) :
    ∀ fuel i, values.length - i < fuel →
      skipIdxF fuel values pfxv i =
        i + ((values.drop i).takeWhile
          (fun e => !decide (matchesPfx pfxv e.1))).length := by
  intro fuel
  induction fuel with
  | zero =>
    intro i hi
    omega
  | succ fuel ih =>
    intro i hi
    unfold skipIdxF
    by_cases hc : i < values.length ∧ ¬ matchesPfx pfxv (values.getD i ([], default)).1
    · rw [if_pos hc]
      rw [ih (i + 1) (by omega)]
      have hdrop : values.drop i = values.getD i ([], default) :: values.drop (i + 1) := by
        rw [List.getD_eq_getElem _ _ hc.1]
        exact List.drop_eq_getElem_cons hc.1
      rw [hdrop, List.takeWhile_cons, if_pos (by simpa using hc.2)]
      simp only [List.length_cons]
      omega
    · rw [if_neg hc]
      by_cases hl : i < values.length
      · have hm : matchesPfx pfxv (values.getD i ([], default)).1 := by
          by_contra hm
          exact hc ⟨hl, hm⟩
        have hdrop : values.drop i = values.getD i ([], default) :: values.drop (i + 1) := by
          rw [List.getD_eq_getElem _ _ hl]
          exact List.drop_eq_getElem_cons hl
        rw [hdrop, List.takeWhile_cons, if_neg (by simpa using hm)]
        simp
      · rw [List.drop_eq_nil_of_le (by omega)]
        simp

theorem skipToNextIdx_eq (values : List (List Nat × LogRecordPos)) (pfxv : List Nat) (i : Nat) :
    skipToNextIdx values pfxv i =
      i + ((values.drop i).takeWhile (fun e => !decide (matchesPfx pfxv e.1))).length := by
  unfold skipToNextIdx
  by_cases hp : pfxv.length = 0
  · rw [if_pos hp]
    have hpnil : pfxv = [] := List.length_eq_zero.mp hp
    subst hpnil
    cases hd : values.drop i with
    | nil => simp
    | cons x rest =>
      have hm : matchesPfx [] x.1 := by
        constructor
        · simp
        · rw [show ([] : List Nat).length = 0 from rfl, List.take_zero]
          rfl
      rw [List.takeWhile_cons, if_neg (by simp [hm])]
      simp
  · rw [if_neg hp]
    exact skipIdxF_eq values pfxv (values.length + 1) i (by omega)

theorem iterLoop_eq (values : List (List Nat × LogRecordPos)) (pfxv : List Nat) :
    ∀ fuel i, values.length - i < fuel →
      iterLoop fuel values pfxv i =
        ((values.drop i).filter (fun e => decide (matchesPfx pfxv e.1))).map
          (fun e => e.1) := by
  intro fuel
  induction fuel with
  | zero =>
    intro i hi
    omega
  | succ fuel ih =>
    intro i hi
    unfold iterLoop
    simp only []
    rw [skipToNextIdx_eq]
    set tw := (values.drop i).takeWhile (fun e => !decide (matchesPfx pfxv e.1)) with htw
    set dw := (values.drop i).dropWhile (fun e => !decide (matchesPfx pfxv e.1)) with hdw
    have hsplit : values.drop i = tw ++ dw := by
      rw [htw, hdw]
      exact (List.takeWhile_append_dropWhile _ _).symm
    have hfil : (values.drop i).filter (fun e => decide (matchesPfx pfxv e.1)) =
        dw.filter (fun e => decide (matchesPfx pfxv e.1)) := by
      rw [hsplit, List.filter_append]
      rw [show tw.filter (fun e => decide (matchesPfx pfxv e.1)) = [] from ?_, List.nil_append]
      rw [List.filter_eq_nil_iff]
      intro a ha
      have := List.mem_takeWhile_imp (htw ▸ ha)
      simpa using this
    have hlen : (values.drop i).length = tw.length + dw.length := by
      rw [hsplit, List.length_append]
    have hdroplen : (values.drop i).length = values.length - i := by simp
    by_cases hjlt : i + tw.length < values.length
    · rw [if_pos hjlt]
      have hdwpos : 0 < dw.length := by omega
      obtain ⟨x, dwrest, hx⟩ := List.exists_cons_of_ne_nil
        (show dw ≠ [] by intro h; rw [h] at hdwpos; simp at hdwpos)
      have hgd : values.getD (i + tw.length) ([], default) = x := by
        rw [← getD_drop values i tw.length ([], default), hsplit, hx,
          List.getD_append_right _ _ _ _ (le_refl _), Nat.sub_self]
        rfl
      have hdrop2 : values.drop (i + tw.length + 1) = dwrest := by
        rw [show i + tw.length + 1 = i + (tw.length + 1) by omega, ← List.drop_drop, hsplit, hx,
          List.drop_append_eq_append_drop, List.drop_eq_nil_of_le (by omega), List.nil_append,
          show tw.length + 1 - tw.length = 1 by omega]
        rfl
      have hpx : decide (matchesPfx pfxv x.1) = true := by
        have hdwx : (values.drop i).dropWhile (fun e => !decide (matchesPfx pfxv e.1)) =
            x :: dwrest := by
          rw [← hdw]
          exact hx
        have := dropWhile_head_false _ _ x dwrest hdwx
        simpa using this
      rw [hgd, ih (i + tw.length + 1) (by omega), hdrop2, hfil, hx,
        List.filter_cons, if_pos hpx, List.map_cons]
    · rw [if_neg hjlt]
      have hdw0 : dw.length = 0 := by omega
      rw [hfil, List.length_eq_zero.mp hdw0]
      rfl

theorem matchesPfx_iff (pfxv k : List Nat) :
    matchesPfx pfxv k ↔ (pfxv.length ≤ k.length ∧ k.take pfxv.length = pfxv) := by
  unfold matchesPfx
  constructor
  · rintro ⟨h1, h2⟩
    exact ⟨h1, ((bytesCompare_eq_iff _ _).mp h2).symm⟩
  · rintro ⟨h1, h2⟩
    exact ⟨h1, (bytesCompare_eq_iff _ _).mpr h2.symm⟩

/-- C9.  An engine iterator yields exactly the live keys whose initial
bytes equal the prefix, in ascending byte order (descending with
`reverse`), each exactly once: the yielded sequence is the filtered key
list (reversed for a descending iterator), that filtered list is strictly
sorted, and membership is equivalent to being a live key extending the
prefix. -/
theorem C9_iterator (db : Database) (hReach : Reach db) (io : IteratorOptions) :
    iterateKeys db io =
      (if io.reverse then
        (db.listKeys.filter (fun k => decide (matchesPfx io.pfx k))).reverse
       else db.listKeys.filter (fun k => decide (matchesPfx io.pfx k))) ∧
    (db.listKeys.filter (fun k => decide (matchesPfx io.pfx k))).Pairwise keyLt ∧
    (∀ k, k ∈ iterateKeys db io ↔
      (k ∈ db.listKeys ∧ io.pfx.length ≤ k.length ∧ k.take io.pfx.length = io.pfx)) := by
  obtain ⟨g, hg⟩ := Reach_WF db hReach
  have hsort := hg.2.2.2.2.1
  have heq : iterateKeys db io =
      ((idxSnapshot db.index io.reverse).filter
        (fun e => decide (matchesPfx io.pfx e.1))).map (fun e => e.1) := by
    unfold iterateKeys
    simp only []
    rw [iterLoop_eq _ _ _ 0 (by omega), List.drop_zero]
  refine ⟨?_, ?_, ?_⟩
  · rw [heq]
    cases hrv : io.reverse
    · simp [idxSnapshot, Database.listKeys, filter_map_fst]
    · simp [idxSnapshot, Database.listKeys, filter_map_fst, List.filter_reverse,
        List.map_reverse]
  · have h1 : db.listKeys.Pairwise keyLt := by
      show ((idxSnapshot db.index false).map (fun e => e.1)).Pairwise keyLt
      exact List.Pairwise.map _ (fun a b hab => hab) hsort
    exact List.Pairwise.filter _ h1
  · intro k
    rw [heq]
    constructor
    · intro hk
      obtain ⟨e, he, hek⟩ := List.mem_map.mp hk
      rw [List.mem_filter] at he
      obtain ⟨he1, he2⟩ := he
      have hematch := of_decide_eq_true he2
      have heidx : e ∈ db.index := by
        unfold idxSnapshot at he1
        by_cases hrv : io.reverse = true
        · rw [if_pos hrv] at he1
          exact List.mem_reverse.mp he1
        · rw [if_neg hrv] at he1
          exact he1
      refine ⟨List.mem_map.mpr ⟨e, heidx, hek⟩, ?_⟩
      rw [← hek]
      exact (matchesPfx_iff _ _).mp hematch
    · rintro ⟨hk1, hk2, hk3⟩
      obtain ⟨e, he, hek⟩ := List.mem_map.mp hk1
      refine List.mem_map.mpr ⟨e, ?_, hek⟩
      rw [List.mem_filter]
      refine ⟨?_, ?_⟩
      · unfold idxSnapshot
        by_cases hrv : io.reverse = true
        · rw [if_pos hrv]
          exact List.mem_reverse.mpr he
        · rw [if_neg hrv]
          exact he
      · rw [hek]
        exact decide_eq_true ((matchesPfx_iff _ _).mpr ⟨hk2, hk3⟩)

/-- Options for the iterator witness state. -/
def c9opts : Options := { dataFileSize := 4096, syncWrites := false, bytesPerSync := 0, mergeRatioNum := 0, mergeRatioDen := 1 }

/-- A reachable state with three keys for the iterator witness. -/
def c9db : Database :=
  applyOps (mkDatabase c9opts) [Op.putOp [98, 1] [1], Op.putOp [97] [2], Op.putOp [98, 2] [3]]

/-- Witness for C9 at a concrete state, ascending with prefix `[98]` and
descending with the empty prefix. -/
theorem C9_witness :
    (iterateKeys c9db { pfx := [98], reverse := false } =
      (c9db.listKeys.filter (fun k => decide (matchesPfx [98] k))) ∧
     (c9db.listKeys.filter (fun k => decide (matchesPfx [98] k))).Pairwise keyLt ∧
     (∀ k, k ∈ iterateKeys c9db { pfx := [98], reverse := false } ↔
       (k ∈ c9db.listKeys ∧ ([98] : List Nat).length ≤ k.length ∧
         k.take ([98] : List Nat).length = [98]))) ∧
    iterateKeys c9db { pfx := [98], reverse := false } = [[98, 1], [98, 2]] ∧
    iterateKeys c9db { pfx := [], reverse := true } = [[98, 2], [98, 1], [97]] := by
  refine ⟨?_, by decide, by decide⟩
  have h := C9_iterator c9db
    ⟨c9opts, [Op.putOp [98, 1] [1], Op.putOp [97] [2], Op.putOp [98, 2] [3]],
      by decide, by decide, rfl⟩
    { pfx := [98], reverse := false }
  obtain ⟨h1, h2, h3⟩ := h
  refine ⟨?_, h2, h3⟩
  rw [h1]
  simp

/-! ### Merge observable invariance (C8) -/

theorem olderLookup_append_left (l1 l2 : List (Nat × DataFile)) (fid : Nat) (df : DataFile)
    (h : olderLookup l1 fid = some df) :
    olderLookup (l1 ++ l2) fid = some df := by
  induction l1 with
  | nil => exact Option.noConfusion h
  | cons e rest ih =>
    obtain ⟨id, d0⟩ := e
    have h' : (if fid = id then some d0 else olderLookup rest fid) = some df := h
    show (if fid = id then some d0 else olderLookup (rest ++ l2) fid) = some df
    by_cases hf : fid = id
    · rw [if_pos hf] at h' ⊢
      exact h'
    · rw [if_neg hf] at h' ⊢
      exact ih h'

theorem olderLookup_append_right (l1 l2 : List (Nat × DataFile)) (fid : Nat)
    (h : olderLookup l1 fid = none) :
    olderLookup (l1 ++ l2) fid = olderLookup l2 fid := by
  induction l1 with
  | nil => rfl
  | cons e rest ih =>
    obtain ⟨id, d0⟩ := e
    have h' : (if fid = id then some d0 else olderLookup rest fid) = none := h
    show (if fid = id then some d0 else olderLookup (rest ++ l2) fid) = olderLookup l2 fid
    by_cases hf : fid = id
    · rw [if_pos hf] at h'
      exact Option.noConfusion h'
    · rw [if_neg hf] at h' ⊢
      exact ih h'

theorem olderLookup_none (l : List (Nat × DataFile)) (fid : Nat)
    (h : ∀ e ∈ l, e.1 ≠ fid) : olderLookup l fid = none := by
  induction l with
  | nil => rfl
  | cons e rest ih =>
    obtain ⟨id, d0⟩ := e
    show (if fid = id then some d0 else olderLookup rest fid) = none
    have hne : ¬ (fid = id) := fun hf => h (id, d0) (List.mem_cons_self _ _) hf.symm
    rw [if_neg hne]
    exact ih (fun e2 he2 => h e2 (List.mem_cons_of_mem _ he2))

theorem olderLookup_dense (l : List (Nat × DataFile)) :
    ∀ base fid : Nat,
      (∀ i, i < l.length → (l.getD i dfltFile).1 = base + i) →
      base ≤ fid → fid < base + l.length →
      olderLookup l fid = some (l.getD (fid - base) dfltFile).2 := by
  induction l with
  | nil =>
    intro base fid _ h1 h2
    simp at h2
    omega
  | cons e rest ih =>
    intro base fid hids h1 h2
    obtain ⟨id, d0⟩ := e
    have hid0 : id = base := by
      have h3 := hids 0 (by simp)
      simpa using h3
    show (if fid = id then some d0 else olderLookup rest fid) = _
    by_cases hf : fid = id
    · rw [if_pos hf]
      rw [show fid - base = 0 by omega]
      rfl
    · have hrec : olderLookup rest fid = some (rest.getD (fid - (base + 1)) dfltFile).2 := by
        refine ih (base + 1) fid ?_ (by omega) ?_
        · intro i hi
          have h3 := hids (i + 1) (by simp; omega)
          have h3' : (rest.getD i dfltFile).1 = base + (i + 1) := by simpa using h3
          omega
        · have h4 : fid < base + (rest.length + 1) := by simpa using h2
          omega
      rw [if_neg hf, hrec, show fid - base = (fid - (base + 1)) + 1 by omega]
      rfl

/-- The value read once the file has been resolved. -/
def lookupRead (df? : Option DataFile) (pos : LogRecordPos) : Except Err (List Nat) :=
  match df? with
  | none => .error .dataFileNotFound
  | some dataFile =>
    match ReadLogRecord dataFile.content pos.offset with
    | .error e => .error e
    | .ok r => if r.1.typ = LogRecordDeleted then .error .keyNotFound else .ok r.1.value

theorem getValueByPosition_eq_lookup (db : Database) (pos : LogRecordPos) :
    getValueByPosition db pos = lookupRead (lookupFile db pos.fid) pos := by
  unfold getValueByPosition lookupRead lookupFile
  cases db.activeFile with
  | none => rfl
  | some af =>
    simp only []
    by_cases hf : af.fileID = pos.fid
    · rw [if_pos hf]
      simp only []
      cases ReadLogRecord af.content pos.offset with
      | error e => rfl
      | ok r => rfl
    · rw [if_neg hf]
      cases olderLookup db.olderFiles pos.fid with
      | none => rfl
      | some df =>
        simp only []
        cases ReadLogRecord df.content pos.offset with
        | error e => rfl
        | ok r => rfl

theorem lookupFile_rotate (db db' : Database) (g : DBghost) (af af' : DataFile)
    (pos : LogRecordPos) (h : WFg db g) (ha : db.activeFile = some af)
    (ha' : db'.activeFile = some af') (hid : af'.fileID = af.fileID + 1)
    (hof : db'.olderFiles = db.olderFiles ++ [(af.fileID, af)])
    (r0 : LogRecord) (hv : PosAt db g pos r0) :
    lookupFile db' pos.fid = lookupFile db pos.fid := by
  obtain ⟨rs, i, hfr, -, -, -, -⟩ := hv
  obtain ⟨-, -, -, -, -, -, hact⟩ := h
  rw [ha] at hact
  simp only [] at hact
  obtain ⟨hafid, -, hglen, holders⟩ := hact
  unfold fileRecs at hfr
  rw [ha] at hfr
  simp only [] at hfr
  unfold lookupFile
  rw [ha, ha']
  simp only []
  rw [hof]
  by_cases hfid : pos.fid = af.fileID
  · have hnone : olderLookup db.olderFiles pos.fid = none := by
      apply olderLookup_none
      intro e he
      obtain ⟨j, hj, hej⟩ := List.getElem_of_mem he
      have h1 := (holders j hj).1
      rw [List.getD_eq_getElem _ _ hj, hej] at h1
      omega
    have hsingle : olderLookup [(af.fileID, af)] pos.fid = some af := by
      show (if pos.fid = af.fileID then some af else olderLookup [] pos.fid) = some af
      rw [if_pos hfid]
    rw [if_pos hfid.symm,
      if_neg (show ¬ (af'.fileID = pos.fid) by intro hc; rw [hid, hfid] at hc; omega),
      olderLookup_append_right db.olderFiles [(af.fileID, af)] pos.fid hnone, hsingle]
  · rw [if_neg hfid] at hfr
    by_cases hlt : pos.fid < g.olderRecs.length
    · have hfound := olderLookup_dense db.olderFiles 0 pos.fid
        (fun i2 hi2 => by rw [Nat.zero_add]; exact (holders i2 hi2).1)
        (Nat.zero_le _) (by omega)
      rw [Nat.sub_zero] at hfound
      rw [if_neg (show ¬ (af'.fileID = pos.fid) by intro hc; rw [hid] at hc; omega)]
      rw [if_neg (show ¬ (af.fileID = pos.fid) from fun hc => hfid hc.symm)]
      rw [olderLookup_append_left db.olderFiles [(af.fileID, af)] pos.fid _ hfound, hfound]
    · rw [if_neg hlt] at hfr
      exact Option.noConfusion hfr

theorem get_obs_eq (db db' : Database) (hidx : db'.index = db.index)
    (hlk : ∀ k pos, idxGet db.index k = some pos →
      lookupFile db' pos.fid = lookupFile db pos.fid) :
    (∀ k, db'.get k = db.get k) ∧ db'.listKeys = db.listKeys := by
  constructor
  · intro k
    unfold Database.get
    rw [hidx]
    by_cases hk : k = []
    · rw [if_pos hk, if_pos hk]
    · rw [if_neg hk, if_neg hk]
      cases hg : idxGet db.index k with
      | none => rfl
      | some pos =>
        simp only []
        rw [getValueByPosition_eq_lookup, getValueByPosition_eq_lookup, hlk k pos hg]
  · unfold Database.listKeys
    rw [hidx]

theorem setActiveDataFile_eq (db : Database) (af : DataFile) (ha : db.activeFile = some af) :
    setActiveDataFile db = { db with activeFile := some { fileID := af.fileID + 1, writeOffset := 0, content := [] } } := by
  unfold setActiveDataFile
  rw [ha]

theorem merge_shape (db : Database) :
    db.merge.1 = db ∨
    ∃ af md, db.activeFile = some af ∧
      db.merge.1 = { db with
        activeFile := some { fileID := af.fileID + 1, writeOffset := 0, content := [] },
        olderFiles := db.olderFiles ++ [(af.fileID, af)], mergeDir := md } := by
  unfold Database.merge
  cases ha : db.activeFile with
  | none => exact Or.inl rfl
  | some af =>
    simp only []
    by_cases hm : db.isMerging
    · rw [if_pos hm]
      exact Or.inl rfl
    · rw [if_neg hm]
      by_cases hr1 : db.reclaimSize * db.options.mergeRatioDen <
          db.options.mergeRatioNum * dirSize db
      · rw [if_pos hr1]
        exact Or.inl rfl
      · rw [if_neg hr1]
        by_cases hr2 : availableDiskSize ≤
            uint64Of ((dirSize db : Int) - (db.reclaimSize : Int))
        · rw [if_pos hr2]
          exact Or.inl rfl
        · rw [if_neg hr2]
          have hrotate := setActiveDataFile_eq
            { db with olderFiles := db.olderFiles ++ [(af.fileID, af)] } af ha
          rw [ha] at hrotate
          rw [hrotate]
          split
          · exact Or.inr ⟨af, db.mergeDir, rfl, rfl⟩
          · split
            · exact Or.inr ⟨af, db.mergeDir, rfl, rfl⟩
            · exact Or.inr ⟨af, _, rfl, rfl⟩

theorem merge_obs (db : Database) (g : DBghost) (h : WFg db g) :
    (∀ k, (db.merge.1).get k = db.get k) ∧ (db.merge.1).listKeys = db.listKeys := by
  rcases merge_shape db with heq | ⟨af, md, ha, heq⟩
  · rw [heq]
    exact ⟨fun k => rfl, rfl⟩
  · apply get_obs_eq
    · rw [heq]
    · intro k pos hg
      have hentries := h.2.2.2.2.2.1
      have hmem := idxGet_some_mem db.index k pos hg
      obtain ⟨-, r0, hp0, -, -⟩ := hentries (k, pos) hmem
      refine lookupFile_rotate db db.merge.1 g af
        { fileID := af.fileID + 1, writeOffset := 0, content := [] } pos h ha ?_ rfl ?_ r0 hp0
      · rw [heq]
      · rw [heq]

theorem applyOps_append (db : Database) (l1 l2 : List Op) :
    applyOps db (l1 ++ l2) = applyOps (applyOps db l1) l2 := by
  unfold applyOps
  rw [List.foldl_append]

theorem Reach_applyOp (db : Database) (op : Op) (h : Reach db) (hop : opOK op) :
    Reach (applyOp db op) := by
  obtain ⟨opts, ops, h1, h2, h3⟩ := h
  refine ⟨opts, ops ++ [op], h1, ?_, ?_⟩
  · intro o ho
    rcases List.mem_append.mp ho with ho | ho
    · exact h2 o ho
    · rw [List.mem_singleton.mp ho]
      exact hop
  · rw [applyOps_append, ← h3]
    rfl

theorem merges_obs (n : Nat) : ∀ db : Database, Reach db →
    (∀ k, (applyOps db (List.replicate n Op.mergeOp)).get k = db.get k) ∧
    (applyOps db (List.replicate n Op.mergeOp)).listKeys = db.listKeys := by
  induction n with
  | zero =>
    intro db _
    exact ⟨fun k => rfl, rfl⟩
  | succ m ih =>
    intro db hReach
    obtain ⟨g, hg⟩ := Reach_WF db hReach
    have h1 := merge_obs db g hg
    have h2 := ih db.merge.1 (Reach_applyOp db Op.mergeOp hReach trivial)
    have hrepl : applyOps db (List.replicate (m + 1) Op.mergeOp) =
        applyOps db.merge.1 (List.replicate m Op.mergeOp) := by
      rw [List.replicate_succ]
      rfl
    rw [hrepl]
    exact ⟨fun k => (h2.1 k).trans (h1.1 k), h2.2.trans h1.2⟩

/-- C8.  Merge is idempotent on observable state: in every reachable state,
a second merge right after a first one changes neither the value returned
by `Get` for any key nor the key set, and any number of merges leaves
`Get` and the key set exactly as they were. -/
theorem C8_merge_idempotent (db : Database) (hReach : Reach db) :
    ((∀ k, ((db.merge.1).merge.1).get k = (db.merge.1).get k) ∧
      ((db.merge.1).merge.1).listKeys = (db.merge.1).listKeys) ∧
    ∀ n, (∀ k, (applyOps db (List.replicate n Op.mergeOp)).get k = db.get k) ∧
      (applyOps db (List.replicate n Op.mergeOp)).listKeys = db.listKeys := by
  constructor
  · have hm : Reach db.merge.1 := Reach_applyOp db Op.mergeOp hReach trivial
    obtain ⟨g, hg⟩ := Reach_WF db.merge.1 hm
    exact merge_obs db.merge.1 g hg
  · intro n
    exact merges_obs n db hReach

/-- Options for the merge witness state: a zero merge ratio lets every
merge proceed. -/
def c8opts : Options := { dataFileSize := 4096, syncWrites := false, bytesPerSync := 0, mergeRatioNum := 0, mergeRatioDen := 1 }

/-- A reachable state with one overwritten key, so a merge has work to do. -/
def c8db : Database := applyOps (mkDatabase c8opts) [Op.putOp [97] [1], Op.putOp [97] [2]]

/-- Witness for C8 at a concrete state whose merge succeeds. -/
theorem C8_witness :
    ((c8db.merge.1).merge.1).get [97] = (c8db.merge.1).get [97] ∧
    ((c8db.merge.1).merge.1).listKeys = (c8db.merge.1).listKeys ∧
    (applyOps c8db (List.replicate 2 Op.mergeOp)).get [97] = c8db.get [97] ∧
    (applyOps c8db (List.replicate 2 Op.mergeOp)).listKeys = c8db.listKeys ∧
    c8db.merge.2 = Except.ok () ∧ c8db.get [97] = Except.ok [2] := by
  have h := C8_merge_idempotent c8db
    ⟨c8opts, [Op.putOp [97] [1], Op.putOp [97] [2]], by decide, by decide, rfl⟩
  exact ⟨h.1.1 [97], h.1.2, (h.2 2).1 [97], (h.2 2).2, by decide, by decide⟩


/-! ### Round-trip of `Put` (C1) -/

theorem appendLogRecord_index (db : Database) (r : LogRecord) :
    (appendLogRecord db r).1.index = db.index := by
  cases ha : db.activeFile with
  | none =>
    rw [appendLogRecord_seed db r ha,
      appendLogRecord_eq _ { fileID := 0, writeOffset := 0, content := [] } r rfl]
    unfold appendResult
    split
    · rfl
    · rfl
  | some af =>
    rw [appendLogRecord_eq db af r ha]
    unfold appendResult
    split
    · rfl
    · rfl

theorem commitAppend_index (pw : PendingWrites) :
    ∀ (db : Database) (s : Nat), (commitAppend db pw s).1.index = db.index := by
  induction pw with
  | nil =>
    intro db s
    rfl
  | cons e rest ih =>
    intro db s
    rcases e with ⟨k0, record⟩
    obtain ⟨rec1, hrec1⟩ : ∃ r : LogRecord, { key := logRecordKeyWithSeq record.key s, value := record.value, typ := record.typ } = r := ⟨_, rfl⟩
    obtain ⟨db1, pos1, hres1⟩ : ∃ a b, appendLogRecord db rec1 = (a, b) := ⟨_, _, rfl⟩
    obtain ⟨dbR, posR, hres2⟩ : ∃ a b, commitAppend db1 rest s = (a, b) := ⟨_, _, rfl⟩
    unfold commitAppend
    simp only []
    rw [hrec1, hres1]
    simp only []
    rw [hres2]
    simp only []
    have h1 : db1.index = db.index := by
      have h3 := appendLogRecord_index db rec1
      rw [hres1] at h3
      exact h3
    have h2 : dbR.index = db1.index := by
      have h3 := ih db1 s
      rw [hres2] at h3
      exact h3
    rw [h2, h1]

/-- A stored position reads back as the record the ghost stream places
there. -/
theorem PosAt_read (db : Database) (g : DBghost) (pos : LogRecordPos) (r : LogRecord)
    (h : WFg db g) (hp : PosAt db g pos r) :
    ∃ df, lookupFile db pos.fid = some df ∧
      ReadLogRecord df.content pos.offset = Except.ok (r, encLen r) := by
  obtain ⟨rs, i, hfr, hi, hoff, hget, -⟩ := hp
  obtain ⟨af, ha⟩ : ∃ af, db.activeFile = some af := by
    cases haf : db.activeFile with
    | none =>
      unfold fileRecs at hfr
      rw [haf] at hfr
      simp at hfr
    | some af => exact ⟨af, rfl⟩
  have hact := h.2.2.2.2.2.2
  rw [ha] at hact
  simp only [] at hact
  obtain ⟨hafid, ⟨hwoA, hconA, hrecsA⟩, hglen, holders⟩ := hact
  unfold fileRecs at hfr
  rw [ha] at hfr
  simp only [] at hfr
  unfold lookupFile
  rw [ha]
  simp only []
  by_cases hfid : pos.fid = af.fileID
  · rw [if_pos hfid] at hfr
    injection hfr with hfr
    subst hfr
    rw [if_pos hfid.symm]
    refine ⟨af, rfl, ?_⟩
    rw [hoff, ← hget]
    exact ReadLogRecord_at_boundary af.content g.activeRecs i hconA hrecsA hi
  · rw [if_neg hfid] at hfr
    by_cases hlt : pos.fid < g.olderRecs.length
    · rw [if_pos hlt] at hfr
      injection hfr with hfr
      have hfound := olderLookup_dense db.olderFiles 0 pos.fid
        (fun i2 hi2 => by rw [Nat.zero_add]; exact (holders i2 hi2).1)
        (Nat.zero_le _) (by omega)
      rw [Nat.sub_zero] at hfound
      rw [if_neg (fun hc => hfid hc.symm), hfound]
      refine ⟨_, rfl, ?_⟩
      obtain ⟨-, -, hwo2, hcon2, hrecs2⟩ := holders pos.fid (by omega)
      rw [hoff, ← hget, ← hfr]
      exact ReadLogRecord_at_boundary _ _ i hcon2 hrecs2 (by rw [hfr]; exact hi)
    · rw [if_neg hlt] at hfr
      exact Option.noConfusion hfr

/-- The key directory binds `k` to a stored Normal record carrying value
`v`, in a well-formed state. -/
def HasVal (db : Database) (k v : List Nat) : Prop :=
  ∃ g pos r, WFg db g ∧ idxGet db.index k = some pos ∧ PosAt db g pos r ∧
    r.typ = LogRecordNormal ∧ r.value = v

theorem HasVal_get (db : Database) (k v : List Nat) (hk : k ≠ []) (h : HasVal db k v) :
    db.get k = Except.ok v := by
  obtain ⟨g, pos, r, hWF, hidx, hp, ht, hval⟩ := h
  obtain ⟨df, hdf, hread⟩ := PosAt_read db g pos r hWF hp
  unfold Database.get
  rw [if_neg hk, hidx]
  simp only []
  rw [getValueByPosition_eq_lookup, hdf]
  unfold lookupRead
  simp only []
  rw [hread]
  simp only []
  rw [if_neg (show ¬ (r.typ = LogRecordDeleted) by rw [ht]; decide), hval]

/-- The operation writes key `k` (a direct put or delete of `k`, or a
batch commit staging `k`). -/
def opTouches (k : List Nat) : Op → Prop
  | .putOp k2 _ => k2 = k
  | .delOp k2 => k2 = k
  | .commitOp pw _ => ∃ e ∈ pw, e.1 = k
  | .mergeOp => False

instance (k : List Nat) : (op : Op) → Decidable (opTouches k op) := fun op => by
  cases op <;> (unfold opTouches; infer_instance)

/-- The full effect of a successful `Put`: it succeeds, binds its key to
the freshly stored record, transports every stored position, and leaves
every other key's binding alone. -/
theorem put_effect (db : Database) (g : DBghost) (k v : List Nat)
    (h : WFg db g) (hk : keyOK k) (hv : valOK v) :
    (db.put k v).2 = Except.ok () ∧
    ∃ g' pos, WFg (db.put k v).1 g' ∧
      idxGet (db.put k v).1.index k = some pos ∧
      PosAt (db.put k v).1 g' pos
        { key := logRecordKeyWithSeq k nonTransactionSeqNo, value := v,
          typ := LogRecordNormal } ∧
      (∀ pos2 r2, PosAt db g pos2 r2 → PosAt (db.put k v).1 g' pos2 r2) ∧
      (∀ k2, k2 ≠ k → idxGet (db.put k v).1.index k2 = idxGet db.index k2) := by
  unfold Database.put
  rw [if_neg hk.1]
  simp only []
  set lr : LogRecord := { key := logRecordKeyWithSeq k nonTransactionSeqNo, value := v, typ := LogRecordNormal } with hlr
  have hrOK : recOK lr := recOK_withSeq k v _ _ hk hv.1 hv.2 (by decide) (by decide)
  have hrne : lr.key ≠ [] := keyWithSeq_ne_nil k _
  obtain ⟨g', hWF1, hPos, htrans⟩ := appendLogRecord_WF' db g lr h hrOK hrne
  have hs1 := hWF1.2.2.2.2.1
  have he1 := hWF1.2.2.2.2.2.1
  rw [show appendLogRecord db lr =
    ((appendLogRecord db lr).1, (appendLogRecord db lr).2) from rfl]
  simp only []
  refine ⟨trivial, g', (appendLogRecord db lr).2, ?_, ?_, ?_, ?_, ?_⟩
  · refine WFg_surgery (appendLogRecord db lr).1 _ g' hWF1 rfl rfl rfl rfl rfl rfl
      (PosAt_active_some _ g' _ _ hPos) (idxPut_sorted _ _ _ hs1) ?_
    intro e he
    rcases idxPut_mem ((appendLogRecord db lr).1.index) k ((appendLogRecord db lr).2) e he
      with rfl | he
    · refine ⟨hk, lr, hPos, ?_, by rw [hlr]⟩
      rw [hlr]
      show (parseLogRecordKey (logRecordKeyWithSeq k nonTransactionSeqNo)).1 = k
      rw [parse_keyWithSeq k nonTransactionSeqNo (by decide)]
    · exact he1 e he
  · exact idxPut_get_self (appendLogRecord db lr).1.index k (appendLogRecord db lr).2
  · exact PosAt_congr (appendLogRecord db lr).1 _ g' _ _ rfl hPos
  · intro pos2 r2 hp2
    exact PosAt_congr (appendLogRecord db lr).1 _ g' _ _ rfl (htrans pos2 r2 hp2)
  · intro k2 hk2
    exact (idxPut_get_other (appendLogRecord db lr).1.index k (appendLogRecord db lr).2
      k2 hk2).trans (by rw [appendLogRecord_index])

theorem HasVal_delete (db : Database) (k2 k v : List Nat) (hne : k ≠ k2)
    (h : HasVal db k v) (hk2 : keyOK k2) : HasVal (db.delete k2).1 k v := by
  obtain ⟨g, pos, r, hWF, hidx, hp, ht, hval⟩ := h
  unfold Database.delete
  rw [if_neg hk2.1]
  by_cases hg0 : idxGet db.index k2 = none
  · rw [if_pos hg0]
    exact ⟨g, pos, r, hWF, hidx, hp, ht, hval⟩
  · rw [if_neg hg0]
    simp only []
    set lr : LogRecord := { key := logRecordKeyWithSeq k2 nonTransactionSeqNo, value := [], typ := LogRecordDeleted } with hlr
    have hrOK : recOK lr :=
      recOK_withSeq k2 [] _ _ hk2 (by intro b hb; simp at hb) (by norm_num) (by decide) (by decide)
    have hrne : lr.key ≠ [] := keyWithSeq_ne_nil k2 _
    obtain ⟨g', hWF1, hPos, htrans⟩ := appendLogRecord_WF' db g lr hWF hrOK hrne
    have hs1 := hWF1.2.2.2.2.1
    have he1 := hWF1.2.2.2.2.2.1
    have hidx1 : idxGet (appendLogRecord db lr).1.index k = some pos := by
      rw [appendLogRecord_index]
      exact hidx
    rw [show appendLogRecord db lr =
      ((appendLogRecord db lr).1, (appendLogRecord db lr).2) from rfl]
    simp only []
    split
    · refine ⟨g', pos, r, ?_, hidx1, ?_, ht, hval⟩
      · exact WFg_surgery (appendLogRecord db lr).1 _ g' hWF1 rfl rfl rfl rfl rfl rfl
          (PosAt_active_some _ g' _ _ hPos) hs1 he1
      · exact PosAt_congr (appendLogRecord db lr).1 _ g' _ _ rfl (htrans pos r hp)
    · have hidx2 : idxGet (idxDelete (appendLogRecord db lr).1.index k2).1 k = some pos := by
        rw [idxDelete_get_other (appendLogRecord db lr).1.index k2 k hne]
        exact hidx1
      refine ⟨g', pos, r, ?_, hidx2, ?_, ht, hval⟩
      · refine WFg_surgery (appendLogRecord db lr).1 _ g' hWF1 rfl rfl rfl rfl rfl rfl
          (PosAt_active_some _ g' _ _ hPos) (idxDelete_sorted _ _ hs1) ?_
        intro e he
        exact he1 e (idxDelete_mem _ _ e he)
      · exact PosAt_congr (appendLogRecord db lr).1 _ g' _ _ rfl (htrans pos r hp)

theorem commitApply_pres (positions : List (List Nat × LogRecordPos)) (pw : PendingWrites) :
    ∀ (db : Database) (g : DBghost) (k : List Nat) (pos : LogRecordPos),
      WFg db g → (∃ af, db.activeFile = some af) →
      (∀ e ∈ pw, keyOK e.1 ∧ e.2.key = e.1 ∧
        (e.2.typ = LogRecordNormal ∨ e.2.typ = LogRecordDeleted)) →
      (∀ e ∈ pw, e.2.typ = LogRecordNormal →
        ∃ p2, posLookup positions e.2.key = some p2 ∧ EntryPoints db g e.2.key p2) →
      (∀ e ∈ pw, e.1 ≠ k) →
      idxGet db.index k = some pos →
      WFg (commitApply db pw positions) g ∧
      (commitApply db pw positions).activeFile = db.activeFile ∧
      idxGet (commitApply db pw positions).index k = some pos := by
  induction pw with
  | nil =>
    intro db g k pos h _ _ _ _ hidx
    exact ⟨h, rfl, hidx⟩
  | cons e rest ih =>
    intro db g k pos h hsome hpw hpos hnk hidx
    rcases e with ⟨k0, record⟩
    have hs1 := h.2.2.2.2.1
    have he1 := h.2.2.2.2.2.1
    obtain ⟨hkk, hkey, htyp⟩ := hpw (k0, record) (List.mem_cons_self _ _)
    have hpwrest := fun e he => hpw e (List.mem_cons_of_mem _ he)
    have hnkrest := fun e he => hnk e (List.mem_cons_of_mem _ he)
    have hkne : k ≠ record.key := by
      rw [hkey]
      exact fun hc => hnk (k0, record) (List.mem_cons_self _ _) hc.symm
    unfold commitApply
    simp only []
    by_cases ht1 : record.typ = LogRecordNormal
    · rw [if_pos ht1]
      simp only []
      obtain ⟨p, hlk, hep⟩ := hpos (k0, record) (List.mem_cons_self _ _) ht1
      rw [hlk]
      simp only [Option.getD_some]
      refine ih _ g k pos ?_ ?_ hpwrest ?_ hnkrest ?_
      · refine WFg_surgery db _ g h ?_ ?_ ?_ ?_ ?_ ?_ hsome
          (idxPut_sorted _ _ _ hs1) ?_
        · rfl
        · rfl
        · rfl
        · rfl
        · rfl
        · rfl
        intro e2 he2
        rcases idxPut_mem db.index record.key p e2 he2 with rfl | he2
        · exact ⟨by rw [hkey]; exact hkk, hep⟩
        · exact he1 e2 he2
      · exact hsome
      · intro e2 he2 ht2
        obtain ⟨p2, hlk2, hep2⟩ := hpos e2 (List.mem_cons_of_mem _ he2) ht2
        exact ⟨p2, hlk2, EntryPoints_congr db _ g _ _ rfl hep2⟩
      · show idxGet (idxPut db.index record.key p).1 k = some pos
        rw [idxPut_get_other db.index record.key p k hkne]
        exact hidx
    · rw [if_neg ht1]
      by_cases ht2 : record.typ = LogRecordDeleted
      · rw [if_pos ht2]
        simp only []
        refine ih _ g k pos ?_ ?_ hpwrest ?_ hnkrest ?_
        · refine WFg_surgery db _ g h ?_ ?_ ?_ ?_ ?_ ?_ hsome
            (idxDelete_sorted _ _ hs1) ?_
          · rfl
          · rfl
          · rfl
          · rfl
          · rfl
          · rfl
          intro e2 he2
          exact he1 e2 (idxDelete_mem _ _ e2 he2)
        · exact hsome
        · intro e2 he2 ht3
          obtain ⟨p2, hlk2, hep2⟩ := hpos e2 (List.mem_cons_of_mem _ he2) ht3
          exact ⟨p2, hlk2, EntryPoints_congr db _ g _ _ rfl hep2⟩
        · show idxGet (idxDelete db.index record.key).1 k = some pos
          rw [idxDelete_get_other db.index record.key k hkne]
          exact hidx
      · rw [if_neg ht2]
        simp only []
        refine ih _ g k pos ?_ ?_ hpwrest ?_ hnkrest ?_
        · refine WFg_surgery db _ g h ?_ ?_ ?_ ?_ ?_ ?_ hsome hs1 ?_
          · rfl
          · rfl
          · rfl
          · rfl
          · rfl
          · rfl
          intro e2 he2
          exact he1 e2 he2
        · exact hsome
        · intro e2 he2 ht3
          obtain ⟨p2, hlk2, hep2⟩ := hpos e2 (List.mem_cons_of_mem _ he2) ht3
          exact ⟨p2, hlk2, EntryPoints_congr db _ g _ _ rfl hep2⟩
        · exact hidx

theorem HasVal_commit (db : Database) (pw : PendingWrites) (o : WriteBatchOptions)
    (k v : List Nat) (hpw : stagedOK pw) (hnk : ∀ e ∈ pw, e.1 ≠ k)
    (h : HasVal db k v) : HasVal (commit db pw o).1 k v := by
  obtain ⟨g, pos, r, hWF, hidx, hp, ht, hval⟩ := h
  unfold commit
  by_cases h0 : pw = []
  · rw [if_pos h0]
    exact ⟨g, pos, r, hWF, hidx, hp, ht, hval⟩
  · rw [if_neg h0]
    by_cases h1 : o.maxBatchNum < pw.length
    · rw [if_pos h1]
      exact ⟨g, pos, r, hWF, hidx, hp, ht, hval⟩
    · rw [if_neg h1]
      simp only []
      have hs : (db.seqNo + 1) % 2 ^ 64 < 2 ^ 64 := Nat.mod_lt _ (by norm_num)
      have hWF0 : WFg { db with seqNo := (db.seqNo + 1) % 2 ^ 64 } g := WFg_seqNo db g _ hWF
      obtain ⟨hpw1, hpw2⟩ := hpw
      obtain ⟨dbA, posl, hresA⟩ : ∃ a b,
          commitAppend { db with seqNo := (db.seqNo + 1) % 2 ^ 64 } pw
            ((db.seqNo + 1) % 2 ^ 64) = (a, b) := ⟨_, _, rfl⟩
      obtain ⟨gA, hWFA, htransA, hfa⟩ := commitAppend_WF pw _ g _ hWF0
        (fun e he =>
          ⟨(hpw1 e he).1, (hpw1 e he).2.1.1, (hpw1 e he).2.1.2, (hpw1 e he).2.2.1,
           by rcases (hpw1 e he).2.2.2 with ht2 | ht2 <;> rw [ht2] <;> decide⟩) hs
      rw [hresA] at hWFA htransA hfa
      simp only [] at hWFA htransA hfa
      have hidxA : idxGet dbA.index k = some pos := by
        have h3 := commitAppend_index pw { db with seqNo := (db.seqNo + 1) % 2 ^ 64 }
          ((db.seqNo + 1) % 2 ^ 64)
        rw [hresA] at h3
        simp only [] at h3
        rw [h3]
        exact hidx
      have hpA : PosAt dbA gA pos r :=
        htransA pos r (PosAt_congr db _ g pos r rfl hp)
      obtain ⟨rect, hrect⟩ : ∃ r2 : LogRecord, { key := logRecordKeyWithSeq txnFinKey ((db.seqNo + 1) % 2 ^ 64), value := [], typ := LogRecordTxnFinished } = r2 := ⟨_, rfl⟩
      have hrOKt : recOK rect := by
        rw [← hrect]
        apply recOK_withSeq txnFinKey [] _ _ ?_ (by intro b hb; simp at hb) (by norm_num)
          (by decide) hs
        exact ⟨by decide, by decide, by decide⟩
      have hrnet : rect.key ≠ [] := by
        rw [← hrect]
        exact keyWithSeq_ne_nil _ _
      obtain ⟨dbT, posT, hresT⟩ : ∃ a b, appendLogRecord dbA rect = (a, b) := ⟨_, _, rfl⟩
      obtain ⟨gT, hWFT, hPosT, htransT⟩ := appendLogRecord_WF' dbA gA rect hWFA hrOKt hrnet
      rw [hresT] at hWFT hPosT htransT
      simp only [] at hWFT hPosT htransT
      have hidxT : idxGet dbT.index k = some pos := by
        have h3 := appendLogRecord_index dbA rect
        rw [hresT] at h3
        simp only [] at h3
        rw [h3]
        exact hidxA
      have hpT : PosAt dbT gT pos r := htransT pos r hpA
      rw [hresA]
      simp only []
      rw [hrect, hresT]
      simp only []
      have hfa' : List.Forall₂ (fun (e : List Nat × LogRecord)
          (kp : List Nat × LogRecordPos) => kp.1 = e.2.key ∧
            PosAt dbT gT kp.2
              { key := logRecordKeyWithSeq e.2.key ((db.seqNo + 1) % 2 ^ 64),
                value := e.2.value, typ := e.2.typ }) pw posl := by
        apply List.Forall₂.imp ?_ hfa
        intro a b hab
        exact ⟨hab.1, htransT _ _ hab.2⟩
      have hlook := @posLookup_forall₂
        (fun (e : List Nat × LogRecord) (p : LogRecordPos) => PosAt dbT gT p
          { key := logRecordKeyWithSeq e.2.key ((db.seqNo + 1) % 2 ^ 64), value := e.2.value, typ := e.2.typ })
        pw posl hfa' hpw2 (fun e he => (hpw1 e he).2.2.1)
      have hposc : ∀ e ∈ pw, e.2.typ = LogRecordNormal →
          ∃ p2, posLookup posl e.2.key = some p2 ∧ EntryPoints dbT gT e.2.key p2 := by
        intro e he ht2
        obtain ⟨p2, hlk, hP⟩ := hlook e he
        refine ⟨p2, hlk, ?_⟩
        refine ⟨{ key := logRecordKeyWithSeq e.2.key ((db.seqNo + 1) % 2 ^ 64), value := e.2.value, typ := e.2.typ }, hP, ?_, ht2⟩
        show (parseLogRecordKey (logRecordKeyWithSeq e.2.key ((db.seqNo + 1) % 2 ^ 64))).1 = e.2.key
        rw [parse_keyWithSeq _ _ hs]
      obtain ⟨hWFC, hafC, hidxC⟩ :=
        commitApply_pres posl pw dbT gT k pos hWFT
          (PosAt_active_some dbT gT posT rect hPosT)
          (fun e he => ⟨(hpw1 e he).1, (hpw1 e he).2.2.1, (hpw1 e he).2.2.2⟩)
          hposc hnk hidxT
      exact ⟨gT, pos, r, hWFC, hidxC, PosAt_congr dbT _ gT pos r hafC hpT, ht, hval⟩

theorem HasVal_merge (db : Database) (k v : List Nat) (h : HasVal db k v) :
    HasVal db.merge.1 k v := by
  obtain ⟨g, pos, r, hWF, hidx, hp, ht, hval⟩ := h
  rcases merge_shape db with heq | ⟨af, md, ha, heq⟩
  · rw [heq]
    exact ⟨g, pos, r, hWF, hidx, hp, ht, hval⟩
  · have hrotate := setActiveDataFile_eq
      { db with olderFiles := db.olderFiles ++ [(af.fileID, af)] } af ha
    have hrot := WFg_rotate db g af ha hWF
    rw [hrotate] at hrot
    have hact := hWF.2.2.2.2.2.2
    rw [ha] at hact
    simp only [] at hact
    have hafid : af.fileID = db.olderFiles.length := hact.1
    have hglen : g.olderRecs.length = db.olderFiles.length := hact.2.2.1
    have hp' : PosAt db.merge.1 ⟨[], g.olderRecs ++ [g.activeRecs]⟩ pos r := by
      refine PosAt_rotate db db.merge.1 g [] af
        { fileID := af.fileID + 1, writeOffset := 0, content := [] } ha ?_ rfl ?_ pos r hp
      · rw [heq]
      · rw [hglen, hafid]
    have hWF' : WFg db.merge.1 ⟨[], g.olderRecs ++ [g.activeRecs]⟩ := by
      refine WFg_surgery _ db.merge.1 _ hrot ?_ ?_ ?_ ?_ ?_ ?_ ⟨_, rfl⟩ ?_ ?_
      · rw [heq]
      · rw [heq]
      · rw [heq]
      · rw [heq]
      · rw [heq]
      · rw [heq]
      · rw [heq]
        exact hWF.2.2.2.2.1
      · rw [heq]
        intro e he
        have hent := hWF.2.2.2.2.2.1 e he
        refine ⟨hent.1, ?_⟩
        obtain ⟨r2, hp2, hk2, ht2⟩ := hent.2
        refine ⟨r2, ?_, hk2, ht2⟩
        exact PosAt_rotate db _ g [] af
          { fileID := af.fileID + 1, writeOffset := 0, content := [] } ha rfl rfl
          (by rw [hglen, hafid]) e.2 r2 hp2
    exact ⟨⟨[], g.olderRecs ++ [g.activeRecs]⟩, pos, r, hWF',
      by rw [heq]; exact hidx, hp', ht, hval⟩

theorem HasVal_op (db : Database) (op : Op) (k v : List Nat) (h : HasVal db k v)
    (hop : opOK op) (hnt : ¬ opTouches k op) : HasVal (applyOp db op) k v := by
  cases op with
  | putOp k2 v2 =>
    show HasVal (db.put k2 v2).1 k v
    obtain ⟨g, pos, r, hWF, hidx, hp, ht, hval⟩ := h
    have hne : k ≠ k2 := fun hc => hnt hc.symm
    obtain ⟨-, g', pos', hWF', hidx', hp', htrans, hother⟩ :=
      put_effect db g k2 v2 hWF hop.1 hop.2
    refine ⟨g', pos, r, hWF', ?_, htrans pos r hp, ht, hval⟩
    rw [hother k hne]
    exact hidx
  | delOp k2 =>
    have hne : k ≠ k2 := fun hc => hnt hc.symm
    exact HasVal_delete db k2 k v hne h hop
  | commitOp pw o =>
    have hnk : ∀ e ∈ pw, e.1 ≠ k := fun e he hc => hnt ⟨e, he, hc⟩
    exact HasVal_commit db pw o k v hop hnk h
  | mergeOp => exact HasVal_merge db k v h

theorem HasVal_ops (ops : List Op) : ∀ db k v, HasVal db k v →
    (∀ op ∈ ops, opOK op) → (∀ op ∈ ops, ¬ opTouches k op) →
    HasVal (applyOps db ops) k v := by
  induction ops with
  | nil =>
    intro db k v h _ _
    exact h
  | cons op rest ih =>
    intro db k v h hops hnt
    rw [show applyOps db (op :: rest) = applyOps (applyOp db op) rest from rfl]
    exact ih _ k v
      (HasVal_op db op k v h (hops op (List.mem_cons_self _ _))
        (hnt op (List.mem_cons_self _ _)))
      (fun o ho => hops o (List.mem_cons_of_mem _ ho))
      (fun o ho => hnt o (List.mem_cons_of_mem _ ho))

/-- C1.  From any reachable state, `Put(k, v)` with a well-formed key and
value succeeds, and after any further well-formed operations none of
which writes `k` (no `Put(k, _)`, no `Delete(k)`, no batch commit staging
`k`), `Get(k)` returns `v`. -/
theorem C1_put_roundtrip (db : Database) (hReach : Reach db) (k v : List Nat)
    (hk : keyOK k) (hv : valOK v) (ops : List Op)
    (hops : ∀ op ∈ ops, opOK op) (hnt : ∀ op ∈ ops, ¬ opTouches k op) :
    (db.put k v).2 = Except.ok () ∧
    (applyOps (db.put k v).1 ops).get k = Except.ok v := by
  obtain ⟨g, hWF⟩ := Reach_WF db hReach
  obtain ⟨hok, g', pos, hWF', hidx', hp', htrans, hother⟩ := put_effect db g k v hWF hk hv
  refine ⟨hok, ?_⟩
  have hHV : HasVal (db.put k v).1 k v :=
    ⟨g', pos, { key := logRecordKeyWithSeq k nonTransactionSeqNo, value := v, typ := LogRecordNormal }, hWF', hidx', hp', rfl, rfl⟩
  exact HasVal_get _ k v hk.1 (HasVal_ops ops (db.put k v).1 k v hHV hops hnt)

/-- Options for the round-trip witness state. -/
def c1opts : Options := { dataFileSize := 4096, syncWrites := false, bytesPerSync := 0, mergeRatioNum := 0, mergeRatioDen := 1 }

/-- A small reachable state for the round-trip witness. -/
def c1db : Database := applyOps (mkDatabase c1opts) [Op.putOp [97] [7]]

/-- Witness for C1: a put followed by writes to another key and a merge. -/
theorem C1_witness :
    (c1db.put [107] [42]).2 = Except.ok () ∧
    (applyOps (c1db.put [107] [42]).1
      [Op.putOp [97] [9], Op.delOp [97], Op.mergeOp]).get [107] = Except.ok [42] :=
  C1_put_roundtrip c1db ⟨c1opts, [Op.putOp [97] [7]], by decide, by decide, rfl⟩
    [107] [42] (by decide) (by decide) [Op.putOp [97] [9], Op.delOp [97], Op.mergeOp]
    (by decide) (by decide)

end BetaDB
